import Mathlib

/-!
# PatternMatchByNCC: the SSE2 dot-product kernel, the match-score engine and the OpenMP thread guard

A shallow embedding of `SIMDConv/SIMDConv.cpp` and `PatternMatchNative/src/OmpThreadGuard.cpp`.

* `unsigned char` is `Fin 256`. The value an `int` holds after an arithmetic result is stored
  in it is `wrap32` of that result (two's complement, 32 bits): the sums the kernel accumulates
  and the products `r * resultStride` and `r * srcStride` of the engine are passed through
  `wrap32`. Loop counters are exact `Int`s, since a counter stays between its start and its
  bound, and so is `Block * iBlockSize`, whose magnitude is at most that of `iLength`.
* A buffer is a `List`; a pointer into it is an `Int` offset from its first element, and
  pointer arithmetic (64 bits wide) is exact. A read or write outside the list is undefined
  behaviour in C++ and makes the embedded function return `none`.
* The engine is embedded twice: on three buffers that are different objects (the result buffer
  given as `float` cells), and on one byte-addressed memory in which the result cells may overlap
  the source or the template (a `float` is stored as the four bytes of its binary32 pattern).
* Every `for` loop is a structurally recursive function that tests the loop condition itself;
  its fuel is the distance between the counter and its bound, and running out of fuel is
  `none` as well.
* The functions are instrumented: they also report the bytes they read, whether a signed
  32-bit addition left the `int` range, and how often the kernel was invoked.
-/

namespace SIMDConv

/-! ## Machine data -/

/-- An `unsigned char`. -/
abbrev Byte := Fin 256

/-- The value a 32-bit two's complement `int` holds after the arithmetic result `x` is stored
in it. -/
def wrap32 (x : Int) : Int := (x + 2147483648) % 4294967296 - 2147483648

/-- Signed reading of a 16-bit lane. -/
def toInt16 (u : Nat) : Int := if u < 32768 then (u : Int) else (u : Int) - 65536

/-- Signed reading of a 32-bit lane. -/
def toInt32 (u : Nat) : Int := if u < 2147483648 then (u : Int) else (u : Int) - 4294967296

/-- A 32-bit word of a register. -/
abbrev Word32 := Fin 4294967296

/-- The 32-bit word that holds the integer `x` reduced modulo `2^32`. -/
def toWord32 (x : Int) : Word32 :=
  ⟨(x % 4294967296).toNat, by
    have h1 := Int.emod_nonneg x (by decide : (4294967296 : Int) ≠ 0)
    have h2 := Int.emod_lt_of_pos x (by decide : (0 : Int) < 4294967296)
    omega⟩

/-- A 128-bit SSE2 register (`__m128i`), stored as its four 32-bit words, `d0` the least
significant. The byte, 16-bit and 32-bit lanes are the little-endian views of these words. -/
structure M128i where
  d0 : Word32
  d1 : Word32
  d2 : Word32
  d3 : Word32
  deriving DecidableEq

/-- Unsigned 32-bit lane `j` of a register. -/
def M128i.dword (v : M128i) (j : Fin 4) : Nat :=
  match j.val with
  | 0 => v.d0.val
  | 1 => v.d1.val
  | 2 => v.d2.val
  | _ => v.d3.val

/-- Byte lane `i` of a register. -/
def M128i.byte (v : M128i) (i : Fin 16) : Nat :=
  (v.dword ⟨i.val / 4, by omega⟩ / 256 ^ (i.val % 4)) % 256

/-- Signed 16-bit lane `j` of a register. -/
def epi16 (v : M128i) (j : Fin 8) : Int :=
  toInt16 ((v.dword ⟨j.val / 2, by omega⟩ / 65536 ^ (j.val % 2)) % 65536)

/-- Signed 32-bit lane `j` of a register. -/
def epi32 (v : M128i) (j : Fin 4) : Int := toInt32 (v.dword j)

/-- The 32-bit word made of four consecutive byte lanes, lowest first. -/
def packWord (b0 b1 b2 b3 : Nat) : Word32 :=
  toWord32 ((b0 % 256 + 256 * (b1 % 256) + 65536 * (b2 % 256) + 16777216 * (b3 % 256) : Nat) : Int)

/-- The register whose byte lane `i` holds `b i` (modulo 256). -/
def ofBytes (b : Fin 16 → Nat) : M128i :=
  { d0 := packWord (b 0) (b 1) (b 2) (b 3)
    d1 := packWord (b 4) (b 5) (b 6) (b 7)
    d2 := packWord (b 8) (b 9) (b 10) (b 11)
    d3 := packWord (b 12) (b 13) (b 14) (b 15) }

/-- The register whose 32-bit lane `j` holds `l j` reduced modulo `2^32`. -/
def ofLanes32 (l : Fin 4 → Int) : M128i :=
  { d0 := toWord32 (l 0), d1 := toWord32 (l 1), d2 := toWord32 (l 2), d3 := toWord32 (l 3) }

/-- Whether one of four exact lane results does not fit a signed 32-bit lane. -/
def lanesOverflow (l : Fin 4 → Int) : Bool :=
  wrap32 (l 0) != l 0 || wrap32 (l 1) != l 1 || wrap32 (l 2) != l 2 || wrap32 (l 3) != l 3

/-! ## The SSE2 intrinsics used by the kernel -/

/-- The intrinsic `_mm_setzero_si128()`. -/
def _mm_setzero_si128 : M128i := { d0 := 0, d1 := 0, d2 := 0, d3 := 0 }

/-- The intrinsic `_mm_loadu_si128((__m128i*)(m + p))`: the sixteen bytes `m[p] .. m[p+15]`;
`none` when one of them lies outside the buffer. -/
def _mm_loadu_si128 (m : List Byte) (p : Int) : Option M128i :=
  if 0 ≤ p ∧ p + 16 ≤ (m.length : Int) then
    some (ofBytes (fun i => (m.getD (p.toNat + i.val) 0).val))
  else none

/-- The intrinsic `_mm_unpacklo_epi8(a, b)`: interleaves the eight low bytes of `a` and `b`,
those of `a` in the even byte lanes. -/
def _mm_unpacklo_epi8 (a b : M128i) : M128i :=
  ofBytes (fun i =>
    if i.val % 2 = 0 then a.byte ⟨i.val / 2, by omega⟩ else b.byte ⟨i.val / 2, by omega⟩)

/-- The intrinsic `_mm_unpackhi_epi8(a, b)`: interleaves the eight high bytes of `a` and `b`,
those of `a` in the even byte lanes. -/
def _mm_unpackhi_epi8 (a b : M128i) : M128i :=
  ofBytes (fun i =>
    if i.val % 2 = 0 then a.byte ⟨8 + i.val / 2, by omega⟩ else b.byte ⟨8 + i.val / 2, by omega⟩)

/-- Exact lane results of `_mm_madd_epi16`: the signed 16-bit lanes are multiplied and
adjacent products are added. -/
def maddLanes (a b : M128i) : Fin 4 → Int := fun j =>
  epi16 a ⟨2 * j.val, by omega⟩ * epi16 b ⟨2 * j.val, by omega⟩
    + epi16 a ⟨2 * j.val + 1, by omega⟩ * epi16 b ⟨2 * j.val + 1, by omega⟩

/-- The intrinsic `_mm_madd_epi16(a, b)`. -/
def _mm_madd_epi16 (a b : M128i) : M128i := ofLanes32 (maddLanes a b)

/-- Exact lane results of `_mm_add_epi32`. -/
def addLanes (a b : M128i) : Fin 4 → Int := fun j => epi32 a j + epi32 b j

/-- The intrinsic `_mm_add_epi32(a, b)`: lane-wise addition modulo `2^32`. -/
def _mm_add_epi32 (a b : M128i) : M128i := ofLanes32 (addLanes a b)

/-- The intrinsic `_mm_storeu_si128((__m128i*)temp, v)` with `int temp[4]`: `temp[j]`. -/
def _mm_storeu_si128 (v : M128i) (j : Fin 4) : Int := epi32 v j

/-! ## Memory -/

/-- The two pointer parameters of the kernel. -/
inductive Operand where
  | kernel
  | conv
  deriving DecidableEq

/-- One byte read: through which pointer parameter, and at which offset of its buffer. -/
structure Read where
  op : Operand
  addr : Int
  deriving DecidableEq

/-- The byte `m[i]`, `none` outside the buffer. -/
def readByte (m : List Byte) (i : Int) : Option Byte :=
  if i < 0 then none else m[i.toNat]?

/-- The sixteen byte reads of one `_mm_loadu_si128` at offset `p`. -/
def loadReads (op : Operand) (p : Int) : List Read :=
  (List.range 16).map (fun (i : Nat) => ⟨op, p + (i : Int)⟩)

/-! ## `Native_IM_Conv_SIMD` -/

/-- State of the vector loop of the kernel. -/
structure VecState where
  SumV : M128i
  wrapped : Bool
  reads : List Read
  deriving DecidableEq

/-- What a run of the kernel produces: the returned `int`, whether a signed 32-bit addition
left the `int` range on the way, and the bytes read, in order. -/
structure KernelRun where
  ret : Int
  wrapped : Bool
  reads : List Read
  deriving DecidableEq

/-- Body of the vector loop (lines 80-87) at counter `Y`. -/
def vecBody (pCharKernel : List Byte) (pk : Int) (pCharConv : List Byte) (pc : Int)
    (Y : Int) (st : VecState) : Option VecState :=
  let Zero := _mm_setzero_si128
  match _mm_loadu_si128 pCharKernel (pk + Y), _mm_loadu_si128 pCharConv (pc + Y) with
  | some SrcK, some SrcC =>
    let SrcK_L := _mm_unpacklo_epi8 SrcK Zero
    let SrcK_H := _mm_unpackhi_epi8 SrcK Zero
    let SrcC_L := _mm_unpacklo_epi8 SrcC Zero
    let SrcC_H := _mm_unpackhi_epi8 SrcC Zero
    let lo := _mm_madd_epi16 SrcK_L SrcC_L
    let hi := _mm_madd_epi16 SrcK_H SrcC_H
    let SumT := _mm_add_epi32 lo hi
    some
      { SumV := _mm_add_epi32 st.SumV SumT
        wrapped := st.wrapped || lanesOverflow (maddLanes SrcK_L SrcC_L)
          || lanesOverflow (maddLanes SrcK_H SrcC_H) || lanesOverflow (addLanes lo hi)
          || lanesOverflow (addLanes st.SumV SumT)
        reads := st.reads ++ loadReads Operand.kernel (pk + Y) ++ loadReads Operand.conv (pc + Y) }
  | _, _ => none

/-- The loop `for (int Y = 0; Y < Block * iBlockSize; Y += iBlockSize)` (lines 78-88), entered
at counter `Y`. -/
def vecLoop (pCharKernel : List Byte) (pk : Int) (pCharConv : List Byte) (pc : Int)
    (limit : Int) : Nat → Int → VecState → Option VecState
  | 0, Y, st => if Y < limit then none else some st
  | fuel + 1, Y, st =>
    if Y < limit then
      match vecBody pCharKernel pk pCharConv pc Y st with
      | some st1 => vecLoop pCharKernel pk pCharConv pc limit fuel (Y + 16) st1
      | none => none
    else some st

/-- Body of the scalar loop (line 97) at counter `Y`: `sum += pCharKernel[Y] * pCharConv[Y]`. -/
def scalarBody (pCharKernel : List Byte) (pk : Int) (pCharConv : List Byte) (pc : Int)
    (Y : Int) (st : KernelRun) : Option KernelRun :=
  match readByte pCharKernel (pk + Y), readByte pCharConv (pc + Y) with
  | some k, some c =>
    some
      { ret := wrap32 (st.ret + (k.val : Int) * (c.val : Int))
        wrapped := st.wrapped
          || wrap32 (st.ret + (k.val : Int) * (c.val : Int)) != st.ret + (k.val : Int) * (c.val : Int)
        reads := st.reads ++ [⟨Operand.kernel, pk + Y⟩, ⟨Operand.conv, pc + Y⟩] }
  | _, _ => none

/-- The loop `for (int Y = Block * iBlockSize; Y < iLength; Y++)` (lines 95-98), entered at
counter `Y`. -/
def scalarLoop (pCharKernel : List Byte) (pk : Int) (pCharConv : List Byte) (pc : Int)
    (iLength : Int) : Nat → Int → KernelRun → Option KernelRun
  | 0, Y, st => if Y < iLength then none else some st
  | fuel + 1, Y, st =>
    if Y < iLength then
      match scalarBody pCharKernel pk pCharConv pc Y st with
      | some st1 => scalarLoop pCharKernel pk pCharConv pc iLength fuel (Y + 1) st1
      | none => none
    else some st

/-- The function `Native_IM_Conv_SIMD(pCharKernel, pCharConv, iLength)` (lines 71-101), with its
instrumentation. The pointer `pCharKernel` is offset `pk` of the buffer `pCharKernel`, and
likewise `pCharConv`. `iLength / iBlockSize` is C's division, which truncates towards zero. -/
def Native_IM_Conv_SIMD_run (pCharKernel : List Byte) (pk : Int) (pCharConv : List Byte)
    (pc : Int) (iLength : Int) : Option KernelRun :=
  let iBlockSize : Int := 16
  let Block : Int := Int.tdiv iLength iBlockSize
  let SumV : M128i := _mm_setzero_si128
  match vecLoop pCharKernel pk pCharConv pc (Block * iBlockSize) (Block * iBlockSize).toNat 0
      { SumV := SumV, wrapped := false, reads := [] } with
  | none => none
  | some v =>
    let temp := _mm_storeu_si128 v.SumV
    let s01 := temp 0 + temp 1
    let s012 := wrap32 s01 + temp 2
    let s0123 := wrap32 s012 + temp 3
    let sum := wrap32 s0123
    scalarLoop pCharKernel pk pCharConv pc iLength (iLength - Block * iBlockSize).toNat
      (Block * iBlockSize)
      { ret := sum
        wrapped := v.wrapped || wrap32 s01 != s01 || wrap32 s012 != s012 || wrap32 s0123 != s0123
        reads := v.reads }

/-- The `int` returned by `Native_IM_Conv_SIMD(pCharKernel + pk, pCharConv + pc, iLength)`. -/
def Native_IM_Conv_SIMD (pCharKernel : List Byte) (pk : Int) (pCharConv : List Byte)
    (pc : Int) (iLength : Int) : Option Int :=
  (Native_IM_Conv_SIMD_run pCharKernel pk pCharConv pc iLength).map KernelRun.ret

/-- What the vector loop hands on that does not depend on the order of the two operands. -/
def vecCore (s : VecState) : M128i × Bool := (s.SumV, s.wrapped)

/-- What a kernel run yields that does not depend on the order of the two operands. -/
def runCore (s : KernelRun) : Int × Bool := (s.ret, s.wrapped)

/-! ## `SIMDWrapper::IM_Conv_SIMD` -/

/-- A non-null `IntPtr`: the buffer it points into and the offset of the byte it points to. -/
structure BytePtr where
  buf : List Byte
  off : Int
  deriving DecidableEq

/-- The function `SIMDWrapper::IM_Conv_SIMD(pKernel, pConv, length)` (lines 14-23), with the
instrumentation of the kernel. An `IntPtr` is `none` when it is `IntPtr::Zero`. -/
def IM_Conv_SIMD_run (pKernel pConv : Option BytePtr) (length : Int) : Option KernelRun :=
  if h : length ≤ 0 ∨ pKernel = none ∨ pConv = none then
    some { ret := 0, wrapped := false, reads := [] }
  else
    let pk := pKernel.get (Option.ne_none_iff_isSome.1 (fun e => h (Or.inr (Or.inl e))))
    let pc := pConv.get (Option.ne_none_iff_isSome.1 (fun e => h (Or.inr (Or.inr e))))
    Native_IM_Conv_SIMD_run pk.buf pk.off pc.buf pc.off length

/-- The `int` returned by `SIMDWrapper::IM_Conv_SIMD(pKernel, pConv, length)`. -/
def IM_Conv_SIMD (pKernel pConv : Option BytePtr) (length : Int) : Option Int :=
  (IM_Conv_SIMD_run pKernel pConv length).map KernelRun.ret

/-! ## `float` arithmetic of the match-score engine

The engine converts `int`s to `float` and adds `float`s, starting from `0.0f`. Every value that
arises is therefore an integer, and IEEE-754 binary32 arithmetic (round to nearest, ties to
even) on such values is integer arithmetic followed by rounding to 24 significant bits. A
`float` is represented by the integer it holds. (Sums stay far below the largest finite
binary32 value: once a sum reaches `2^56`, adding an `int` no longer changes it.) -/

/-- A `float` that holds an integer value, given by that integer. On a result buffer of its own
the engine only writes result cells and never reads one, so what a cell held before the call
is kept or replaced as it is. -/
structure F32 where
  val : Int
  deriving DecidableEq

/-- The exponent `e` of the binary32 spacing `2^e` around the natural number `n`: the least `e`
with `n / 2^e < 2^24` (the first argument is fuel, `n` itself is enough). -/
def ulpExp : Nat → Nat → Nat
  | 0, _ => 0
  | fuel + 1, n => if n < 16777216 then 0 else ulpExp fuel (n / 2) + 1

/-- Rounding of the integer `x` to the nearest binary32 value, ties to even. -/
def roundF32 (x : Int) : Int :=
  let n := x.natAbs
  let e := ulpExp n n
  let q := n / 2 ^ e
  let r := n % 2 ^ e
  let q1 := if 2 ^ e < 2 * r ∨ (2 * r = 2 ^ e ∧ q % 2 = 1) then q + 1 else q
  Int.sign x * ((q1 * 2 ^ e : Nat) : Int)

/-- The conversion `(float)i` of an `int`. -/
def F32.ofInt32 (i : Int) : F32 := { val := roundF32 i }

/-- The `float` addition `a + b`. -/
def F32.add (a b : F32) : F32 := { val := roundF32 (a.val + b.val) }

/-! ## `SIMDWrapper::MatchTemplate_SIMD` -/

/-- State of the loop over the template rows: the accumulator `sum` and the instrumentation. -/
structure CellRun where
  sum : F32
  calls : Nat
  reads : List Read
  deriving DecidableEq

/-- What a run of the engine produces: the contents of the result buffer, the number of kernel
invocations, and the bytes read (`Operand.kernel` is the template, `Operand.conv` the source). -/
structure MatchRun where
  result : List F32
  calls : Nat
  reads : List Read
  deriving DecidableEq

/-- The store `m[i] = v`, `none` outside the buffer. -/
def writeCell (m : List F32) (i : Int) (v : F32) : Option (List F32) :=
  if 0 ≤ i ∧ i < (m.length : Int) then some (m.set i.toNat v) else none

/-- The loop `for (int t_r = 0; t_r < tplHeight; ++t_r, r_sub_source += srcStride,
r_template += tplStride)` (lines 44-47), entered at counter `t_r`. -/
def tplLoop (pSrc : List Byte) (srcStride : Int) (pTpl : List Byte) (tplWidth tplHeight
    tplStride : Int) : Nat → Int → Int → Int → CellRun → Option CellRun
  | 0, t_r, _, _, st => if t_r < tplHeight then none else some st
  | fuel + 1, t_r, r_sub_source, r_template, st =>
    if t_r < tplHeight then
      match Native_IM_Conv_SIMD_run pTpl r_template pSrc r_sub_source tplWidth with
      | some k =>
        tplLoop pSrc srcStride pTpl tplWidth tplHeight tplStride fuel (t_r + 1)
          (r_sub_source + srcStride) (r_template + tplStride)
          { sum := F32.add st.sum (F32.ofInt32 k.ret)
            calls := st.calls + 1
            reads := st.reads ++ k.reads }
      | none => none
    else some st

/-- Body of the loop over the result columns (lines 40-48): one result cell. The pointer `pTpl`
is offset `pt` of the buffer `pTpl`. -/
def cellBody (pSrc : List Byte) (srcStride : Int) (pTpl : List Byte) (pt : Int) (tplWidth
    tplHeight tplStride : Int) (r_matResult r_source : Int) (st : MatchRun) : Option MatchRun :=
  let sum : F32 := { val := 0 }
  let r_template : Int := pt
  let r_sub_source : Int := r_source
  match tplLoop pSrc srcStride pTpl tplWidth tplHeight tplStride tplHeight.toNat 0
      r_sub_source r_template { sum := sum, calls := st.calls, reads := st.reads } with
  | some cell =>
    match writeCell st.result r_matResult cell.sum with
    | some res => some { result := res, calls := cell.calls, reads := cell.reads }
    | none => none
  | none => none

/-- The loop `for (int c = 0; c < resultWidth; ++c, ++r_matResult, ++r_source)` (lines 38-50),
entered at counter `c`. -/
def colLoop (pSrc : List Byte) (srcStride : Int) (pTpl : List Byte) (pt : Int) (tplWidth
    tplHeight tplStride : Int) (resultWidth : Int) :
    Nat → Int → Int → Int → MatchRun → Option MatchRun
  | 0, c, _, _, st => if c < resultWidth then none else some st
  | fuel + 1, c, r_matResult, r_source, st =>
    if c < resultWidth then
      match cellBody pSrc srcStride pTpl pt tplWidth tplHeight tplStride r_matResult r_source
          st with
      | some st1 =>
        colLoop pSrc srcStride pTpl pt tplWidth tplHeight tplStride resultWidth fuel (c + 1)
          (r_matResult + 1) (r_source + 1) st1
      | none => none
    else some st

/-- The loop `for (int r = 0; r < resultHeight; ++r)` (lines 33-52), entered at counter `r`.
The pointers `pSrc` and `result` are the offsets `ps` and `pr` of their buffers. The products
`r * resultStride` and `r * srcStride` of lines 35 and 36 multiply two `int`s: the pointer is
advanced by the 32-bit two's complement value of the product. -/
def rowLoop (pSrc : List Byte) (ps : Int) (srcStride : Int) (pTpl : List Byte) (pt : Int)
    (tplWidth tplHeight tplStride : Int) (pr : Int) (resultWidth resultHeight resultStride : Int) :
    Nat → Int → MatchRun → Option MatchRun
  | 0, r, st => if r < resultHeight then none else some st
  | fuel + 1, r, st =>
    if r < resultHeight then
      let r_matResult : Int := pr + wrap32 (r * resultStride)
      let r_source : Int := ps + wrap32 (r * srcStride)
      match colLoop pSrc srcStride pTpl pt tplWidth tplHeight tplStride resultWidth
          resultWidth.toNat 0 r_matResult r_source st with
      | some st1 =>
        rowLoop pSrc ps srcStride pTpl pt tplWidth tplHeight tplStride pr resultWidth
          resultHeight resultStride fuel (r + 1) st1
      | none => none
    else some st

/-- The function `SIMDWrapper::MatchTemplate_SIMD` (lines 25-68). The pointer `pSrc` is offset
`ps` of the buffer `pSrc`, `pTpl` is offset `pt` of the buffer `pTpl`, and `result` is cell `pr`
of the buffer `pResult`, which is given with its contents before the call, as `float` cells.
The three buffers are three different objects. `srcWidth` and `srcHeight` are not used by the
code. -/
def MatchTemplate_SIMD (pSrc : List Byte) (ps : Int) (_srcWidth _srcHeight srcStride : Int)
    (pTpl : List Byte) (pt : Int) (tplWidth tplHeight tplStride : Int)
    (pResult : List F32) (pr : Int) (resultWidth resultHeight resultStride : Int) :
    Option MatchRun :=
  rowLoop pSrc ps srcStride pTpl pt tplWidth tplHeight tplStride pr resultWidth resultHeight
    resultStride resultHeight.toNat 0 { result := pResult, calls := 0, reads := [] }

/-! ## Reference values the claims compare the code with -/

/-- The byte `m[i]` as an integer, `0` outside the buffer. -/
def byteVal (m : List Byte) (i : Int) : Int :=
  match readByte m i with
  | some b => (b.val : Int)
  | none => 0

/-- The `float` cell `m[i]`, `none` outside the buffer. -/
def readCell (m : List F32) (i : Int) : Option F32 :=
  if i < 0 then none else m[i.toNat]?

/-- Reference dot product: the exact integer sum of `a[pa + i] * b[pb + i]` over `i < n`. -/
def dotExact (a : List Byte) (pa : Int) (b : List Byte) (pb : Int) (n : Nat) : Int :=
  ∑ i ∈ Finset.range n, byteVal a (pa + (i : Int)) * byteVal b (pb + (i : Int))

/-- The exact contribution of the sixteen bytes at `a + pa` and `b + pb` to 32-bit lane `j` of
the vector accumulator: the products at the byte offsets `2j`, `2j+1`, `8+2j` and `9+2j`. -/
def blockLane (a : List Byte) (pa : Int) (b : List Byte) (pb : Int) (j : Fin 4) : Int :=
  byteVal a (pa + ((2 * j.val : Nat) : Int)) * byteVal b (pb + ((2 * j.val : Nat) : Int))
    + byteVal a (pa + ((2 * j.val + 1 : Nat) : Int)) * byteVal b (pb + ((2 * j.val + 1 : Nat) : Int))
    + (byteVal a (pa + ((8 + 2 * j.val : Nat) : Int)) * byteVal b (pb + ((8 + 2 * j.val : Nat) : Int))
      + byteVal a (pa + ((8 + (2 * j.val + 1) : Nat) : Int))
        * byteVal b (pb + ((8 + (2 * j.val + 1) : Nat) : Int)))

/-- The exact sum of the four signed 32-bit lanes of a register. -/
def laneSum (v : M128i) : Int := epi32 v 0 + epi32 v 1 + epi32 v 2 + epi32 v 3

/-- The exact sum, over the first `n` template rows, of the dot products of the template row at
`pTpl + rt + k * tplStride` with the source bytes at `pSrc + rs + k * srcStride`. -/
def rowsExact (pSrc : List Byte) (srcStride : Int) (pTpl : List Byte) (tplWidth tplStride : Int)
    (rs rt : Int) (n : Nat) : Int :=
  ∑ k ∈ Finset.range n,
    dotExact pTpl (rt + (k : Int) * tplStride) pSrc (rs + (k : Int) * srcStride) tplWidth.toNat

/-- The product of every row counter `r` in `[0, rows)` with `stride` is an `int` value: the
multiplications of lines 35 and 36 do not overflow. -/
def RowOffsetsFit (rows stride : Int) : Prop :=
  ∀ r : Int, 0 ≤ r → r < rows → -2147483648 ≤ r * stride ∧ r * stride ≤ 2147483647

/-- Reference scalar loop: `sum += a[pa + i] * b[pb + i]` for `i < n`, from `sum = 0`, with a
32-bit accumulator that wraps around. -/
def scalarDot (a : List Byte) (pa : Int) (b : List Byte) (pb : Int) : Nat → Int
  | 0 => 0
  | n + 1 =>
    wrap32 (scalarDot a pa b pb n + byteVal a (pa + (n : Int)) * byteVal b (pb + (n : Int)))

/-- The reads of `n` iterations of the scalar loop entered at counter `Y`: at every counter one
byte through each pointer. -/
def scalarReads (pk pc : Int) : Nat → Int → List Read
  | 0, _ => []
  | n + 1, Y =>
    ⟨Operand.kernel, pk + Y⟩ :: ⟨Operand.conv, pc + Y⟩ :: scalarReads pk pc n (Y + 1)

/-- The reads of `n` iterations of the vector loop entered at counter `Y`: at every counter one
16-byte load through each pointer. -/
def vectorReads (pk pc : Int) : Nat → Int → List Read
  | 0, _ => []
  | n + 1, Y =>
    loadReads Operand.kernel (pk + Y) ++ loadReads Operand.conv (pc + Y)
      ++ vectorReads pk pc n (Y + 16)

/-- A logged read lies inside the buffer it was made through. -/
def Read.inBounds (pCharKernel pCharConv : List Byte) (rd : Read) : Prop :=
  0 ≤ rd.addr ∧ rd.addr
    < (((if rd.op = Operand.kernel then pCharKernel.length else pCharConv.length) : Nat) : Int)

/-- The `float` the engine computes for a result cell whose source window starts at offset
`r_source`: the accumulator after the loop over the template rows, run from `sum = 0.0f`. -/
def cellSum (pSrc : List Byte) (srcStride : Int) (pTpl : List Byte) (pt : Int) (tplWidth
    tplHeight tplStride : Int) (r_source : Int) : Option F32 :=
  (tplLoop pSrc srcStride pTpl tplWidth tplHeight tplStride tplHeight.toNat 0 r_source pt
    { sum := { val := 0 }, calls := 0, reads := [] }).map CellRun.sum

/-- The position of the leading binary digit of `n` (the first argument is fuel, `n` itself is
enough). -/
def leadingBit : Nat → Nat → Nat
  | 0, _ => 0
  | fuel + 1, n => if n < 2 then 0 else leadingBit fuel (n / 2) + 1

/-- The IEEE-754 binary32 bit pattern of a `float` that holds the integer `x.val` (sign bit,
exponent biased by 127, 23 fraction bits; an integer of 2^128 or more in magnitude is an
infinity). The engine only stores such values: sums of converted `int`s, starting from `0.0f`. -/
def F32.bits (x : F32) : Nat :=
  if x.val = 0 then 0
  else
    let m := x.val.natAbs
    let e := leadingBit m m
    let sign := if x.val < 0 then 2147483648 else 0
    if 128 ≤ e then sign + 255 * 8388608
    else
      let significand := if e ≤ 23 then m * 2 ^ (23 - e) else m / 2 ^ (e - 23)
      sign + (e + 127) * 8388608 + (significand - 8388608)

/-- Byte `j` of a `float` in memory (little-endian). -/
def F32.byte (x : F32) (j : Nat) : Byte :=
  ⟨x.bits / 256 ^ j % 256, Nat.mod_lt _ (by decide)⟩

/-- The store `*(float*)(m + a) = v` into a byte-addressed memory: the four bytes from address
`a`, `none` outside the memory. -/
def storeFloat (m : List Byte) (a : Int) (v : F32) : Option (List Byte) :=
  if 0 ≤ a ∧ a + 4 ≤ (m.length : Int) then
    some ((((m.set a.toNat (v.byte 0)).set (a.toNat + 1) (v.byte 1)).set (a.toNat + 2)
      (v.byte 2)).set (a.toNat + 3) (v.byte 3))
  else none

/-- What a run of the engine on one memory produces: the memory after the call, the number of
kernel invocations, and the bytes read (`Operand.kernel` through the template pointer,
`Operand.conv` through the source pointer), by address. -/
structure MemRun where
  mem : List Byte
  calls : Nat
  reads : List Read
  deriving DecidableEq

/-- Body of the loop over the result columns (lines 40-48) when source, template and result lie
in one memory: the kernel reads the memory as it is when the cell is computed, and line 48 stores
the four bytes of `sum` at the address `r_matResult`. -/
def cellBodyMem (srcStride pTpl tplWidth tplHeight tplStride : Int)
    (r_matResult r_source : Int) (st : MemRun) : Option MemRun :=
  let sum : F32 := { val := 0 }
  let r_template : Int := pTpl
  let r_sub_source : Int := r_source
  match tplLoop st.mem srcStride st.mem tplWidth tplHeight tplStride tplHeight.toNat 0
      r_sub_source r_template { sum := sum, calls := st.calls, reads := st.reads } with
  | some cell =>
    match storeFloat st.mem r_matResult cell.sum with
    | some m => some { mem := m, calls := cell.calls, reads := cell.reads }
    | none => none
  | none => none

/-- The loop over the result columns (lines 38-50) on one memory, entered at counter `c`:
`++r_matResult` advances the address by the four bytes of a `float`. -/
def colLoopMem (srcStride pTpl tplWidth tplHeight tplStride : Int) (resultWidth : Int) :
    Nat → Int → Int → Int → MemRun → Option MemRun
  | 0, c, _, _, st => if c < resultWidth then none else some st
  | fuel + 1, c, r_matResult, r_source, st =>
    if c < resultWidth then
      match cellBodyMem srcStride pTpl tplWidth tplHeight tplStride r_matResult r_source st with
      | some st1 =>
        colLoopMem srcStride pTpl tplWidth tplHeight tplStride resultWidth fuel (c + 1)
          (r_matResult + 4) (r_source + 1) st1
      | none => none
    else some st

/-- The loop over the result rows (lines 33-52) on one memory, entered at counter `r`:
`result + r * resultStride` is the address `pResult + 4 * (r * resultStride)`, the product
being an `int`. -/
def rowLoopMem (pSrc srcStride pTpl tplWidth tplHeight tplStride : Int)
    (pResult resultWidth resultHeight resultStride : Int) :
    Nat → Int → MemRun → Option MemRun
  | 0, r, st => if r < resultHeight then none else some st
  | fuel + 1, r, st =>
    if r < resultHeight then
      let r_matResult : Int := pResult + 4 * wrap32 (r * resultStride)
      let r_source : Int := pSrc + wrap32 (r * srcStride)
      match colLoopMem srcStride pTpl tplWidth tplHeight tplStride resultWidth
          resultWidth.toNat 0 r_matResult r_source st with
      | some st1 =>
        rowLoopMem pSrc srcStride pTpl tplWidth tplHeight tplStride pResult resultWidth
          resultHeight resultStride fuel (r + 1) st1
      | none => none
    else some st

/-- The function `SIMDWrapper::MatchTemplate_SIMD` (lines 25-68) when its three pointers are
the addresses `pSrc`, `pTpl` and `pResult` of one byte-addressed memory `mem`, so that the
result cells may overlap the source or the template. -/
def MatchTemplate_SIMD_mem (mem : List Byte) (pSrc _srcWidth _srcHeight srcStride : Int)
    (pTpl tplWidth tplHeight tplStride : Int)
    (pResult resultWidth resultHeight resultStride : Int) : Option MemRun :=
  rowLoopMem pSrc srcStride pTpl tplWidth tplHeight tplStride pResult resultWidth resultHeight
    resultStride resultHeight.toNat 0 { mem := mem, calls := 0, reads := [] }

/-- The address `a` is one of the four bytes of a result cell `r * resultStride + c` with `r` in
`[0, resultHeight)` and `c` in `[0, resultWidth)`, `resultStride` counting `float` cells. -/
def CellByte (pResult resultWidth resultHeight resultStride : Int) (a : Int) : Prop :=
  ∃ r c : Int, 0 ≤ r ∧ r < resultHeight ∧ 0 ≤ c ∧ c < resultWidth
    ∧ pResult + 4 * (r * resultStride + c) ≤ a ∧ a < pResult + 4 * (r * resultStride + c) + 4

end SIMDConv

namespace PatternMatch

/-! ## `OmpThreadGuard` -/

/-- Modelled from the spec: the thread pool of `omp.h`, which is not among the sources, is
the process-wide worker ceiling, read by `omp_get_max_threads` and set by
`omp_set_num_threads`. -/
structure Omp where
  ceiling : Int
  deriving DecidableEq

/-- Modelled from the spec: `omp_get_max_threads()` of `omp.h` returns the current ceiling. -/
def omp_get_max_threads (s : Omp) : Int := s.ceiling

/-- Modelled from the spec: `omp_set_num_threads(n)` of `omp.h` sets the ceiling to `n`. -/
def omp_set_num_threads (n : Int) (_s : Omp) : Omp := { ceiling := n }

/-- The class `OmpThreadGuard`: its only member. -/
structure OmpThreadGuard where
  prev_threads_ : Int
  deriving DecidableEq

/-- The constructor `OmpThreadGuard::OmpThreadGuard(int new_threads)`: the constructed object and
the thread pool after it. -/
def OmpThreadGuard.ctor (new_threads : Int) (s : Omp) : OmpThreadGuard × Omp :=
  let prev_threads_ := omp_get_max_threads s
  ({ prev_threads_ := prev_threads_ }, omp_set_num_threads (max 1 new_threads) s)

/-- The destructor `OmpThreadGuard::~OmpThreadGuard()`. -/
def OmpThreadGuard.dtor (g : OmpThreadGuard) (s : Omp) : Omp :=
  omp_set_num_threads g.prev_threads_ s

/-- A properly nested sequence of guard lifetimes: nothing, or a scope
`{ OmpThreadGuard g(N); inner }` followed by the rest of the sequence. -/
inductive Nest where
  | done : Nest
  | scope (N : Int) (inner : Nest) (rest : Nest) : Nest

/-- What is observed of one guard lifetime in a nested run: the requested count, the requested
count of the immediately enclosing guard (if there is one), and the ceiling just before the
construction, just after it, and just after the destruction. -/
structure Lifetime where
  requested : Int
  enclosing : Option Int
  before : Int
  inside : Int
  after : Int
  deriving DecidableEq

/-- Runs a properly nested sequence: every scope constructs its guard, runs its inner sequence
and destroys its guard. Returns the thread pool at the end and the lifetimes observed, in order
of construction. `encl` is the requested count of the guard enclosing the sequence. -/
def Nest.run : Nest → Option Int → Omp → Omp × List Lifetime
  | Nest.done, _, s => (s, [])
  | Nest.scope N inner rest, encl, s =>
    let gs := OmpThreadGuard.ctor N s
    let r1 := Nest.run inner (some N) gs.2
    let s2 := OmpThreadGuard.dtor gs.1 r1.1
    let r3 := Nest.run rest encl s2
    (r3.1,
      { requested := N, enclosing := encl, before := omp_get_max_threads s,
        inside := omp_get_max_threads gs.2, after := omp_get_max_threads s2 } :: r1.2 ++ r3.2)

/-- Two guards whose lifetimes overlap without being nested: `g1(N1)` is constructed, then
`g2(N2)`, then `g1` is destroyed, then `g2`. -/
def overlappingGuards (N1 N2 : Int) (s : Omp) : Omp :=
  let g1 := OmpThreadGuard.ctor N1 s
  let g2 := OmpThreadGuard.ctor N2 g1.2
  let s3 := OmpThreadGuard.dtor g1.1 g2.2
  OmpThreadGuard.dtor g2.1 s3

end PatternMatch

/-! # Theorems -/

namespace PatternMatch

/-! ## The thread guard -/

theorem ctor_ceiling (N : Int) (s : Omp) :
    omp_get_max_threads (OmpThreadGuard.ctor N s).2 = max 1 N := rfl

theorem ctor_prev (N : Int) (s : Omp) :
    (OmpThreadGuard.ctor N s).1.prev_threads_ = s.ceiling := rfl

theorem dtor_ctor (N : Int) (s t : Omp) :
    OmpThreadGuard.dtor (OmpThreadGuard.ctor N s).1 t = s := rfl

/-- C3: constructing `OmpThreadGuard(N)` at ceiling `c0`, letting the guarded body change the
ceiling in any way, and destroying the guard leaves the ceiling equal to `c0`: the destructor
restores the value recorded at construction, not what the body left behind. -/
theorem guard_restores_initial_ceiling (c0 N : Int) (body : Omp → Omp) :
    omp_get_max_threads
      (OmpThreadGuard.dtor (OmpThreadGuard.ctor N { ceiling := c0 }).1
        (body (OmpThreadGuard.ctor N { ceiling := c0 }).2)) = c0 := rfl

/-- C4: immediately after constructing `OmpThreadGuard(N)` the ceiling is `max 1 N`, for every
integer `N` and every initial ceiling; it is never below 1 and equals `N` whenever `1 ≤ N`. -/
theorem ctor_sets_ceiling_to_max_one (N : Int) (s : Omp) :
    omp_get_max_threads (OmpThreadGuard.ctor N s).2 = max 1 N
      ∧ 1 ≤ omp_get_max_threads (OmpThreadGuard.ctor N s).2
      ∧ (1 ≤ N → omp_get_max_threads (OmpThreadGuard.ctor N s).2 = N) := by
  refine ⟨rfl, ?_, ?_⟩
  · rw [ctor_ceiling]; exact le_max_left 1 N
  · intro h; rw [ctor_ceiling]; exact max_eq_right h

/-- C4 at `N = -3`, `N = 0` and `N = 8` from the ceiling 6. -/
theorem ctor_sets_ceiling_to_max_one_witness :
    omp_get_max_threads (OmpThreadGuard.ctor (-3) { ceiling := 6 }).2 = 1
      ∧ omp_get_max_threads (OmpThreadGuard.ctor 0 { ceiling := 6 }).2 = 1
      ∧ omp_get_max_threads (OmpThreadGuard.ctor 8 { ceiling := 6 }).2 = 8 :=
  ⟨(ctor_sets_ceiling_to_max_one (-3) { ceiling := 6 }).1,
    (ctor_sets_ceiling_to_max_one 0 { ceiling := 6 }).1,
    (ctor_sets_ceiling_to_max_one 8 { ceiling := 6 }).2.2 (by decide)⟩

theorem nest_run_inv (p : Nest) :
    ∀ (encl : Option Int) (s : Omp), (∀ No, encl = some No → s.ceiling = max 1 No) →
      (p.run encl s).1 = s ∧ ∀ l ∈ (p.run encl s).2,
        l.after = l.before ∧ l.inside = max 1 l.requested
          ∧ (∀ No, l.enclosing = some No → l.after = max 1 No)
          ∧ (l.enclosing = none → encl = none ∧ l.after = s.ceiling) := by
  induction p with
  | done => intro encl s _; exact ⟨rfl, fun l hl => by simp [Nest.run] at hl⟩
  | scope N inner rest ih1 ih2 =>
    intro encl s h
    have h1 := ih1 (some N) (OmpThreadGuard.ctor N s).2
      (fun No hNo => by cases hNo; rfl)
    have e2 : OmpThreadGuard.dtor (OmpThreadGuard.ctor N s).1
        (inner.run (some N) (OmpThreadGuard.ctor N s).2).1 = s := rfl
    have h3 := ih2 encl s h
    simp only [Nest.run, e2]
    refine ⟨h3.1, ?_⟩
    intro l hl
    rcases List.mem_cons.1 hl with rfl | hl
    · exact ⟨rfl, rfl, fun No hNo => h No hNo, fun hn => ⟨hn, rfl⟩⟩
    · rcases List.mem_append.1 hl with hl | hl
      · obtain ⟨a, b, c, d⟩ := h1.2 l hl
        exact ⟨a, b, c, fun hn => by cases (d hn).1⟩
      · exact h3.2 l hl

/-- C5: in every properly nested sequence of guard constructions and destructions, of any depth
and with any requested counts, each destruction sets the ceiling back to the value it had just
before the matching construction; a guard nested in a guard that requested `No` leaves the
ceiling at `max 1 No`, a guard at the top level leaves it at the initial value; and after the
whole sequence the ceiling is the initial one. -/
theorem nested_guards_restore (p : Nest) (s : Omp) :
    (p.run none s).1 = s ∧ ∀ l ∈ (p.run none s).2,
      l.after = l.before ∧ l.inside = max 1 l.requested
        ∧ (∀ No, l.enclosing = some No → l.after = max 1 No)
        ∧ (l.enclosing = none → l.after = s.ceiling) := by
  have h := nest_run_inv p none s (fun No hNo => by cases hNo)
  exact ⟨h.1, fun l hl => ⟨(h.2 l hl).1, (h.2 l hl).2.1, (h.2 l hl).2.2.1,
    fun hn => ((h.2 l hl).2.2.2 hn).2⟩⟩

/-- C5 on the sequence `{ g(2); { g(0); } { g(4); } } { g(-3); }` run from the ceiling 8: the
run ends at 8 and the lifetime of `g(4)`, nested in `g(2)`, ends at `max 1 2 = 2`. -/
theorem nested_guards_restore_witness :
    ((Nest.scope 2 (Nest.scope 0 Nest.done (Nest.scope 4 Nest.done Nest.done))
        (Nest.scope (-3) Nest.done Nest.done)).run none { ceiling := 8 }).1 = { ceiling := 8 }
      ∧ (({ requested := 4, enclosing := some 2, before := 2, inside := 4, after := 2 } :
            Lifetime).enclosing = some 2 →
          ({ requested := 4, enclosing := some 2, before := 2, inside := 4, after := 2 } :
            Lifetime).after = max 1 2) :=
  ⟨(nested_guards_restore _ _).1,
    ((nested_guards_restore
      (Nest.scope 2 (Nest.scope 0 Nest.done (Nest.scope 4 Nest.done Nest.done))
        (Nest.scope (-3) Nest.done Nest.done)) { ceiling := 8 }).2
      { requested := 4, enclosing := some 2, before := 2, inside := 4, after := 2 }
      (by decide)).2.2.1 2⟩

end PatternMatch

namespace SIMDConv

/-! ## Lanes and wrap-around -/

theorem wrap32_of_range {x : Int} (h1 : -2147483648 ≤ x) (h2 : x < 2147483648) : wrap32 x = x := by
  unfold wrap32; omega

theorem wrap32_wrap32_add (x y : Int) : wrap32 (wrap32 x + y) = wrap32 (x + y) := by
  unfold wrap32; omega

theorem wrap32_range (x : Int) : -2147483648 ≤ wrap32 x ∧ wrap32 x < 2147483648 := by
  unfold wrap32; omega

theorem epi32_ofLanes32 (l : Fin 4 → Int) (j : Fin 4) : epi32 (ofLanes32 l) j = wrap32 (l j) := by
  fin_cases j <;> simp [epi32, ofLanes32, M128i.dword, toWord32, toInt32, wrap32] <;> omega

theorem byte_ofBytes (b : Fin 16 → Nat) (i : Fin 16) : (ofBytes b).byte i = b i % 256 := by
  fin_cases i <;> simp [M128i.byte, ofBytes, M128i.dword, packWord, toWord32] <;> omega

theorem byte_lt (v : M128i) (i : Fin 16) : v.byte i < 256 := by
  unfold M128i.byte; exact Nat.mod_lt _ (by decide)

theorem zero_byte (i : Fin 16) : M128i.byte _mm_setzero_si128 i = 0 := by
  fin_cases i <;> simp [M128i.byte, _mm_setzero_si128, M128i.dword]

theorem epi16_unpacklo (a : M128i) (j : Fin 8) :
    epi16 (_mm_unpacklo_epi8 a _mm_setzero_si128) j = ((a.byte ⟨j.val, by omega⟩ : Nat) : Int) := by
  have h0 := byte_lt a 0
  have h1 := byte_lt a 1
  have h2 := byte_lt a 2
  have h3 := byte_lt a 3
  have h4 := byte_lt a 4
  have h5 := byte_lt a 5
  have h6 := byte_lt a 6
  have h7 := byte_lt a 7
  fin_cases j <;>
    simp [epi16, _mm_unpacklo_epi8, ofBytes, packWord, toWord32, M128i.dword, zero_byte, toInt16,
      Fin.coe_ofNat_eq_mod] <;> omega

theorem epi16_unpackhi (a : M128i) (j : Fin 8) :
    epi16 (_mm_unpackhi_epi8 a _mm_setzero_si128) j
      = ((a.byte ⟨8 + j.val, by omega⟩ : Nat) : Int) := by
  have h0 := byte_lt a 8
  have h1 := byte_lt a 9
  have h2 := byte_lt a 10
  have h3 := byte_lt a 11
  have h4 := byte_lt a 12
  have h5 := byte_lt a 13
  have h6 := byte_lt a 14
  have h7 := byte_lt a 15
  fin_cases j <;>
    simp [epi16, _mm_unpackhi_epi8, ofBytes, packWord, toWord32, M128i.dword, zero_byte, toInt16,
      Fin.coe_ofNat_eq_mod] <;> omega

theorem byteVal_eq_getD (m : List Byte) {x : Int} (h : 0 ≤ x) :
    byteVal m x = ((m.getD x.toNat 0).val : Int) := by
  unfold byteVal readByte
  rw [if_neg (by omega)]
  rw [List.getD_eq_getElem?_getD]
  cases m[x.toNat]? <;> rfl

theorem byteVal_range (m : List Byte) (x : Int) : 0 ≤ byteVal m x ∧ byteVal m x ≤ 255 := by
  unfold byteVal
  cases readByte m x with
  | none => exact ⟨le_refl _, by decide⟩
  | some b => have := b.isLt; simp only; omega

theorem byteVal_mul_range (a : List Byte) (x : Int) (b : List Byte) (y : Int) :
    0 ≤ byteVal a x * byteVal b y ∧ byteVal a x * byteVal b y ≤ 65025 := by
  have ha := byteVal_range a x
  have hb := byteVal_range b y
  constructor
  · exact mul_nonneg ha.1 hb.1
  · nlinarith

theorem loadu_spec (m : List Byte) (p : Int) (h0 : 0 ≤ p) (h1 : p + 16 ≤ (m.length : Int)) :
    ∃ A, _mm_loadu_si128 m p = some A ∧ ∀ i : Fin 16, ((A.byte i : Nat) : Int) = byteVal m (p + (i.val : Int)) := by
  refine ⟨_, if_pos ⟨h0, h1⟩, ?_⟩
  intro i
  rw [byte_ofBytes, byteVal_eq_getD m (by omega)]
  have e : (p + (i.val : Int)).toNat = p.toNat + i.val := by omega
  rw [e, Nat.mod_eq_of_lt (Fin.isLt _)]

theorem maddLanes_unpacklo (A B : M128i) (j : Fin 4) :
    maddLanes (_mm_unpacklo_epi8 A _mm_setzero_si128) (_mm_unpacklo_epi8 B _mm_setzero_si128) j
      = ((A.byte ⟨2 * j.val, by omega⟩ : Nat) : Int) * ((B.byte ⟨2 * j.val, by omega⟩ : Nat) : Int)
        + ((A.byte ⟨2 * j.val + 1, by omega⟩ : Nat) : Int)
          * ((B.byte ⟨2 * j.val + 1, by omega⟩ : Nat) : Int) := by
  simp only [maddLanes, epi16_unpacklo]

theorem maddLanes_unpackhi (A B : M128i) (j : Fin 4) :
    maddLanes (_mm_unpackhi_epi8 A _mm_setzero_si128) (_mm_unpackhi_epi8 B _mm_setzero_si128) j
      = ((A.byte ⟨8 + 2 * j.val, by omega⟩ : Nat) : Int)
          * ((B.byte ⟨8 + 2 * j.val, by omega⟩ : Nat) : Int)
        + ((A.byte ⟨8 + (2 * j.val + 1), by omega⟩ : Nat) : Int)
          * ((B.byte ⟨8 + (2 * j.val + 1), by omega⟩ : Nat) : Int) := by
  simp only [maddLanes, epi16_unpackhi]

theorem lanesOverflow_eq_false (l : Fin 4 → Int) (h : ∀ j, wrap32 (l j) = l j) :
    lanesOverflow l = false := by
  simp [lanesOverflow, h]

theorem epi32_add (a b : M128i) (j : Fin 4) :
    epi32 (_mm_add_epi32 a b) j = wrap32 (epi32 a j + epi32 b j) := by
  simp only [_mm_add_epi32, epi32_ofLanes32, addLanes]

theorem blockLane_range (a : List Byte) (pa : Int) (b : List Byte) (pb : Int) (j : Fin 4) :
    0 ≤ blockLane a pa b pb j ∧ blockLane a pa b pb j ≤ 260100 := by
  unfold blockLane
  have h1 := byteVal_mul_range a (pa + ((2 * j.val : Nat) : Int)) b (pb + ((2 * j.val : Nat) : Int))
  have h2 := byteVal_mul_range a (pa + ((2 * j.val + 1 : Nat) : Int)) b (pb + ((2 * j.val + 1 : Nat) : Int))
  have h3 := byteVal_mul_range a (pa + ((8 + 2 * j.val : Nat) : Int)) b (pb + ((8 + 2 * j.val : Nat) : Int))
  have h4 := byteVal_mul_range a (pa + ((8 + (2 * j.val + 1) : Nat) : Int)) b
    (pb + ((8 + (2 * j.val + 1) : Nat) : Int))
  omega

/-- The lanes of `SumT` and the overflow flags of one vector iteration, for registers whose
bytes are those of the two buffers. -/
theorem sumT_spec (a : List Byte) (pa : Int) (b : List Byte) (pb : Int) (A B : M128i)
    (hA : ∀ i : Fin 16, ((A.byte i : Nat) : Int) = byteVal a (pa + (i.val : Int)))
    (hB : ∀ i : Fin 16, ((B.byte i : Nat) : Int) = byteVal b (pb + (i.val : Int))) :
    (∀ j, maddLanes (_mm_unpacklo_epi8 A _mm_setzero_si128)
        (_mm_unpacklo_epi8 B _mm_setzero_si128) j
          = byteVal a (pa + ((2 * j.val : Nat) : Int)) * byteVal b (pb + ((2 * j.val : Nat) : Int))
            + byteVal a (pa + ((2 * j.val + 1 : Nat) : Int))
              * byteVal b (pb + ((2 * j.val + 1 : Nat) : Int)))
    ∧ (∀ j, maddLanes (_mm_unpackhi_epi8 A _mm_setzero_si128)
        (_mm_unpackhi_epi8 B _mm_setzero_si128) j
          = byteVal a (pa + ((8 + 2 * j.val : Nat) : Int))
              * byteVal b (pb + ((8 + 2 * j.val : Nat) : Int))
            + byteVal a (pa + ((8 + (2 * j.val + 1) : Nat) : Int))
              * byteVal b (pb + ((8 + (2 * j.val + 1) : Nat) : Int))) := by
  constructor
  · intro j
    rw [maddLanes_unpacklo, hA, hA, hB, hB]
  · intro j
    rw [maddLanes_unpackhi, hA, hA, hB, hB]

theorem vecBody_spec (K : List Byte) (pk : Int) (C : List Byte) (pc : Int) (Y : Int)
    (st : VecState) (hK0 : 0 ≤ pk + Y) (hK1 : pk + Y + 16 ≤ (K.length : Int))
    (hC0 : 0 ≤ pc + Y) (hC1 : pc + Y + 16 ≤ (C.length : Int)) :
    ∃ st1, vecBody K pk C pc Y st = some st1
      ∧ (∀ j, epi32 st1.SumV j = wrap32 (epi32 st.SumV j + blockLane K (pk + Y) C (pc + Y) j))
      ∧ st1.wrapped = (st.wrapped
          || lanesOverflow (fun j => epi32 st.SumV j + blockLane K (pk + Y) C (pc + Y) j)) := by
  obtain ⟨A, hA, hAb⟩ := loadu_spec K (pk + Y) hK0 hK1
  obtain ⟨B, hB, hBb⟩ := loadu_spec C (pc + Y) hC0 hC1
  obtain ⟨hlo, hhi⟩ := sumT_spec K (pk + Y) C (pc + Y) A B hAb hBb
  have hlo_r : ∀ j, wrap32 (maddLanes (_mm_unpacklo_epi8 A _mm_setzero_si128)
      (_mm_unpacklo_epi8 B _mm_setzero_si128) j) = maddLanes (_mm_unpacklo_epi8 A _mm_setzero_si128)
      (_mm_unpacklo_epi8 B _mm_setzero_si128) j := by
    intro j
    rw [hlo]
    have h1 := byteVal_mul_range K (pk + Y + ((2 * j.val : Nat) : Int)) C (pc + Y + ((2 * j.val : Nat) : Int))
    have h2 := byteVal_mul_range K (pk + Y + ((2 * j.val + 1 : Nat) : Int)) C
      (pc + Y + ((2 * j.val + 1 : Nat) : Int))
    exact wrap32_of_range (by omega) (by omega)
  have hhi_r : ∀ j, wrap32 (maddLanes (_mm_unpackhi_epi8 A _mm_setzero_si128)
      (_mm_unpackhi_epi8 B _mm_setzero_si128) j) = maddLanes (_mm_unpackhi_epi8 A _mm_setzero_si128)
      (_mm_unpackhi_epi8 B _mm_setzero_si128) j := by
    intro j
    rw [hhi]
    have h1 := byteVal_mul_range K (pk + Y + ((8 + 2 * j.val : Nat) : Int)) C
      (pc + Y + ((8 + 2 * j.val : Nat) : Int))
    have h2 := byteVal_mul_range K (pk + Y + ((8 + (2 * j.val + 1) : Nat) : Int)) C
      (pc + Y + ((8 + (2 * j.val + 1) : Nat) : Int))
    exact wrap32_of_range (by omega) (by omega)
  have hT : ∀ j, addLanes (_mm_madd_epi16 (_mm_unpacklo_epi8 A _mm_setzero_si128)
        (_mm_unpacklo_epi8 B _mm_setzero_si128))
      (_mm_madd_epi16 (_mm_unpackhi_epi8 A _mm_setzero_si128)
        (_mm_unpackhi_epi8 B _mm_setzero_si128)) j = blockLane K (pk + Y) C (pc + Y) j := by
    intro j
    simp only [addLanes, _mm_madd_epi16, epi32_ofLanes32]
    rw [hlo_r, hhi_r, hlo, hhi]
    rfl
  have hT_r : ∀ j, wrap32 (blockLane K (pk + Y) C (pc + Y) j) = blockLane K (pk + Y) C (pc + Y) j := by
    intro j
    have := blockLane_range K (pk + Y) C (pc + Y) j
    exact wrap32_of_range (by omega) (by omega)
  have hSumT : ∀ j, epi32 (_mm_add_epi32 (_mm_madd_epi16 (_mm_unpacklo_epi8 A _mm_setzero_si128)
        (_mm_unpacklo_epi8 B _mm_setzero_si128))
      (_mm_madd_epi16 (_mm_unpackhi_epi8 A _mm_setzero_si128)
        (_mm_unpackhi_epi8 B _mm_setzero_si128))) j = blockLane K (pk + Y) C (pc + Y) j := by
    intro j
    rw [_mm_add_epi32, epi32_ofLanes32, hT, hT_r]
  refine ⟨_, by simp only [vecBody, hA, hB]; rfl, ?_, ?_⟩
  · intro j
    simp only [epi32_add, hSumT]
  · have e1 := lanesOverflow_eq_false _ hlo_r
    have e2 := lanesOverflow_eq_false _ hhi_r
    have e3 : lanesOverflow (addLanes (_mm_madd_epi16 (_mm_unpacklo_epi8 A _mm_setzero_si128)
        (_mm_unpacklo_epi8 B _mm_setzero_si128))
      (_mm_madd_epi16 (_mm_unpackhi_epi8 A _mm_setzero_si128)
        (_mm_unpackhi_epi8 B _mm_setzero_si128))) = false :=
      lanesOverflow_eq_false _ (fun j => by rw [hT, hT_r])
    have e4 : addLanes st.SumV (_mm_add_epi32 (_mm_madd_epi16 (_mm_unpacklo_epi8 A _mm_setzero_si128)
        (_mm_unpacklo_epi8 B _mm_setzero_si128))
      (_mm_madd_epi16 (_mm_unpackhi_epi8 A _mm_setzero_si128)
        (_mm_unpackhi_epi8 B _mm_setzero_si128)))
        = fun j => epi32 st.SumV j + blockLane K (pk + Y) C (pc + Y) j := by
      funext j
      simp only [addLanes, hSumT]
    simp only [e1, e2, e3, e4, Bool.or_false]

theorem dotExact_zero (a : List Byte) (pa : Int) (b : List Byte) (pb : Int) :
    dotExact a pa b pb 0 = 0 := by
  simp [dotExact]

theorem dotExact_succ (a : List Byte) (pa : Int) (b : List Byte) (pb : Int) (n : Nat) :
    dotExact a pa b pb (n + 1)
      = dotExact a pa b pb n + byteVal a (pa + (n : Int)) * byteVal b (pb + (n : Int)) := by
  simp [dotExact, Finset.sum_range_succ]

theorem dotExact_add (a : List Byte) (pa : Int) (b : List Byte) (pb : Int) (n m : Nat) :
    dotExact a pa b pb (n + m)
      = dotExact a pa b pb n + dotExact a (pa + (n : Int)) b (pb + (n : Int)) m := by
  induction m with
  | zero => simp [dotExact_zero]
  | succ m ih =>
    rw [← Nat.add_assoc, dotExact_succ, ih, dotExact_succ]
    have e1 : pa + ((n + m : Nat) : Int) = pa + (n : Int) + (m : Int) := by push_cast; ring
    have e2 : pb + ((n + m : Nat) : Int) = pb + (n : Int) + (m : Int) := by push_cast; ring
    rw [e1, e2]; ring

theorem dotExact_range (a : List Byte) (pa : Int) (b : List Byte) (pb : Int) (n : Nat) :
    0 ≤ dotExact a pa b pb n ∧ dotExact a pa b pb n ≤ 65025 * (n : Int) := by
  induction n with
  | zero => simp [dotExact_zero]
  | succ n ih =>
    rw [dotExact_succ]
    have h := byteVal_mul_range a (pa + (n : Int)) b (pb + (n : Int))
    push_cast
    omega

theorem dotExact_sixteen (a : List Byte) (pa : Int) (b : List Byte) (pb : Int) :
    dotExact a pa b pb 16
      = blockLane a pa b pb 0 + blockLane a pa b pb 1 + blockLane a pa b pb 2
        + blockLane a pa b pb 3 := by
  simp only [dotExact, Finset.sum_range_succ, Finset.sum_range_zero, blockLane,
    Fin.coe_ofNat_eq_mod]
  norm_num
  ring

theorem vecLoop_done (K : List Byte) (pk : Int) (C : List Byte) (pc : Int) (limit : Int)
    (fuel : Nat) (Y : Int) (st : VecState) (h : ¬ Y < limit) :
    vecLoop K pk C pc limit fuel Y st = some st := by
  cases fuel <;> simp [vecLoop, h]

theorem vecLoop_step (K : List Byte) (pk : Int) (C : List Byte) (pc : Int) (limit : Int)
    (fuel : Nat) (Y : Int) (st st1 : VecState) (h : Y < limit)
    (hb : vecBody K pk C pc Y st = some st1) :
    vecLoop K pk C pc limit (fuel + 1) Y st = vecLoop K pk C pc limit fuel (Y + 16) st1 := by
  simp [vecLoop, h, hb]

theorem vecLoop_spec (K : List Byte) (pk : Int) (C : List Byte) (pc : Int) (limit : Int) :
    ∀ (n fuel : Nat) (Y : Int) (st : VecState), limit = Y + 16 * (n : Int) → n ≤ fuel →
      0 ≤ pk + Y → pk + limit ≤ (K.length : Int) → 0 ≤ pc + Y → pc + limit ≤ (C.length : Int) →
      ∃ st1, vecLoop K pk C pc limit fuel Y st = some st1
        ∧ wrap32 (laneSum st1.SumV)
            = wrap32 (laneSum st.SumV + dotExact K (pk + Y) C (pc + Y) (16 * n))
        ∧ ((∀ j, 0 ≤ epi32 st.SumV j) →
            laneSum st.SumV + dotExact K (pk + Y) C (pc + Y) (16 * n) < 2147483648 →
            st1.wrapped = st.wrapped ∧ (∀ j, 0 ≤ epi32 st1.SumV j)
              ∧ laneSum st1.SumV = laneSum st.SumV + dotExact K (pk + Y) C (pc + Y) (16 * n)) := by
  intro n
  induction n with
  | zero =>
    intro fuel Y st hl _ _ _ _ _
    refine ⟨st, vecLoop_done K pk C pc limit fuel Y st (by omega), ?_, ?_⟩
    · simp [dotExact_zero]
    · intro h _
      simp [dotExact_zero, h]
  | succ n ih =>
    intro fuel Y st hl hf hK0 hK1 hC0 hC1
    obtain ⟨f, rfl⟩ : ∃ f, fuel = f + 1 := ⟨fuel - 1, by omega⟩
    obtain ⟨st1, hb, hlane, hwr⟩ := vecBody_spec K pk C pc Y st hK0 (by push_cast at hl; omega)
      hC0 (by push_cast at hl; omega)
    obtain ⟨st2, hrun, hval, hno⟩ := ih f (Y + 16) st1 (by push_cast at hl; omega) (by omega)
      (by omega) hK1 (by omega) hC1
    have hsplit : dotExact K (pk + Y) C (pc + Y) (16 * (n + 1))
        = dotExact K (pk + Y) C (pc + Y) 16 + dotExact K (pk + (Y + 16)) C (pc + (Y + 16)) (16 * n) := by
      have e : 16 * (n + 1) = 16 + 16 * n := by ring
      rw [e, dotExact_add]
      have e1 : pk + Y + ((16 : Nat) : Int) = pk + (Y + 16) := by push_cast; ring
      have e2 : pc + Y + ((16 : Nat) : Int) = pc + (Y + 16) := by push_cast; ring
      rw [e1, e2]
    have h16 := dotExact_sixteen K (pk + Y) C (pc + Y)
    have hr := dotExact_range K (pk + (Y + 16)) C (pc + (Y + 16)) (16 * n)
    have b0 := blockLane_range K (pk + Y) C (pc + Y) 0
    have b1 := blockLane_range K (pk + Y) C (pc + Y) 1
    have b2 := blockLane_range K (pk + Y) C (pc + Y) 2
    have b3 := blockLane_range K (pk + Y) C (pc + Y) 3
    have l0 := hlane 0
    have l1 := hlane 1
    have l2 := hlane 2
    have l3 := hlane 3
    refine ⟨st2, ?_, ?_, ?_⟩
    · rw [vecLoop_step K pk C pc limit f Y st st1 (by push_cast at hl; omega) hb, hrun]
    · rw [hval, hsplit, h16]
      unfold laneSum
      rw [l0, l1, l2, l3]
      generalize dotExact K (pk + (Y + 16)) C (pc + (Y + 16)) (16 * n) = D
      generalize blockLane K (pk + Y) C (pc + Y) 0 = t0
      generalize blockLane K (pk + Y) C (pc + Y) 1 = t1
      generalize blockLane K (pk + Y) C (pc + Y) 2 = t2
      generalize blockLane K (pk + Y) C (pc + Y) 3 = t3
      unfold wrap32
      omega
    · intro hpos hlt
      rw [hsplit, h16] at hlt
      unfold laneSum at hlt
      have p0 := hpos 0
      have p1 := hpos 1
      have p2 := hpos 2
      have p3 := hpos 3
      have w0 : wrap32 (epi32 st.SumV 0 + blockLane K (pk + Y) C (pc + Y) 0)
          = epi32 st.SumV 0 + blockLane K (pk + Y) C (pc + Y) 0 :=
        wrap32_of_range (by omega) (by omega)
      have w1 : wrap32 (epi32 st.SumV 1 + blockLane K (pk + Y) C (pc + Y) 1)
          = epi32 st.SumV 1 + blockLane K (pk + Y) C (pc + Y) 1 :=
        wrap32_of_range (by omega) (by omega)
      have w2 : wrap32 (epi32 st.SumV 2 + blockLane K (pk + Y) C (pc + Y) 2)
          = epi32 st.SumV 2 + blockLane K (pk + Y) C (pc + Y) 2 :=
        wrap32_of_range (by omega) (by omega)
      have w3 : wrap32 (epi32 st.SumV 3 + blockLane K (pk + Y) C (pc + Y) 3)
          = epi32 st.SumV 3 + blockLane K (pk + Y) C (pc + Y) 3 :=
        wrap32_of_range (by omega) (by omega)
      have hw : ∀ j : Fin 4, wrap32 (epi32 st.SumV j + blockLane K (pk + Y) C (pc + Y) j)
          = epi32 st.SumV j + blockLane K (pk + Y) C (pc + Y) j := by
        intro j
        fin_cases j
        · exact w0
        · exact w1
        · exact w2
        · exact w3
      have hfl : st1.wrapped = st.wrapped := by
        rw [hwr, lanesOverflow_eq_false _ hw, Bool.or_false]
      have hpos1 : ∀ j, 0 ≤ epi32 st1.SumV j := by
        intro j
        rw [hlane, hw]
        have := (blockLane_range K (pk + Y) C (pc + Y) j).1
        have := hpos j
        omega
      have hsum1 : laneSum st1.SumV = laneSum st.SumV + dotExact K (pk + Y) C (pc + Y) 16 := by
        unfold laneSum
        rw [l0, l1, l2, l3, w0, w1, w2, w3, h16]
        ring
      obtain ⟨g1, g2, g3⟩ := hno hpos1 (by
        rw [hsum1, h16]; unfold laneSum; omega)
      refine ⟨by rw [g1, hfl], g2, ?_⟩
      rw [g3, hsum1, hsplit]
      ring

theorem readByte_spec (m : List Byte) (i : Int) (h0 : 0 ≤ i) (h1 : i < (m.length : Int)) :
    ∃ b : Byte, readByte m i = some b ∧ byteVal m i = (b.val : Int) := by
  have hlt : i.toNat < m.length := by omega
  have e : readByte m i = some (m[i.toNat]) := by
    unfold readByte
    rw [if_neg (by omega), List.getElem?_eq_getElem hlt]
  exact ⟨m[i.toNat], e, by simp only [byteVal, e]⟩

theorem scalarLoop_done (K : List Byte) (pk : Int) (C : List Byte) (pc : Int) (L : Int)
    (fuel : Nat) (Y : Int) (st : KernelRun) (h : ¬ Y < L) :
    scalarLoop K pk C pc L fuel Y st = some st := by
  cases fuel <;> simp [scalarLoop, h]

theorem scalarLoop_step (K : List Byte) (pk : Int) (C : List Byte) (pc : Int) (L : Int)
    (fuel : Nat) (Y : Int) (st st1 : KernelRun) (h : Y < L)
    (hb : scalarBody K pk C pc Y st = some st1) :
    scalarLoop K pk C pc L (fuel + 1) Y st = scalarLoop K pk C pc L fuel (Y + 1) st1 := by
  simp [scalarLoop, h, hb]

theorem scalarBody_spec (K : List Byte) (pk : Int) (C : List Byte) (pc : Int) (Y : Int)
    (st : KernelRun) (hK0 : 0 ≤ pk + Y) (hK1 : pk + Y < (K.length : Int))
    (hC0 : 0 ≤ pc + Y) (hC1 : pc + Y < (C.length : Int)) :
    ∃ st1, scalarBody K pk C pc Y st = some st1
      ∧ st1.ret = wrap32 (st.ret + byteVal K (pk + Y) * byteVal C (pc + Y))
      ∧ st1.wrapped = (st.wrapped
          || wrap32 (st.ret + byteVal K (pk + Y) * byteVal C (pc + Y))
              != st.ret + byteVal K (pk + Y) * byteVal C (pc + Y)) := by
  obtain ⟨k, hk, hkv⟩ := readByte_spec K (pk + Y) hK0 hK1
  obtain ⟨c, hc, hcv⟩ := readByte_spec C (pc + Y) hC0 hC1
  refine ⟨_, by simp only [scalarBody, hk, hc]; rfl, ?_, ?_⟩
  · simp only [hkv, hcv]
  · simp only [hkv, hcv]

theorem scalarLoop_spec (K : List Byte) (pk : Int) (C : List Byte) (pc : Int) (L : Int) :
    ∀ (n fuel : Nat) (Y : Int) (st : KernelRun), L = Y + (n : Int) → n ≤ fuel →
      0 ≤ pk + Y → pk + L ≤ (K.length : Int) → 0 ≤ pc + Y → pc + L ≤ (C.length : Int) →
      wrap32 st.ret = st.ret →
      ∃ st1, scalarLoop K pk C pc L fuel Y st = some st1
        ∧ st1.ret = wrap32 (st.ret + dotExact K (pk + Y) C (pc + Y) n)
        ∧ (0 ≤ st.ret → st.ret + dotExact K (pk + Y) C (pc + Y) n < 2147483648 →
            st1.wrapped = st.wrapped ∧ st1.ret = st.ret + dotExact K (pk + Y) C (pc + Y) n) := by
  intro n
  induction n with
  | zero =>
    intro fuel Y st hl _ _ _ _ _ hret
    refine ⟨st, scalarLoop_done K pk C pc L fuel Y st (by omega), ?_, ?_⟩
    · simp [dotExact_zero, hret]
    · intro _ _
      simp [dotExact_zero]
  | succ n ih =>
    intro fuel Y st hl hf hK0 hK1 hC0 hC1 hret
    obtain ⟨f, rfl⟩ : ∃ f, fuel = f + 1 := ⟨fuel - 1, by omega⟩
    obtain ⟨st1, hb, hv, hwr⟩ := scalarBody_spec K pk C pc Y st hK0 (by push_cast at hl; omega)
      hC0 (by push_cast at hl; omega)
    have hret1 : wrap32 st1.ret = st1.ret := by
      rw [hv]; unfold wrap32; omega
    obtain ⟨st2, hrun, hval, hno⟩ := ih f (Y + 1) st1 (by push_cast at hl; omega) (by omega)
      (by omega) hK1 (by omega) hC1 hret1
    have hsplit : dotExact K (pk + Y) C (pc + Y) (n + 1)
        = byteVal K (pk + Y) * byteVal C (pc + Y)
          + dotExact K (pk + (Y + 1)) C (pc + (Y + 1)) n := by
      have e : n + 1 = 1 + n := by ring
      rw [e, dotExact_add]
      have e1 : pk + Y + ((1 : Nat) : Int) = pk + (Y + 1) := by push_cast; ring
      have e2 : pc + Y + ((1 : Nat) : Int) = pc + (Y + 1) := by push_cast; ring
      rw [e1, e2, dotExact_succ, dotExact_zero]
      simp
    have hp := byteVal_mul_range K (pk + Y) C (pc + Y)
    have hr := dotExact_range K (pk + (Y + 1)) C (pc + (Y + 1)) n
    refine ⟨st2, ?_, ?_, ?_⟩
    · rw [scalarLoop_step K pk C pc L f Y st st1 (by push_cast at hl; omega) hb, hrun]
    · rw [hval, hv, hsplit, wrap32_wrap32_add, add_assoc]
    · intro hpos hlt
      rw [hsplit] at hlt
      have w : wrap32 (st.ret + byteVal K (pk + Y) * byteVal C (pc + Y))
          = st.ret + byteVal K (pk + Y) * byteVal C (pc + Y) :=
        wrap32_of_range (by omega) (by omega)
      have hfl : st1.wrapped = st.wrapped := by
        rw [hwr, w]; simp
      obtain ⟨g1, g2⟩ := hno (by rw [hv, w]; omega) (by rw [hv, w]; omega)
      refine ⟨by rw [g1, hfl], ?_⟩
      rw [g2, hv, w, hsplit]
      ring

theorem tdiv_sixteen_of_nonneg {L : Int} (h : 0 ≤ L) : Int.tdiv L 16 = L / 16 :=
  Int.tdiv_eq_ediv h (by decide)

theorem tdiv_sixteen_of_nonpos {L : Int} (h : L ≤ 0) : Int.tdiv L 16 = -((-L) / 16) := by
  have e : L = -(-L) := by omega
  rw [e, Int.neg_tdiv, Int.tdiv_eq_ediv (by omega) (by decide)]
  simp

theorem epi32_zero (j : Fin 4) : epi32 _mm_setzero_si128 j = 0 := by
  fin_cases j <;> simp [epi32, _mm_setzero_si128, M128i.dword, toInt32]

theorem laneSum_zero : laneSum _mm_setzero_si128 = 0 := by
  simp [laneSum, epi32_zero]

/-- A call with a non-positive length returns 0 without reading a byte. -/
theorem kernel_run_nonpos (K : List Byte) (pk : Int) (C : List Byte) (pc : Int) (L : Int)
    (h : L ≤ 0) :
    Native_IM_Conv_SIMD_run K pk C pc L = some { ret := 0, wrapped := false, reads := [] } := by
  have hb := tdiv_sixteen_of_nonpos h
  unfold Native_IM_Conv_SIMD_run
  simp only
  rw [vecLoop_done K pk C pc _ _ 0 _ (by rw [hb]; omega)]
  simp only
  rw [scalarLoop_done K pk C pc L _ _ _ (by rw [hb]; omega)]
  simp [_mm_storeu_si128, epi32_zero, wrap32]

/-- The kernel on buffers that hold the bytes it is asked to read: it returns, the returned
`int` is the exact dot product reduced to 32 bits, and when the exact dot product fits an `int`
no addition wraps and the returned value is exact. -/
theorem kernel_run_spec (K : List Byte) (pk : Int) (C : List Byte) (pc : Int) (L : Int)
    (hK : 0 < L → 0 ≤ pk ∧ pk + L ≤ (K.length : Int))
    (hC : 0 < L → 0 ≤ pc ∧ pc + L ≤ (C.length : Int)) :
    ∃ r, Native_IM_Conv_SIMD_run K pk C pc L = some r
      ∧ r.ret = wrap32 (dotExact K pk C pc L.toNat)
      ∧ (dotExact K pk C pc L.toNat < 2147483648 →
          r.wrapped = false ∧ r.ret = dotExact K pk C pc L.toNat) := by
  rcases le_or_lt L 0 with h | h
  · refine ⟨_, kernel_run_nonpos K pk C pc L h, ?_, ?_⟩
    · have e : L.toNat = 0 := by omega
      simp [e, dotExact_zero, wrap32]
    · intro _
      have e : L.toNat = 0 := by omega
      simp [e, dotExact_zero]
  · obtain ⟨hK0, hK1⟩ := hK h
    obtain ⟨hC0, hC1⟩ := hC h
    have hb := tdiv_sixteen_of_nonneg (le_of_lt h)
    obtain ⟨v, hv, hvval, hvno⟩ := vecLoop_spec K pk C pc (L / 16 * 16) (L / 16).toNat
      (L / 16 * 16).toNat 0 { SumV := _mm_setzero_si128, wrapped := false, reads := [] }
      (by omega) (by omega) (by omega) (by omega) (by omega) (by omega)
    simp only [laneSum_zero, zero_add, add_zero] at hvval hvno
    have hsumw : wrap32 (wrap32 (wrap32 (wrap32 (_mm_storeu_si128 v.SumV 0
        + _mm_storeu_si128 v.SumV 1) + _mm_storeu_si128 v.SumV 2) + _mm_storeu_si128 v.SumV 3))
        = wrap32 (wrap32 (wrap32 (_mm_storeu_si128 v.SumV 0
        + _mm_storeu_si128 v.SumV 1) + _mm_storeu_si128 v.SumV 2) + _mm_storeu_si128 v.SumV 3) := by
      unfold wrap32; omega
    obtain ⟨r, hr, hrval, hrno⟩ := scalarLoop_spec K pk C pc L (L - L / 16 * 16).toNat
      (L - L / 16 * 16).toNat (L / 16 * 16)
      { ret := wrap32 (wrap32 (wrap32 (_mm_storeu_si128 v.SumV 0
          + _mm_storeu_si128 v.SumV 1) + _mm_storeu_si128 v.SumV 2) + _mm_storeu_si128 v.SumV 3)
        wrapped := v.wrapped
          || wrap32 (_mm_storeu_si128 v.SumV 0 + _mm_storeu_si128 v.SumV 1)
              != _mm_storeu_si128 v.SumV 0 + _mm_storeu_si128 v.SumV 1
          || wrap32 (wrap32 (_mm_storeu_si128 v.SumV 0 + _mm_storeu_si128 v.SumV 1)
                + _mm_storeu_si128 v.SumV 2)
              != wrap32 (_mm_storeu_si128 v.SumV 0 + _mm_storeu_si128 v.SumV 1)
                + _mm_storeu_si128 v.SumV 2
          || wrap32 (wrap32 (wrap32 (_mm_storeu_si128 v.SumV 0 + _mm_storeu_si128 v.SumV 1)
                + _mm_storeu_si128 v.SumV 2) + _mm_storeu_si128 v.SumV 3)
              != wrap32 (wrap32 (_mm_storeu_si128 v.SumV 0 + _mm_storeu_si128 v.SumV 1)
                + _mm_storeu_si128 v.SumV 2) + _mm_storeu_si128 v.SumV 3
        reads := v.reads }
      (by omega) (le_refl _) (by omega) hK1 (by omega) hC1 hsumw
    simp only at hrval hrno
    have hsplit : dotExact K pk C pc L.toNat
        = dotExact K pk C pc (16 * (L / 16).toNat)
          + dotExact K (pk + L / 16 * 16) C (pc + L / 16 * 16) (L - L / 16 * 16).toNat := by
      have e : L.toNat = 16 * (L / 16).toNat + (L - L / 16 * 16).toNat := by omega
      rw [e, dotExact_add]
      have e1 : ((16 * (L / 16).toNat : Nat) : Int) = L / 16 * 16 := by omega
      rw [e1]
    have hlanes : wrap32 (wrap32 (wrap32 (_mm_storeu_si128 v.SumV 0
        + _mm_storeu_si128 v.SumV 1) + _mm_storeu_si128 v.SumV 2) + _mm_storeu_si128 v.SumV 3)
        = wrap32 (laneSum v.SumV) := by
      unfold laneSum _mm_storeu_si128 wrap32; omega
    have hD2 := dotExact_range K (pk + L / 16 * 16) C (pc + L / 16 * 16) (L - L / 16 * 16).toNat
    have hD1 := dotExact_range K pk C pc (16 * (L / 16).toNat)
    refine ⟨r, ?_, ?_, ?_⟩
    · unfold Native_IM_Conv_SIMD_run
      simp only [hb, hv]
      exact hr
    · rw [hrval, hlanes, hvval, wrap32_wrap32_add, hsplit]
    · intro hlt
      rw [hsplit] at hlt
      obtain ⟨g1, g2, g3⟩ := hvno (fun j => by rw [epi32_zero]) (by omega)
      have p0 := g2 0
      have p1 := g2 1
      have p2 := g2 2
      have p3 := g2 3
      unfold laneSum at g3
      have w1 : wrap32 (_mm_storeu_si128 v.SumV 0 + _mm_storeu_si128 v.SumV 1)
          = _mm_storeu_si128 v.SumV 0 + _mm_storeu_si128 v.SumV 1 := by
        unfold _mm_storeu_si128; exact wrap32_of_range (by omega) (by omega)
      have w2 : wrap32 (_mm_storeu_si128 v.SumV 0 + _mm_storeu_si128 v.SumV 1
          + _mm_storeu_si128 v.SumV 2)
          = _mm_storeu_si128 v.SumV 0 + _mm_storeu_si128 v.SumV 1 + _mm_storeu_si128 v.SumV 2 := by
        unfold _mm_storeu_si128; exact wrap32_of_range (by omega) (by omega)
      have w3 : wrap32 (_mm_storeu_si128 v.SumV 0 + _mm_storeu_si128 v.SumV 1
          + _mm_storeu_si128 v.SumV 2 + _mm_storeu_si128 v.SumV 3)
          = _mm_storeu_si128 v.SumV 0 + _mm_storeu_si128 v.SumV 1 + _mm_storeu_si128 v.SumV 2
            + _mm_storeu_si128 v.SumV 3 := by
        unfold _mm_storeu_si128; exact wrap32_of_range (by omega) (by omega)
      rw [w1, w2, w3] at hrno
      have hs : _mm_storeu_si128 v.SumV 0 + _mm_storeu_si128 v.SumV 1 + _mm_storeu_si128 v.SumV 2
            + _mm_storeu_si128 v.SumV 3 = dotExact K pk C pc (16 * (L / 16).toNat) := by
        unfold _mm_storeu_si128; exact g3
      obtain ⟨q1, q2⟩ := hrno (by rw [hs]; exact hD1.1) (by rw [hs]; exact hlt)
      refine ⟨?_, ?_⟩
      · rw [q1, g1]; simp
      · rw [q2, hs, hsplit]

/-! ## The kernel on in-bounds buffers -/

theorem dotExact_zero_base (a b : List Byte) (n : Nat) :
    dotExact a 0 b 0 n
      = ∑ i ∈ Finset.range n, ((a.getD i 0).val : Int) * ((b.getD i 0).val : Int) := by
  unfold dotExact
  refine Finset.sum_congr rfl (fun i _ => ?_)
  rw [byteVal_eq_getD a (by omega), byteVal_eq_getD b (by omega)]
  simp

/-- C1: for buffers `a`, `b` holding at least `L` bytes and `0 ≤ L ≤ 33025`, the kernel returns
exactly the integer sum of `a[i] * b[i]` over `i < L`, and no 32-bit addition wraps around on
the way: not in a vector lane, not in the horizontal reduction, not in the scalar tail. -/
theorem kernel_exact_without_wrap (a b : List Byte) (L : Int) (h0 : 0 ≤ L) (hL : L ≤ 33025)
    (ha : L ≤ (a.length : Int)) (hb : L ≤ (b.length : Int)) :
    Native_IM_Conv_SIMD a 0 b 0 L
        = some (∑ i ∈ Finset.range L.toNat, ((a.getD i 0).val : Int) * ((b.getD i 0).val : Int))
      ∧ (Native_IM_Conv_SIMD_run a 0 b 0 L).map KernelRun.wrapped = some false := by
  obtain ⟨r, hr, _, hno⟩ := kernel_run_spec a 0 b 0 L (fun _ => ⟨le_refl _, by omega⟩)
    (fun _ => ⟨le_refl _, by omega⟩)
  have hrange := dotExact_range a 0 b 0 L.toNat
  obtain ⟨g1, g2⟩ := hno (by omega)
  rw [dotExact_zero_base] at g2
  constructor
  · simp only [Native_IM_Conv_SIMD, hr, Option.map_some', g2]
  · simp only [hr, Option.map_some', g1]

/-- C1 on two buffers of 17 bytes (one vector block and a scalar tail of one byte). -/
theorem kernel_exact_without_wrap_witness :
    Native_IM_Conv_SIMD (List.replicate 17 3) 0 (List.replicate 17 5) 0 17
        = some (∑ i ∈ Finset.range (17 : Int).toNat,
            (((List.replicate 17 (3 : Byte)).getD i 0).val : Int)
              * (((List.replicate 17 (5 : Byte)).getD i 0).val : Int))
      ∧ (Native_IM_Conv_SIMD_run (List.replicate 17 3) 0 (List.replicate 17 5) 0 17).map
          KernelRun.wrapped = some false :=
  kernel_exact_without_wrap (List.replicate 17 3) (List.replicate 17 5) 17 (by decide)
    (by decide) (by decide) (by decide)

theorem dotExact_eq_zero (a : List Byte) (pa : Int) (z : List Byte) (pz : Int) (n : Nat)
    (h : ∀ i : Nat, i < n → byteVal z (pz + (i : Int)) = 0) :
    dotExact a pa z pz n = 0 ∧ dotExact z pz a pa n = 0 := by
  unfold dotExact
  constructor
  · exact Finset.sum_eq_zero (fun i hi => by rw [h i (Finset.mem_range.1 hi), mul_zero])
  · exact Finset.sum_eq_zero (fun i hi => by rw [h i (Finset.mem_range.1 hi), zero_mul])

/-- C7: for a buffer `a` of at least `L` bytes and a buffer `z` whose first `L` bytes are all
zero, the kernel returns 0, with the zero buffer in either argument position and with no upper
bound on `L`. -/
theorem kernel_zero_buffer (a z : List Byte) (L : Int) (ha : L ≤ (a.length : Int))
    (hz : L ≤ (z.length : Int)) (hzero : ∀ i : Nat, (i : Int) < L → z.getD i 0 = 0) :
    Native_IM_Conv_SIMD a 0 z 0 L = some 0 ∧ Native_IM_Conv_SIMD z 0 a 0 L = some 0 := by
  have hz0 : ∀ i : Nat, i < L.toNat → byteVal z (0 + (i : Int)) = 0 := by
    intro i hi
    rw [byteVal_eq_getD z (by omega)]
    have e : (0 + (i : Int)).toNat = i := by omega
    rw [e, hzero i (by omega)]
    rfl
  obtain ⟨d1, d2⟩ := dotExact_eq_zero a 0 z 0 L.toNat hz0
  obtain ⟨r1, hr1, hv1, _⟩ := kernel_run_spec a 0 z 0 L (fun _ => ⟨le_refl _, by omega⟩)
    (fun _ => ⟨le_refl _, by omega⟩)
  obtain ⟨r2, hr2, hv2, _⟩ := kernel_run_spec z 0 a 0 L (fun _ => ⟨le_refl _, by omega⟩)
    (fun _ => ⟨le_refl _, by omega⟩)
  rw [d1] at hv1
  rw [d2] at hv2
  constructor
  · simp only [Native_IM_Conv_SIMD, hr1, Option.map_some', hv1]; rfl
  · simp only [Native_IM_Conv_SIMD, hr2, Option.map_some', hv2]; rfl

/-- C7 on a buffer of 20 bytes and 20 zero bytes. -/
theorem kernel_zero_buffer_witness :
    Native_IM_Conv_SIMD (List.replicate 20 200) 0 (List.replicate 20 0) 0 20 = some 0
      ∧ Native_IM_Conv_SIMD (List.replicate 20 0) 0 (List.replicate 20 200) 0 20 = some 0 :=
  kernel_zero_buffer (List.replicate 20 200) (List.replicate 20 0) 20 (by decide) (by decide)
    (by intro i hi; have hi20 : i < 20 := by omega
        interval_cases i <;> rfl)

/-! ## Commutativity of the kernel -/

theorem maddLanes_comm (x y : M128i) : maddLanes x y = maddLanes y x := by
  funext j
  simp only [maddLanes, mul_comm]

theorem vecBody_comm (K : List Byte) (pk : Int) (C : List Byte) (pc : Int) (Y : Int)
    (s t : VecState) (h : vecCore s = vecCore t) :
    (vecBody K pk C pc Y s).map vecCore = (vecBody C pc K pk Y t).map vecCore := by
  have h1 : s.SumV = t.SumV := congrArg Prod.fst h
  have h2 : s.wrapped = t.wrapped := congrArg Prod.snd h
  unfold vecBody
  cases hA : _mm_loadu_si128 K (pk + Y) <;> cases hB : _mm_loadu_si128 C (pc + Y) <;>
    simp only [Option.map_none', Option.map_some', vecCore]
  rename_i A B
  rw [_mm_madd_epi16, _mm_madd_epi16, _mm_madd_epi16, _mm_madd_epi16,
    maddLanes_comm (_mm_unpacklo_epi8 B _mm_setzero_si128),
    maddLanes_comm (_mm_unpackhi_epi8 B _mm_setzero_si128), h1, h2]

theorem vecLoop_comm (K : List Byte) (pk : Int) (C : List Byte) (pc : Int) (limit : Int) :
    ∀ (fuel : Nat) (Y : Int) (s t : VecState), vecCore s = vecCore t →
      (vecLoop K pk C pc limit fuel Y s).map vecCore
        = (vecLoop C pc K pk limit fuel Y t).map vecCore := by
  intro fuel
  induction fuel with
  | zero =>
    intro Y s t h
    by_cases hY : Y < limit <;> simp [vecLoop, hY, h]
  | succ f ih =>
    intro Y s t h
    by_cases hY : Y < limit
    · have hb := vecBody_comm K pk C pc Y s t h
      simp only [vecLoop, hY, if_true]
      cases h1 : vecBody K pk C pc Y s with
      | none =>
        cases h2 : vecBody C pc K pk Y t with
        | none => rfl
        | some t1 => rw [h1, h2] at hb; simp at hb
      | some s1 =>
        cases h2 : vecBody C pc K pk Y t with
        | none => rw [h1, h2] at hb; simp at hb
        | some t1 =>
          rw [h1, h2] at hb
          exact ih (Y + 16) s1 t1 (Option.some.inj hb)
    · simp [vecLoop, hY, h]

theorem scalarBody_comm (K : List Byte) (pk : Int) (C : List Byte) (pc : Int) (Y : Int)
    (s t : KernelRun) (h : runCore s = runCore t) :
    (scalarBody K pk C pc Y s).map runCore = (scalarBody C pc K pk Y t).map runCore := by
  have h1 : s.ret = t.ret := congrArg Prod.fst h
  have h2 : s.wrapped = t.wrapped := congrArg Prod.snd h
  unfold scalarBody
  cases hA : readByte K (pk + Y) <;> cases hB : readByte C (pc + Y) <;>
    simp only [Option.map_none', Option.map_some', runCore]
  rename_i k c
  rw [h1, h2, mul_comm (k.val : Int) (c.val : Int)]

theorem scalarLoop_comm (K : List Byte) (pk : Int) (C : List Byte) (pc : Int) (L : Int) :
    ∀ (fuel : Nat) (Y : Int) (s t : KernelRun), runCore s = runCore t →
      (scalarLoop K pk C pc L fuel Y s).map runCore
        = (scalarLoop C pc K pk L fuel Y t).map runCore := by
  intro fuel
  induction fuel with
  | zero =>
    intro Y s t h
    by_cases hY : Y < L <;> simp [scalarLoop, hY, h]
  | succ f ih =>
    intro Y s t h
    by_cases hY : Y < L
    · have hb := scalarBody_comm K pk C pc Y s t h
      simp only [scalarLoop, hY, if_true]
      cases h1 : scalarBody K pk C pc Y s with
      | none =>
        cases h2 : scalarBody C pc K pk Y t with
        | none => rfl
        | some t1 => rw [h1, h2] at hb; simp at hb
      | some s1 =>
        cases h2 : scalarBody C pc K pk Y t with
        | none => rw [h1, h2] at hb; simp at hb
        | some t1 =>
          rw [h1, h2] at hb
          exact ih (Y + 1) s1 t1 (Option.some.inj hb)
    · simp [scalarLoop, hY, h]

theorem kernel_run_comm (K : List Byte) (pk : Int) (C : List Byte) (pc : Int) (L : Int) :
    (Native_IM_Conv_SIMD_run K pk C pc L).map runCore
      = (Native_IM_Conv_SIMD_run C pc K pk L).map runCore := by
  have hv := vecLoop_comm K pk C pc (Int.tdiv L 16 * 16) (Int.tdiv L 16 * 16).toNat 0
    { SumV := _mm_setzero_si128, wrapped := false, reads := [] }
    { SumV := _mm_setzero_si128, wrapped := false, reads := [] } rfl
  unfold Native_IM_Conv_SIMD_run
  simp only
  cases h1 : vecLoop K pk C pc (Int.tdiv L 16 * 16) (Int.tdiv L 16 * 16).toNat 0
      { SumV := _mm_setzero_si128, wrapped := false, reads := [] } with
  | none =>
    cases h2 : vecLoop C pc K pk (Int.tdiv L 16 * 16) (Int.tdiv L 16 * 16).toNat 0
        { SumV := _mm_setzero_si128, wrapped := false, reads := [] } with
    | none => rfl
    | some w => rw [h1, h2] at hv; simp at hv
  | some v =>
    cases h2 : vecLoop C pc K pk (Int.tdiv L 16 * 16) (Int.tdiv L 16 * 16).toNat 0
        { SumV := _mm_setzero_si128, wrapped := false, reads := [] } with
    | none => rw [h1, h2] at hv; simp at hv
    | some w =>
      rw [h1, h2] at hv
      have e1 : v.SumV = w.SumV := congrArg Prod.fst (Option.some.inj hv)
      have e2 : v.wrapped = w.wrapped := congrArg Prod.snd (Option.some.inj hv)
      simp only
      apply scalarLoop_comm
      simp only [runCore, e1, e2]

/-- C6: the kernel is commutative in its two buffers, for every length, also at lengths at which
the 32-bit accumulator wraps (and also when a read leaves a buffer: then both calls are
undefined). -/
theorem kernel_commutative (a b : List Byte) (L : Int) :
    Native_IM_Conv_SIMD a 0 b 0 L = Native_IM_Conv_SIMD b 0 a 0 L := by
  have h := congrArg (Option.map Prod.fst) (kernel_run_comm a 0 b 0 L)
  simp only [Option.map_map] at h
  exact h

/-! ## Exact `float` sums -/

theorem ulpExp_small (n : Nat) (h : n < 16777216) : ulpExp n n = 0 := by
  cases n with
  | zero => rfl
  | succ k => simp [ulpExp, h]

/-- Integers of magnitude below `2^24` are binary32 values: rounding leaves them unchanged. -/
theorem roundF32_exact (x : Int) (h1 : -16777216 < x) (h2 : x < 16777216) : roundF32 x = x := by
  have hn : x.natAbs < 16777216 := by omega
  unfold roundF32
  simp only [ulpExp_small _ hn, pow_zero, Nat.div_one, Nat.mod_one, Nat.mul_zero, Nat.mul_one]
  simp [Int.sign_mul_abs]

theorem f32_add_exact (s : F32) (k : Int) (hs : 0 ≤ s.val) (hk : 0 ≤ k)
    (h : s.val + k < 16777216) : F32.add s (F32.ofInt32 k) = { val := s.val + k } := by
  unfold F32.add F32.ofInt32
  simp only
  rw [roundF32_exact k (by omega) (by omega), roundF32_exact (s.val + k) (by omega) (by omega)]

theorem rowsExact_zero (pSrc : List Byte) (Ss : Int) (pTpl : List Byte) (Wt St rs rt : Int) :
    rowsExact pSrc Ss pTpl Wt St rs rt 0 = 0 := by
  simp [rowsExact]

theorem rowsExact_succ_left (pSrc : List Byte) (Ss : Int) (pTpl : List Byte) (Wt St rs rt : Int)
    (n : Nat) :
    rowsExact pSrc Ss pTpl Wt St rs rt (n + 1)
      = dotExact pTpl rt pSrc rs Wt.toNat + rowsExact pSrc Ss pTpl Wt St (rs + Ss) (rt + St) n := by
  unfold rowsExact
  rw [Finset.sum_range_succ', add_comm]
  congr 1
  · simp
  · refine Finset.sum_congr rfl (fun k _ => ?_)
    have e1 : rt + ((k + 1 : Nat) : Int) * St = rt + St + (k : Int) * St := by push_cast; ring
    have e2 : rs + ((k + 1 : Nat) : Int) * Ss = rs + Ss + (k : Int) * Ss := by push_cast; ring
    rw [e1, e2]

theorem rowsExact_range (pSrc : List Byte) (Ss : Int) (pTpl : List Byte) (Wt St : Int) :
    ∀ (n : Nat) (rs rt : Int), 0 ≤ rowsExact pSrc Ss pTpl Wt St rs rt n
      ∧ rowsExact pSrc Ss pTpl Wt St rs rt n ≤ 65025 * ((n * Wt.toNat : Nat) : Int) := by
  intro n
  induction n with
  | zero => intro rs rt; simp [rowsExact_zero]
  | succ n ih =>
    intro rs rt
    rw [rowsExact_succ_left]
    have h1 := dotExact_range pTpl rt pSrc rs Wt.toNat
    have h2 := ih (rs + Ss) (rt + St)
    have e : (((n + 1) * Wt.toNat : Nat) : Int) = ((n * Wt.toNat : Nat) : Int) + (Wt.toNat : Int) := by
      push_cast; ring
    rw [e]
    omega

theorem tplLoop_done (pSrc : List Byte) (Ss : Int) (pTpl : List Byte) (Wt Ht St : Int)
    (fuel : Nat) (t_r rs rt : Int) (st : CellRun) (h : ¬ t_r < Ht) :
    tplLoop pSrc Ss pTpl Wt Ht St fuel t_r rs rt st = some st := by
  cases fuel <;> simp [tplLoop, h]

theorem tplLoop_step (pSrc : List Byte) (Ss : Int) (pTpl : List Byte) (Wt Ht St : Int)
    (fuel : Nat) (t_r rs rt : Int) (st : CellRun) (k : KernelRun) (h : t_r < Ht)
    (hk : Native_IM_Conv_SIMD_run pTpl rt pSrc rs Wt = some k) :
    tplLoop pSrc Ss pTpl Wt Ht St (fuel + 1) t_r rs rt st
      = tplLoop pSrc Ss pTpl Wt Ht St fuel (t_r + 1) (rs + Ss) (rt + St)
          { sum := F32.add st.sum (F32.ofInt32 k.ret)
            calls := st.calls + 1
            reads := st.reads ++ k.reads } := by
  simp [tplLoop, h, hk]

/-- The loop over the template rows, when the rows lie in their buffers and the sum stays
below `2^24`: the accumulator receives the exact sum of the row dot products. -/
theorem tplLoop_spec (pSrc : List Byte) (Ss : Int) (pTpl : List Byte) (Wt Ht St : Int) :
    ∀ (n fuel : Nat) (t_r rs rt : Int) (st : CellRun), n = (Ht - t_r).toNat → n ≤ fuel →
      (∀ k : Nat, k < n → 0 < Wt →
        (0 ≤ rt + (k : Int) * St ∧ rt + (k : Int) * St + Wt ≤ (pTpl.length : Int))
          ∧ (0 ≤ rs + (k : Int) * Ss ∧ rs + (k : Int) * Ss + Wt ≤ (pSrc.length : Int))) →
      (0 < n → 65025 * (Wt.toNat : Int) < 2147483648) →
      0 ≤ st.sum.val → st.sum.val + rowsExact pSrc Ss pTpl Wt St rs rt n < 16777216 →
      ∃ st1, tplLoop pSrc Ss pTpl Wt Ht St fuel t_r rs rt st = some st1
        ∧ st1.sum.val = st.sum.val + rowsExact pSrc Ss pTpl Wt St rs rt n
        ∧ st1.calls = st.calls + n := by
  intro n
  induction n with
  | zero =>
    intro fuel t_r rs rt st hn _ _ _ _ _
    exact ⟨st, tplLoop_done pSrc Ss pTpl Wt Ht St fuel t_r rs rt st (by omega),
      by simp [rowsExact_zero], rfl⟩
  | succ n ih =>
    intro fuel t_r rs rt st hn hf hin hW hs hex
    obtain ⟨f, rfl⟩ : ∃ f, fuel = f + 1 := ⟨fuel - 1, by omega⟩
    have h0 := hin 0 (by omega)
    simp only [Nat.cast_zero, zero_mul, add_zero] at h0
    obtain ⟨kr, hkr, _, hkno⟩ := kernel_run_spec pTpl rt pSrc rs Wt (fun h => (h0 h).1)
      (fun h => (h0 h).2)
    have hd := dotExact_range pTpl rt pSrc rs Wt.toNat
    have hW1 := hW (by omega)
    obtain ⟨_, hret⟩ := hkno (by omega)
    have hrest := rowsExact_range pSrc Ss pTpl Wt St n (rs + Ss) (rt + St)
    rw [rowsExact_succ_left] at hex
    have hadd : F32.add st.sum (F32.ofInt32 kr.ret)
        = { val := st.sum.val + dotExact pTpl rt pSrc rs Wt.toNat } := by
      rw [hret]
      exact f32_add_exact _ _ hs hd.1 (by omega)
    obtain ⟨st2, hrun, hsum, hcalls⟩ := ih f (t_r + 1) (rs + Ss) (rt + St)
      { sum := F32.add st.sum (F32.ofInt32 kr.ret)
        calls := st.calls + 1
        reads := st.reads ++ kr.reads }
      (by omega) (by omega)
      (fun k hk hw => by
        have := hin (k + 1) (by omega) hw
        have e1 : rt + St + (k : Int) * St = rt + ((k + 1 : Nat) : Int) * St := by push_cast; ring
        have e2 : rs + Ss + (k : Int) * Ss = rs + ((k + 1 : Nat) : Int) * Ss := by push_cast; ring
        rw [e1, e2]
        exact this)
      (fun _ => hW1)
      (by simp only [hadd]; omega)
      (by simp only [hadd]; omega)
    refine ⟨st2, ?_, ?_, ?_⟩
    · rw [tplLoop_step pSrc Ss pTpl Wt Ht St f t_r rs rt st kr (by omega) hkr, hrun]
    · rw [hsum, rowsExact_succ_left]
      simp only [hadd]
      ring
    · rw [hcalls]
      simp only
      omega

theorem readCell_set (m : List F32) (i : Int) (v : F32) (h0 : 0 ≤ i)
    (h1 : i < (m.length : Int)) (j : Int) :
    readCell (m.set i.toNat v) j = if j = i then some v else readCell m j := by
  unfold readCell
  by_cases hj : j < 0
  · rw [if_pos hj, if_pos hj, if_neg (by omega)]
  · rw [if_neg hj, if_neg hj, List.getElem?_set]
    by_cases e : j = i
    · subst e
      simp
      omega
    · rw [if_neg e, if_neg (by omega)]

theorem writeCell_spec (m : List F32) (i : Int) (v : F32) (h0 : 0 ≤ i)
    (h1 : i < (m.length : Int)) : writeCell m i v = some (m.set i.toNat v) := by
  unfold writeCell
  rw [if_pos ⟨h0, h1⟩]

/-- One result cell: the loop over the template rows, then the store. -/
theorem cellBody_spec (pSrc : List Byte) (Ss : Int) (pTpl : List Byte) (pt Wt Ht St : Int)
    (rm rsrc : Int) (st : MatchRun)
    (hres : 0 ≤ rm ∧ rm < (st.result.length : Int))
    (hin : ∀ k : Nat, k < Ht.toNat → 0 < Wt →
        (0 ≤ pt + (k : Int) * St ∧ pt + (k : Int) * St + Wt ≤ (pTpl.length : Int))
          ∧ (0 ≤ rsrc + (k : Int) * Ss ∧ rsrc + (k : Int) * Ss + Wt ≤ (pSrc.length : Int)))
    (hsmall : 65025 * ((Ht.toNat * Wt.toNat : Nat) : Int) < 16777216) :
    ∃ st1, cellBody pSrc Ss pTpl pt Wt Ht St rm rsrc st = some st1
      ∧ st1.result
          = st.result.set rm.toNat { val := rowsExact pSrc Ss pTpl Wt St rsrc pt Ht.toNat }
      ∧ st1.calls = st.calls + Ht.toNat := by
  have hW : 0 < Ht.toNat → 65025 * (Wt.toNat : Int) < 2147483648 := by
    intro hpos
    have : (Wt.toNat : Int) ≤ ((Ht.toNat * Wt.toNat : Nat) : Int) := by
      exact_mod_cast Nat.le_mul_of_pos_left _ hpos
    omega
  have hr := rowsExact_range pSrc Ss pTpl Wt St Ht.toNat rsrc pt
  obtain ⟨c, hc, hsum, hcalls⟩ := tplLoop_spec pSrc Ss pTpl Wt Ht St Ht.toNat Ht.toNat 0 rsrc pt
    { sum := { val := 0 }, calls := st.calls, reads := st.reads } (by simp) (le_refl _)
    (fun k hk hw => hin k hk hw)
    hW (le_refl _) (by simp only [zero_add]; omega)
  simp only [zero_add] at hsum
  refine ⟨_, by simp only [cellBody, hc, writeCell_spec st.result rm _ hres.1 hres.2]; rfl, ?_, ?_⟩
  · have e : c.sum = { val := rowsExact pSrc Ss pTpl Wt St rsrc pt Ht.toNat } := by
      cases hcs : c.sum
      rw [hcs] at hsum
      simp only at hsum
      rw [hsum]
    simp only [e]
  · simp only [hcalls]

theorem colLoop_done (pSrc : List Byte) (Ss : Int) (pTpl : List Byte) (pt Wt Ht St Wr : Int)
    (fuel : Nat) (c rm rsrc : Int) (st : MatchRun) (h : ¬ c < Wr) :
    colLoop pSrc Ss pTpl pt Wt Ht St Wr fuel c rm rsrc st = some st := by
  cases fuel <;> simp [colLoop, h]

theorem colLoop_step (pSrc : List Byte) (Ss : Int) (pTpl : List Byte) (pt Wt Ht St Wr : Int)
    (fuel : Nat) (c rm rsrc : Int) (st st1 : MatchRun) (h : c < Wr)
    (hb : cellBody pSrc Ss pTpl pt Wt Ht St rm rsrc st = some st1) :
    colLoop pSrc Ss pTpl pt Wt Ht St Wr (fuel + 1) c rm rsrc st
      = colLoop pSrc Ss pTpl pt Wt Ht St Wr fuel (c + 1) (rm + 1) (rsrc + 1) st1 := by
  simp [colLoop, h, hb]

/-- The loop over the columns of one result row whose cells start at offset `R` and whose source
windows start at offset `S`. -/
theorem colLoop_spec (pSrc : List Byte) (Ss : Int) (pTpl : List Byte) (pt Wt Ht St Wr : Int)
    (R S : Int) (hsmall : 65025 * ((Ht.toNat * Wt.toNat : Nat) : Int) < 16777216) :
    ∀ (n fuel : Nat) (c : Int) (st : MatchRun), n = (Wr - c).toNat → n ≤ fuel →
      (∀ c1, c ≤ c1 → c1 < Wr → 0 ≤ R + c1 ∧ R + c1 < (st.result.length : Int)) →
      (∀ c1, c ≤ c1 → c1 < Wr → ∀ k : Nat, k < Ht.toNat → 0 < Wt →
        (0 ≤ pt + (k : Int) * St ∧ pt + (k : Int) * St + Wt ≤ (pTpl.length : Int))
          ∧ (0 ≤ S + c1 + (k : Int) * Ss ∧ S + c1 + (k : Int) * Ss + Wt ≤ (pSrc.length : Int))) →
      ∃ out, colLoop pSrc Ss pTpl pt Wt Ht St Wr fuel c (R + c) (S + c) st = some out
        ∧ out.result.length = st.result.length
        ∧ (∀ i, (∀ c1, c ≤ c1 → c1 < Wr → i ≠ R + c1) →
            readCell out.result i = readCell st.result i)
        ∧ (∀ c1, c ≤ c1 → c1 < Wr → readCell out.result (R + c1)
            = some { val := rowsExact pSrc Ss pTpl Wt St (S + c1) pt Ht.toNat })
        ∧ out.calls = st.calls + n * Ht.toNat := by
  intro n
  induction n with
  | zero =>
    intro fuel c st hn _ _ _
    refine ⟨st, colLoop_done pSrc Ss pTpl pt Wt Ht St Wr fuel c _ _ st (by omega), rfl,
      fun _ _ => rfl, ?_, by simp⟩
    intro c1 h1 h2
    omega
  | succ n ih =>
    intro fuel c st hn hf hres hin
    obtain ⟨f, rfl⟩ : ∃ f, fuel = f + 1 := ⟨fuel - 1, by omega⟩
    have hc : c < Wr := by omega
    obtain ⟨st1, hb, hres1, hcalls1⟩ := cellBody_spec pSrc Ss pTpl pt Wt Ht St (R + c) (S + c) st
      (hres c (le_refl _) hc) (hin c (le_refl _) hc) hsmall
    have hlen1 : st1.result.length = st.result.length := by rw [hres1, List.length_set]
    obtain ⟨out, hrun, hlen, hframe, hwritten, hcalls⟩ := ih f (c + 1) st1 (by omega) (by omega)
      (fun c1 h1 h2 => by rw [hlen1]; exact hres c1 (by omega) h2)
      (fun c1 h1 h2 => hin c1 (by omega) h2)
    have hget : ∀ j, readCell st1.result j
        = if j = R + c then some { val := rowsExact pSrc Ss pTpl Wt St (S + c) pt Ht.toNat }
          else readCell st.result j := by
      intro j
      rw [hres1]
      exact readCell_set st.result (R + c) _ (hres c (le_refl _) hc).1 (hres c (le_refl _) hc).2 j
    refine ⟨out, ?_, by rw [hlen, hlen1], ?_, ?_, ?_⟩
    · rw [colLoop_step pSrc Ss pTpl pt Wt Ht St Wr f c _ _ st st1 hc hb]
      have e1 : R + c + 1 = R + (c + 1) := by ring
      have e2 : S + c + 1 = S + (c + 1) := by ring
      rw [e1, e2, hrun]
    · intro i hi
      rw [hframe i (fun c1 h1 h2 => hi c1 (by omega) h2), hget, if_neg (hi c (le_refl _) hc)]
    · intro c1 h1 h2
      rcases eq_or_lt_of_le h1 with e | hlt
      · subst e
        rw [hframe (R + c) (fun c2 h3 _ => by omega), hget, if_pos rfl]
      · exact hwritten c1 (by omega) h2
    · rw [hcalls, hcalls1]
      ring

theorem rowLoop_done (pSrc : List Byte) (ps Ss : Int) (pTpl : List Byte)
    (pt Wt Ht St pr Wr Hr Sr : Int)
    (fuel : Nat) (r : Int) (st : MatchRun) (h : ¬ r < Hr) :
    rowLoop pSrc ps Ss pTpl pt Wt Ht St pr Wr Hr Sr fuel r st = some st := by
  cases fuel <;> simp [rowLoop, h]

theorem rowLoop_step (pSrc : List Byte) (ps Ss : Int) (pTpl : List Byte)
    (pt Wt Ht St pr Wr Hr Sr : Int)
    (fuel : Nat) (r : Int) (st st1 : MatchRun) (h : r < Hr)
    (hb : colLoop pSrc Ss pTpl pt Wt Ht St Wr Wr.toNat 0 (pr + wrap32 (r * Sr))
      (ps + wrap32 (r * Ss)) st = some st1) :
    rowLoop pSrc ps Ss pTpl pt Wt Ht St pr Wr Hr Sr (fuel + 1) r st
      = rowLoop pSrc ps Ss pTpl pt Wt Ht St pr Wr Hr Sr fuel (r + 1) st1 := by
  simp [rowLoop, h, hb]

/-- The loop over the result rows: every cell outside the result rectangle keeps its value, and
every cell of the rectangle, at the offset `pr + wrap32 (r * Sr) + c` the code computes for it,
holds the exact score of one of the positions that are stored at this offset. -/
theorem rowLoop_spec (pSrc : List Byte) (ps Ss : Int) (pTpl : List Byte)
    (pt Wt Ht St pr Wr Hr Sr : Int)
    (hsmall : 65025 * ((Ht.toNat * Wt.toNat : Nat) : Int) < 16777216) :
    ∀ (n fuel : Nat) (r : Int) (st : MatchRun), n = (Hr - r).toNat → n ≤ fuel →
      (∀ r1 c1, r ≤ r1 → r1 < Hr → 0 ≤ c1 → c1 < Wr →
        0 ≤ pr + wrap32 (r1 * Sr) + c1
          ∧ pr + wrap32 (r1 * Sr) + c1 < (st.result.length : Int)) →
      (∀ r1 c1, r ≤ r1 → r1 < Hr → 0 ≤ c1 → c1 < Wr → ∀ k : Nat, k < Ht.toNat → 0 < Wt →
        (0 ≤ pt + (k : Int) * St ∧ pt + (k : Int) * St + Wt ≤ (pTpl.length : Int))
          ∧ (0 ≤ ps + wrap32 (r1 * Ss) + c1 + (k : Int) * Ss
            ∧ ps + wrap32 (r1 * Ss) + c1 + (k : Int) * Ss + Wt ≤ (pSrc.length : Int))) →
      ∃ out, rowLoop pSrc ps Ss pTpl pt Wt Ht St pr Wr Hr Sr fuel r st = some out
        ∧ out.result.length = st.result.length
        ∧ (∀ i, (∀ r1 c1, r ≤ r1 → r1 < Hr → 0 ≤ c1 → c1 < Wr →
              i ≠ pr + wrap32 (r1 * Sr) + c1) →
            readCell out.result i = readCell st.result i)
        ∧ (∀ r1 c1, r ≤ r1 → r1 < Hr → 0 ≤ c1 → c1 < Wr →
            ∃ r2 c2, r ≤ r2 ∧ r2 < Hr ∧ 0 ≤ c2 ∧ c2 < Wr
              ∧ pr + wrap32 (r1 * Sr) + c1 = pr + wrap32 (r2 * Sr) + c2
              ∧ readCell out.result (pr + wrap32 (r1 * Sr) + c1)
                = some { val := (rowsExact pSrc Ss pTpl Wt St (ps + wrap32 (r2 * Ss) + c2) pt
                    Ht.toNat) })
        ∧ out.calls = st.calls + n * (Wr.toNat * Ht.toNat) := by
  intro n
  induction n with
  | zero =>
    intro fuel r st hn _ _ _
    refine ⟨st, rowLoop_done pSrc ps Ss pTpl pt Wt Ht St pr Wr Hr Sr fuel r st (by omega), rfl,
      fun _ _ => rfl, ?_, by simp⟩
    intro r1 c1 h1 h2
    omega
  | succ n ih =>
    intro fuel r st hn hf hres hin
    obtain ⟨f, rfl⟩ : ∃ f, fuel = f + 1 := ⟨fuel - 1, by omega⟩
    have hr : r < Hr := by omega
    obtain ⟨st1, hb, hlen1, hframe1, hwritten1, hcalls1⟩ :=
      colLoop_spec pSrc Ss pTpl pt Wt Ht St Wr (pr + wrap32 (r * Sr)) (ps + wrap32 (r * Ss))
        hsmall Wr.toNat Wr.toNat 0 st (by omega) (le_refl _)
        (fun c1 h1 h2 => hres r c1 (le_refl _) hr h1 h2)
        (fun c1 h1 h2 => hin r c1 (le_refl _) hr h1 h2)
    simp only [add_zero] at hb
    obtain ⟨out, hrun, hlen, hframe, hwritten, hcalls⟩ :=
      ih f (r + 1) st1 (by omega) (by omega)
      (fun r1 c1 h1 h2 h3 h4 => by rw [hlen1]; exact hres r1 c1 (by omega) h2 h3 h4)
      (fun r1 c1 h1 h2 h3 h4 => hin r1 c1 (by omega) h2 h3 h4)
    refine ⟨out, ?_, by rw [hlen, hlen1], ?_, ?_, ?_⟩
    · rw [rowLoop_step pSrc ps Ss pTpl pt Wt Ht St pr Wr Hr Sr f r st st1 hr hb, hrun]
    · intro i hi
      rw [hframe i (fun r1 c1 h1 h2 h3 h4 => hi r1 c1 (by omega) h2 h3 h4),
        hframe1 i (fun c1 h1 h2 => hi r c1 (le_refl _) hr h1 h2)]
    · intro r1 c1 h1 h2 h3 h4
      by_cases hlater : ∃ r2 c2, r + 1 ≤ r2 ∧ r2 < Hr ∧ 0 ≤ c2 ∧ c2 < Wr
          ∧ pr + wrap32 (r1 * Sr) + c1 = pr + wrap32 (r2 * Sr) + c2
      · obtain ⟨r2, c2, g1, g2, g3, g4, g5⟩ := hlater
        obtain ⟨r3, c3, q1, q2, q3, q4, q5, q6⟩ := hwritten r2 c2 g1 g2 g3 g4
        exact ⟨r3, c3, by omega, q2, q3, q4, by rw [g5, q5], by rw [g5]; exact q6⟩
      · have hr1 : r1 = r := by
          by_contra hne
          exact hlater ⟨r1, c1, by omega, h2, h3, h4, rfl⟩
        subst hr1
        refine ⟨r1, c1, le_refl _, h2, h3, h4, rfl, ?_⟩
        rw [hframe (pr + wrap32 (r1 * Sr) + c1) (fun r2 c2 g1 g2 g3 g4 g5 =>
          hlater ⟨r2, c2, g1, g2, g3, g4, g5⟩)]
        exact hwritten1 c1 h3 h4
    · rw [hcalls, hcalls1]
      ring

/-- The engine on inputs whose accessed cells and bytes lie in their buffers and whose template
area keeps every score below `2^24`, with the offsets as the code computes them. -/
theorem engine_spec (pSrc : List Byte) (ps sw sh Ss : Int) (pTpl : List Byte)
    (pt Wt Ht St : Int) (pResult : List F32) (pr Wr Hr Sr : Int)
    (hsmall : 65025 * ((Ht.toNat * Wt.toNat : Nat) : Int) < 16777216)
    (hres : ∀ r c, 0 ≤ r → r < Hr → 0 ≤ c → c < Wr →
      0 ≤ pr + wrap32 (r * Sr) + c ∧ pr + wrap32 (r * Sr) + c < (pResult.length : Int))
    (hin : ∀ r c, 0 ≤ r → r < Hr → 0 ≤ c → c < Wr → ∀ k : Nat, k < Ht.toNat → 0 < Wt →
      (0 ≤ pt + (k : Int) * St ∧ pt + (k : Int) * St + Wt ≤ (pTpl.length : Int))
        ∧ (0 ≤ ps + wrap32 (r * Ss) + c + (k : Int) * Ss
          ∧ ps + wrap32 (r * Ss) + c + (k : Int) * Ss + Wt ≤ (pSrc.length : Int))) :
    ∃ out, MatchTemplate_SIMD pSrc ps sw sh Ss pTpl pt Wt Ht St pResult pr Wr Hr Sr = some out
      ∧ out.result.length = pResult.length
      ∧ (∀ i, (∀ r c, 0 ≤ r → r < Hr → 0 ≤ c → c < Wr → i ≠ pr + wrap32 (r * Sr) + c) →
          readCell out.result i = readCell pResult i)
      ∧ (∀ r c, 0 ≤ r → r < Hr → 0 ≤ c → c < Wr →
          ∃ r2 c2, 0 ≤ r2 ∧ r2 < Hr ∧ 0 ≤ c2 ∧ c2 < Wr
            ∧ pr + wrap32 (r * Sr) + c = pr + wrap32 (r2 * Sr) + c2
            ∧ readCell out.result (pr + wrap32 (r * Sr) + c)
              = some { val := (rowsExact pSrc Ss pTpl Wt St (ps + wrap32 (r2 * Ss) + c2) pt
                  Ht.toNat) })
      ∧ out.calls = Hr.toNat * (Wr.toNat * Ht.toNat) := by
  obtain ⟨out, h1, h2, h3, h4, h5⟩ := rowLoop_spec pSrc ps Ss pTpl pt Wt Ht St pr Wr Hr Sr hsmall
    Hr.toNat Hr.toNat 0 { result := pResult, calls := 0, reads := [] } (by simp) (le_refl _)
    hres hin
  exact ⟨out, h1, h2, h3, h4, by rw [h5]; simp⟩

/-- Row offsets that fit an `int` are not changed by the 32-bit multiplication. -/
theorem wrap32_row {H S : Int} (hfit : RowOffsetsFit H S) {r : Int} (h0 : 0 ≤ r) (h1 : r < H) :
    wrap32 (r * S) = r * S :=
  wrap32_of_range (hfit r h0 h1).1 (by have := (hfit r h0 h1).2; omega)

/-- A call with an empty result rectangle does nothing. -/
theorem rowLoop_empty_columns (pSrc : List Byte) (ps Ss : Int) (pTpl : List Byte)
    (pt Wt Ht St pr Wr Hr Sr : Int) (hW : Wr ≤ 0) :
    ∀ (fuel : Nat) (r : Int) (st : MatchRun), (Hr - r).toNat ≤ fuel →
      rowLoop pSrc ps Ss pTpl pt Wt Ht St pr Wr Hr Sr fuel r st = some st := by
  intro fuel
  induction fuel with
  | zero =>
    intro r st h
    exact rowLoop_done pSrc ps Ss pTpl pt Wt Ht St pr Wr Hr Sr 0 r st (by omega)
  | succ f ih =>
    intro r st h
    by_cases hr : r < Hr
    · rw [rowLoop_step pSrc ps Ss pTpl pt Wt Ht St pr Wr Hr Sr f r st st hr
        (colLoop_done pSrc Ss pTpl pt Wt Ht St Wr _ 0 _ _ st (by omega))]
      exact ih (r + 1) st (by omega)
    · exact rowLoop_done pSrc ps Ss pTpl pt Wt Ht St pr Wr Hr Sr _ r st hr

theorem engine_empty_result (pSrc : List Byte) (ps sw sh Ss : Int) (pTpl : List Byte)
    (pt Wt Ht St : Int) (pResult : List F32) (pr Wr Hr Sr : Int) (h : Hr ≤ 0 ∨ Wr ≤ 0) :
    MatchTemplate_SIMD pSrc ps sw sh Ss pTpl pt Wt Ht St pResult pr Wr Hr Sr
      = some { result := pResult, calls := 0, reads := [] } := by
  unfold MatchTemplate_SIMD
  rcases h with h | h
  · exact rowLoop_done pSrc ps Ss pTpl pt Wt Ht St pr Wr Hr Sr _ 0 _ (by omega)
  · exact rowLoop_empty_columns pSrc ps Ss pTpl pt Wt Ht St pr Wr Hr Sr h _ 0 _ (by omega)

/-! ## The match-score engine: an empty result -/

/-- C8: with `resultHeight ≤ 0` or `resultWidth ≤ 0`, whatever the other arguments (the three
pointers may point anywhere into their buffers), the call returns with the result buffer as it
was before, without a kernel invocation and without reading a byte. -/
theorem match_template_empty_result (pSrc : List Byte) (ps srcWidth srcHeight Ss : Int)
    (pTpl : List Byte) (pt Wt Ht St : Int) (pResult : List F32) (pr Wr Hr Sr : Int)
    (h : Hr ≤ 0 ∨ Wr ≤ 0) :
    MatchTemplate_SIMD pSrc ps srcWidth srcHeight Ss pTpl pt Wt Ht St pResult pr Wr Hr Sr
      = some { result := pResult, calls := 0, reads := [] } :=
  engine_empty_result pSrc ps srcWidth srcHeight Ss pTpl pt Wt Ht St pResult pr Wr Hr Sr h

/-- C8 on a 3-row result of width 0, and on a result of height -2. -/
theorem match_template_empty_result_witness :
    MatchTemplate_SIMD (List.replicate 16 1) 0 4 4 4 (List.replicate 4 1) 0 2 2 2
        (List.replicate 9 { val := 7 }) 0 0 3 3
        = some { result := List.replicate 9 { val := 7 }, calls := 0, reads := [] }
      ∧ MatchTemplate_SIMD (List.replicate 16 1) 0 4 4 4 (List.replicate 4 1) 0 2 2 2
        (List.replicate 9 { val := 7 }) 0 3 (-2) 3
        = some { result := List.replicate 9 { val := 7 }, calls := 0, reads := [] } :=
  ⟨match_template_empty_result _ 0 4 4 4 _ 0 2 2 2 _ 0 0 3 3 (Or.inr (by decide)),
    match_template_empty_result _ 0 4 4 4 _ 0 2 2 2 _ 0 3 (-2) 3 (Or.inl (by decide))⟩

end SIMDConv

/-! ## Overlapping guards -/

namespace PatternMatch

/-- C19: the guard does not enforce LIFO nesting, and without it the ceiling is not restored:
when `g1(N1)` and `g2(N2)` are constructed in this order and `g1` is destroyed before `g2`, the
run ends with the ceiling `max 1 N1` that `g2` recorded, whatever the initial ceiling was; from
the ceiling 8 with `N1 = 2`, `N2 = 4` it ends at 2. -/
theorem overlapping_guards_do_not_restore :
    (∀ (N1 N2 : Int) (s : Omp),
        omp_get_max_threads (overlappingGuards N1 N2 s) = max 1 N1)
      ∧ omp_get_max_threads (overlappingGuards 2 4 { ceiling := 8 }) = 2
      ∧ omp_get_max_threads (overlappingGuards 2 4 { ceiling := 8 }) ≠ 8 :=
  ⟨fun _ _ _ => rfl, by decide, by decide⟩

end PatternMatch

namespace SIMDConv

/-! ## The wrapper `IM_Conv_SIMD` -/

theorem wrapper_guarded (pKernel pConv : Option BytePtr) (length : Int)
    (h : length ≤ 0 ∨ pKernel = none ∨ pConv = none) :
    IM_Conv_SIMD_run pKernel pConv length = some { ret := 0, wrapped := false, reads := [] } := by
  unfold IM_Conv_SIMD_run
  rw [dif_pos h]

theorem wrapper_calls_kernel (pk pc : BytePtr) (length : Int) (h : 1 ≤ length) :
    IM_Conv_SIMD_run (some pk) (some pc) length
      = Native_IM_Conv_SIMD_run pk.buf pk.off pc.buf pc.off length := by
  unfold IM_Conv_SIMD_run
  rw [dif_neg (by simp; omega)]
  rfl

/-- C20: with each `IntPtr` an optional pointer, `IM_Conv_SIMD` returns 0 without reading a byte
when `length ≤ 0` or a pointer is null; for `length ≥ 1` and two non-null pointers it returns
what `Native_IM_Conv_SIMD` returns; so on non-null pointers the wrapper and the unguarded kernel
agree for every length, negative lengths included. -/
theorem wrapper_agrees_with_kernel (pKernel pConv : Option BytePtr) (pk pc : BytePtr)
    (length : Int) :
    ((length ≤ 0 ∨ pKernel = none ∨ pConv = none) →
        IM_Conv_SIMD_run pKernel pConv length
            = some { ret := 0, wrapped := false, reads := [] }
          ∧ IM_Conv_SIMD pKernel pConv length = some 0)
      ∧ (1 ≤ length →
          IM_Conv_SIMD (some pk) (some pc) length
            = Native_IM_Conv_SIMD pk.buf pk.off pc.buf pc.off length)
      ∧ IM_Conv_SIMD_run (some pk) (some pc) length
          = Native_IM_Conv_SIMD_run pk.buf pk.off pc.buf pc.off length
      ∧ IM_Conv_SIMD (some pk) (some pc) length
          = Native_IM_Conv_SIMD pk.buf pk.off pc.buf pc.off length := by
  have hall : IM_Conv_SIMD_run (some pk) (some pc) length
      = Native_IM_Conv_SIMD_run pk.buf pk.off pc.buf pc.off length := by
    rcases le_or_lt length 0 with h | h
    · rw [wrapper_guarded _ _ _ (Or.inl h), kernel_run_nonpos _ _ _ _ _ h]
    · exact wrapper_calls_kernel pk pc length (by omega)
  refine ⟨?_, ?_, hall, ?_⟩
  · intro h
    have e := wrapper_guarded pKernel pConv length h
    exact ⟨e, by simp only [IM_Conv_SIMD, e, Option.map_some']⟩
  · intro _
    simp only [IM_Conv_SIMD, Native_IM_Conv_SIMD, hall]
  · simp only [IM_Conv_SIMD, Native_IM_Conv_SIMD, hall]

/-- C20 on a null kernel pointer, on a length of -5 and on a length of 18 with pointers into
two buffers of 20 bytes. -/
theorem wrapper_agrees_with_kernel_witness :
    IM_Conv_SIMD none (some { buf := List.replicate 20 5, off := 2 }) 18 = some 0
      ∧ IM_Conv_SIMD (some { buf := List.replicate 20 3, off := 1 })
          (some { buf := List.replicate 20 5, off := 2 }) (-5)
        = Native_IM_Conv_SIMD (List.replicate 20 3) 1 (List.replicate 20 5) 2 (-5)
      ∧ IM_Conv_SIMD (some { buf := List.replicate 20 3, off := 1 })
          (some { buf := List.replicate 20 5, off := 2 }) 18
        = Native_IM_Conv_SIMD (List.replicate 20 3) 1 (List.replicate 20 5) 2 18 :=
  ⟨((wrapper_agrees_with_kernel none (some { buf := List.replicate 20 5, off := 2 })
      { buf := [], off := 0 } { buf := [], off := 0 } 18).1 (Or.inr (Or.inl rfl))).2,
    (wrapper_agrees_with_kernel none none { buf := List.replicate 20 3, off := 1 }
      { buf := List.replicate 20 5, off := 2 } (-5)).2.2.2,
    (wrapper_agrees_with_kernel none none { buf := List.replicate 20 3, off := 1 }
      { buf := List.replicate 20 5, off := 2 } 18).2.1 (by decide)⟩

/-! ## The scalar loop as reference, and overflow -/

theorem scalarDot_eq_wrap (a : List Byte) (pa : Int) (b : List Byte) (pb : Int) (n : Nat) :
    scalarDot a pa b pb n = wrap32 (dotExact a pa b pb n) := by
  induction n with
  | zero => simp [scalarDot, dotExact_zero, wrap32]
  | succ n ih => rw [scalarDot, ih, wrap32_wrap32_add, dotExact_succ]

/-- C14: for every `L`, without an upper bound, and buffers holding at least `L` bytes, the
vectorised kernel returns the value of the plain scalar loop `sum += a[i] * b[i]` with a
wrapping 32-bit accumulator, which is the exact sum reduced modulo `2^32` and read as a signed
32-bit integer; and the signed 16-bit lanes that `_mm_madd_epi16` multiplies are the bytes
themselves, since a zero-extended byte lies in `[0, 255]`. -/
theorem kernel_refines_scalar_loop (a b : List Byte) (L : Int)
    (ha : L ≤ (a.length : Int)) (hb : L ≤ (b.length : Int)) :
    Native_IM_Conv_SIMD a 0 b 0 L = some (scalarDot a 0 b 0 L.toNat)
      ∧ scalarDot a 0 b 0 L.toNat
          = wrap32 (∑ i ∈ Finset.range L.toNat,
              ((a.getD i 0).val : Int) * ((b.getD i 0).val : Int))
      ∧ (-2147483648 ≤ scalarDot a 0 b 0 L.toNat ∧ scalarDot a 0 b 0 L.toNat < 2147483648)
      ∧ (∀ (A : M128i) (j : Fin 8),
          epi16 (_mm_unpacklo_epi8 A _mm_setzero_si128) j
              = ((A.byte ⟨j.val, by omega⟩ : Nat) : Int)
            ∧ epi16 (_mm_unpackhi_epi8 A _mm_setzero_si128) j
              = ((A.byte ⟨8 + j.val, by omega⟩ : Nat) : Int)
            ∧ A.byte ⟨j.val, by omega⟩ ≤ 255 ∧ A.byte ⟨8 + j.val, by omega⟩ ≤ 255) := by
  obtain ⟨r, hr, hv, _⟩ := kernel_run_spec a 0 b 0 L (fun _ => ⟨le_refl _, by omega⟩)
    (fun _ => ⟨le_refl _, by omega⟩)
  refine ⟨?_, ?_, ?_, ?_⟩
  · simp only [Native_IM_Conv_SIMD, hr, Option.map_some', hv, scalarDot_eq_wrap]
  · rw [scalarDot_eq_wrap, dotExact_zero_base]
  · rw [scalarDot_eq_wrap]
    exact wrap32_range _
  · intro A j
    have h1 := byte_lt A ⟨j.val, by omega⟩
    have h2 := byte_lt A ⟨8 + j.val, by omega⟩
    exact ⟨epi16_unpacklo A j, epi16_unpackhi A j, by omega, by omega⟩

/-- C14 on two buffers of 40 bytes (two vector blocks and a scalar tail of eight bytes). -/
theorem kernel_refines_scalar_loop_witness :
    Native_IM_Conv_SIMD (List.replicate 40 255) 0 (List.replicate 40 200) 0 40
        = some (scalarDot (List.replicate 40 255) 0 (List.replicate 40 200) 0 (40 : Int).toNat) :=
  (kernel_refines_scalar_loop (List.replicate 40 255) (List.replicate 40 200) 40 (by decide)
    (by decide)).1

theorem byteVal_replicate (n : Nat) (x : Byte) (i : Int) (h0 : 0 ≤ i) (h1 : i < (n : Int)) :
    byteVal (List.replicate n x) i = (x.val : Int) := by
  rw [byteVal_eq_getD _ h0, List.getD_eq_getElem?_getD, List.getElem?_replicate,
    if_pos (by omega)]
  rfl

theorem dotExact_replicate (n : Nat) (x y : Byte) (m : Nat) (h : m ≤ n) :
    dotExact (List.replicate n x) 0 (List.replicate n y) 0 m
      = (m : Int) * ((x.val : Int) * (y.val : Int)) := by
  induction m with
  | zero => simp [dotExact_zero]
  | succ m ih =>
    rw [dotExact_succ, ih (by omega), byteVal_replicate n x _ (by omega) (by omega),
      byteVal_replicate n y _ (by omega) (by omega)]
    push_cast
    ring

/-- C15: the 32-bit accumulation of the kernel can overflow: with `L = 33026` and every byte of
both buffers equal to 255 the exact sum is 2147515650, above `2^31 - 1`, and the kernel returns
-2147451646. -/
theorem kernel_accumulator_overflows :
    Native_IM_Conv_SIMD (List.replicate 33026 255) 0 (List.replicate 33026 255) 0 33026
        = some (-2147451646)
      ∧ (∑ i ∈ Finset.range 33026, (((List.replicate 33026 (255 : Byte)).getD i 0).val : Int)
          * (((List.replicate 33026 (255 : Byte)).getD i 0).val : Int)) = 2147515650
      ∧ Native_IM_Conv_SIMD (List.replicate 33026 255) 0 (List.replicate 33026 255) 0 33026
        ≠ some (∑ i ∈ Finset.range 33026,
            (((List.replicate 33026 (255 : Byte)).getD i 0).val : Int)
              * (((List.replicate 33026 (255 : Byte)).getD i 0).val : Int)) := by
  have hlen : ((List.replicate 33026 (255 : Byte)).length : Int) = 33026 := by
    rw [List.length_replicate]; rfl
  obtain ⟨r, hr, hv, _⟩ := kernel_run_spec (List.replicate 33026 255) 0
    (List.replicate 33026 255) 0 33026 (fun _ => ⟨le_refl _, by rw [hlen]; decide⟩)
    (fun _ => ⟨le_refl _, by rw [hlen]; decide⟩)
  have e : (33026 : Int).toNat = 33026 := rfl
  have hd := dotExact_replicate 33026 255 255 33026 (le_refl _)
  have hsum : (∑ i ∈ Finset.range 33026,
      (((List.replicate 33026 (255 : Byte)).getD i 0).val : Int)
        * (((List.replicate 33026 (255 : Byte)).getD i 0).val : Int)) = 2147515650 := by
    rw [← dotExact_zero_base, hd]
    rfl
  have hret : Native_IM_Conv_SIMD (List.replicate 33026 255) 0 (List.replicate 33026 255) 0
      33026 = some (-2147451646) := by
    simp only [Native_IM_Conv_SIMD, hr, Option.map_some', hv, e, hd]
    rfl
  refine ⟨hret, hsum, ?_⟩
  rw [hret, hsum]
  decide

/-! ## The reads of the kernel -/

theorem mem_loadReads (op : Operand) (p : Int) (rd : Read) :
    rd ∈ loadReads op p ↔ rd.op = op ∧ p ≤ rd.addr ∧ rd.addr < p + 16 := by
  obtain ⟨o, x⟩ := rd
  simp only [loadReads, List.mem_map, List.mem_range, Read.mk.injEq]
  constructor
  · rintro ⟨k, hk, rfl, rfl⟩
    exact ⟨rfl, by omega, by omega⟩
  · rintro ⟨rfl, h1, h2⟩
    exact ⟨(x - p).toNat, by omega, rfl, by omega⟩

theorem nodup_loadReads (op : Operand) (p : Int) : (loadReads op p).Nodup := by
  have hinj : Function.Injective (fun (i : Nat) => ({ op := op, addr := p + (i : Int) } : Read)) := by
    intro i j h
    simp only [Read.mk.injEq, true_and] at h
    omega
  exact (List.nodup_range 16).map hinj

theorem count_loadReads (op : Operand) (p : Int) (rd : Read) :
    (loadReads op p).count rd
      = if rd.op = op ∧ p ≤ rd.addr ∧ rd.addr < p + 16 then 1 else 0 := by
  by_cases h : rd ∈ loadReads op p
  · rw [List.count_eq_one_of_mem (nodup_loadReads op p) h, if_pos ((mem_loadReads op p rd).1 h)]
  · rw [List.count_eq_zero_of_not_mem h, if_neg (fun g => h ((mem_loadReads op p rd).2 g))]

theorem count_vectorReads (pk pc : Int) (rd : Read) :
    ∀ (n : Nat) (Y : Int), (vectorReads pk pc n Y).count rd
      = (if rd.op = Operand.kernel ∧ pk + Y ≤ rd.addr ∧ rd.addr < pk + Y + 16 * (n : Int)
          then 1 else 0)
        + (if rd.op = Operand.conv ∧ pc + Y ≤ rd.addr ∧ rd.addr < pc + Y + 16 * (n : Int)
          then 1 else 0) := by
  intro n
  induction n with
  | zero =>
    intro Y
    simp only [vectorReads, List.count_nil, Nat.cast_zero, mul_zero, add_zero]
    rw [if_neg (by omega), if_neg (by omega)]
  | succ n ih =>
    intro Y
    simp only [vectorReads, List.count_append, count_loadReads, ih]
    push_cast
    cases hop : rd.op <;> simp <;> split_ifs <;> omega

theorem count_scalarReads (pk pc : Int) (rd : Read) :
    ∀ (n : Nat) (Y : Int), (scalarReads pk pc n Y).count rd
      = (if rd.op = Operand.kernel ∧ pk + Y ≤ rd.addr ∧ rd.addr < pk + Y + (n : Int)
          then 1 else 0)
        + (if rd.op = Operand.conv ∧ pc + Y ≤ rd.addr ∧ rd.addr < pc + Y + (n : Int)
          then 1 else 0) := by
  intro n
  induction n with
  | zero =>
    intro Y
    simp only [scalarReads, List.count_nil, Nat.cast_zero, add_zero]
    rw [if_neg (by omega), if_neg (by omega)]
  | succ n ih =>
    intro Y
    obtain ⟨o, x⟩ := rd
    simp only [scalarReads, List.count_cons, ih, beq_iff_eq, Read.mk.injEq]
    push_cast
    cases o <;> simp <;> split_ifs <;> omega

theorem loadu_some_bounds (m : List Byte) (p : Int) (A : M128i)
    (h : _mm_loadu_si128 m p = some A) : 0 ≤ p ∧ p + 16 ≤ (m.length : Int) := by
  unfold _mm_loadu_si128 at h
  by_cases hc : 0 ≤ p ∧ p + 16 ≤ (m.length : Int)
  · exact hc
  · rw [if_neg hc] at h
    cases h

theorem vecBody_reads (K : List Byte) (pk : Int) (C : List Byte) (pc : Int) (Y : Int)
    (st st1 : VecState) (h : vecBody K pk C pc Y st = some st1) :
    st1.reads = st.reads ++ loadReads Operand.kernel (pk + Y) ++ loadReads Operand.conv (pc + Y)
      ∧ (0 ≤ pk + Y ∧ pk + Y + 16 ≤ (K.length : Int))
      ∧ (0 ≤ pc + Y ∧ pc + Y + 16 ≤ (C.length : Int)) := by
  unfold vecBody at h
  cases hA : _mm_loadu_si128 K (pk + Y) with
  | none => rw [hA] at h; cases h
  | some A =>
    cases hB : _mm_loadu_si128 C (pc + Y) with
    | none => rw [hA, hB] at h; cases h
    | some B =>
      rw [hA, hB] at h
      simp only [Option.some.injEq] at h
      subst h
      exact ⟨rfl, loadu_some_bounds K _ A hA, loadu_some_bounds C _ B hB⟩

theorem vecLoop_reads (K : List Byte) (pk : Int) (C : List Byte) (pc : Int) (limit : Int) :
    ∀ (n fuel : Nat) (Y : Int) (st st1 : VecState), limit = Y + 16 * (n : Int) →
      vecLoop K pk C pc limit fuel Y st = some st1 →
      st1.reads = st.reads ++ vectorReads pk pc n Y := by
  intro n
  induction n with
  | zero =>
    intro fuel Y st st1 hl h
    rw [vecLoop_done K pk C pc limit fuel Y st (by omega)] at h
    cases h
    simp [vectorReads]
  | succ n ih =>
    intro fuel Y st st1 hl h
    have hY : Y < limit := by push_cast at hl; omega
    cases fuel with
    | zero => simp [vecLoop, hY] at h
    | succ f =>
      cases hb : vecBody K pk C pc Y st with
      | none => simp [vecLoop, hY, hb] at h
      | some st2 =>
        rw [vecLoop_step K pk C pc limit f Y st st2 hY hb] at h
        rw [ih f (Y + 16) st2 st1 (by push_cast at hl; omega) h, (vecBody_reads K pk C pc Y st st2 hb).1]
        simp [vectorReads, List.append_assoc]

theorem scalarBody_reads (K : List Byte) (pk : Int) (C : List Byte) (pc : Int) (Y : Int)
    (st st1 : KernelRun) (h : scalarBody K pk C pc Y st = some st1) :
    st1.reads = st.reads ++ [⟨Operand.kernel, pk + Y⟩, ⟨Operand.conv, pc + Y⟩]
      ∧ (0 ≤ pk + Y ∧ pk + Y < (K.length : Int))
      ∧ (0 ≤ pc + Y ∧ pc + Y < (C.length : Int)) := by
  have hb : ∀ (m : List Byte) (i : Int) (x : Byte), readByte m i = some x →
      0 ≤ i ∧ i < (m.length : Int) := by
    intro m i x hx
    unfold readByte at hx
    by_cases hi : i < 0
    · rw [if_pos hi] at hx; cases hx
    · rw [if_neg hi] at hx
      have := (List.getElem?_eq_some_iff.1 hx).1
      omega
  unfold scalarBody at h
  cases hA : readByte K (pk + Y) with
  | none => rw [hA] at h; cases h
  | some k =>
    cases hB : readByte C (pc + Y) with
    | none => rw [hA, hB] at h; cases h
    | some c =>
      rw [hA, hB] at h
      simp only [Option.some.injEq] at h
      subst h
      exact ⟨rfl, hb K _ k hA, hb C _ c hB⟩

theorem scalarLoop_reads (K : List Byte) (pk : Int) (C : List Byte) (pc : Int) (L : Int) :
    ∀ (n fuel : Nat) (Y : Int) (st st1 : KernelRun), L = Y + (n : Int) →
      scalarLoop K pk C pc L fuel Y st = some st1 →
      st1.reads = st.reads ++ scalarReads pk pc n Y := by
  intro n
  induction n with
  | zero =>
    intro fuel Y st st1 hl h
    rw [scalarLoop_done K pk C pc L fuel Y st (by omega)] at h
    cases h
    simp [scalarReads]
  | succ n ih =>
    intro fuel Y st st1 hl h
    have hY : Y < L := by push_cast at hl; omega
    cases fuel with
    | zero => simp [scalarLoop, hY] at h
    | succ f =>
      cases hb : scalarBody K pk C pc Y st with
      | none => simp [scalarLoop, hY, hb] at h
      | some st2 =>
        rw [scalarLoop_step K pk C pc L f Y st st2 hY hb] at h
        rw [ih f (Y + 1) st2 st1 (by push_cast at hl; omega) h,
          (scalarBody_reads K pk C pc Y st st2 hb).1]
        simp [scalarReads]

/-- The reads of a kernel run with `0 ≤ L`: the loads of the `L / 16` vector iterations, then
the `L % 16` byte pairs of the scalar tail. -/
theorem kernel_reads (K : List Byte) (pk : Int) (C : List Byte) (pc : Int) (L : Int)
    (h0 : 0 ≤ L) (r : KernelRun) (h : Native_IM_Conv_SIMD_run K pk C pc L = some r) :
    r.reads = vectorReads pk pc (L / 16).toNat 0
      ++ scalarReads pk pc (L - L / 16 * 16).toNat (L / 16 * 16) := by
  have hb := tdiv_sixteen_of_nonneg h0
  unfold Native_IM_Conv_SIMD_run at h
  simp only [hb] at h
  cases hv : vecLoop K pk C pc (L / 16 * 16) (L / 16 * 16).toNat 0
      { SumV := _mm_setzero_si128, wrapped := false, reads := [] } with
  | none => rw [hv] at h; cases h
  | some v =>
    rw [hv] at h
    simp only at h
    have e1 := vecLoop_reads K pk C pc (L / 16 * 16) (L / 16).toNat _ 0 _ v (by omega) hv
    have e2 := scalarLoop_reads K pk C pc L (L - L / 16 * 16).toNat _ (L / 16 * 16) _ r
      (by omega) h
    rw [e2]
    simp only [e1, List.nil_append]

theorem short_length_limit (L : Int) (hL : L < 16) : ¬ (0 : Int) < Int.tdiv L 16 * 16 := by
  rcases le_or_lt 0 L with h | h
  · rw [tdiv_sixteen_of_nonneg h]; omega
  · rw [tdiv_sixteen_of_nonpos (le_of_lt h)]; omega

/-- C11: for `L < 16` the vector loop runs no iteration (its condition fails at `Y = 0`, so it
hands back the state it was entered with), and on buffers holding at least `L` bytes the kernel
returns the plain scalar multiply-accumulate over all indices of `[0, L)`, reading exactly the
byte pairs of the scalar loop; for `L ≤ 0`, negative lengths included, it returns 0 and reads no
byte of either buffer, whatever the buffers are. -/
theorem kernel_short_length (a b : List Byte) (L : Int) (hL : L < 16) :
    (¬ (0 : Int) < Int.tdiv L 16 * 16
        ∧ ∀ (fuel : Nat) (st : VecState),
            vecLoop a 0 b 0 (Int.tdiv L 16 * 16) fuel 0 st = some st)
      ∧ (L ≤ (a.length : Int) → L ≤ (b.length : Int) →
          ∃ r, Native_IM_Conv_SIMD_run a 0 b 0 L = some r
            ∧ r.ret = scalarDot a 0 b 0 L.toNat
            ∧ r.reads = scalarReads 0 0 L.toNat 0)
      ∧ (L ≤ 0 →
          L ≤ Int.tdiv L 16 * 16
            ∧ Native_IM_Conv_SIMD_run a 0 b 0 L
              = some { ret := 0, wrapped := false, reads := [] }) := by
  have hlim := short_length_limit L hL
  refine ⟨⟨hlim, fun fuel st => vecLoop_done a 0 b 0 _ fuel 0 st hlim⟩, ?_,
    fun h => ⟨by rw [tdiv_sixteen_of_nonpos h]; omega, kernel_run_nonpos a 0 b 0 L h⟩⟩
  intro ha hb
  obtain ⟨r, hr, hv, _⟩ := kernel_run_spec a 0 b 0 L (fun _ => ⟨le_refl _, by omega⟩)
    (fun _ => ⟨le_refl _, by omega⟩)
  refine ⟨r, hr, by rw [hv, scalarDot_eq_wrap], ?_⟩
  rcases le_or_lt 0 L with h | h
  · rw [kernel_reads a 0 b 0 L h r hr]
    have e1 : L / 16 = 0 := by omega
    rw [e1]
    simp [vectorReads]
  · rw [kernel_run_nonpos a 0 b 0 L (le_of_lt h)] at hr
    cases hr
    have e : L.toNat = 0 := by omega
    rw [e]
    rfl

/-- C11 on two buffers of 15 bytes with `L = 15`, and on `L = -20`. -/
theorem kernel_short_length_witness :
    (∃ r, Native_IM_Conv_SIMD_run (List.replicate 15 3) 0 (List.replicate 15 5) 0 15 = some r
        ∧ r.ret = scalarDot (List.replicate 15 3) 0 (List.replicate 15 5) 0 (15 : Int).toNat
        ∧ r.reads = scalarReads 0 0 (15 : Int).toNat 0)
      ∧ Native_IM_Conv_SIMD_run (List.replicate 15 3) 0 (List.replicate 15 5) 0 (-20)
        = some { ret := 0, wrapped := false, reads := [] } :=
  ⟨(kernel_short_length (List.replicate 15 3) (List.replicate 15 5) 15 (by decide)).2.1
      (by decide) (by decide),
    ((kernel_short_length (List.replicate 15 3) (List.replicate 15 5) (-20) (by decide)).2.2
      (by decide)).2⟩

/-- C12: for `L ≥ 0` and buffers holding at least `L` bytes the kernel returns (no read leaves
a buffer), its reads are those of `L / 16` vector iterations followed by those of the scalar
tail, every index read lies in `[0, L)`, the vector loads stay below `L / 16 * 16 ≤ L`, the
scalar tail reads only indices of `[L / 16 * 16, L)`, and every index of `[0, L)` is read
exactly once through each pointer. -/
theorem kernel_reads_each_index_once (a b : List Byte) (L : Int) (h0 : 0 ≤ L)
    (ha : L ≤ (a.length : Int)) (hb : L ≤ (b.length : Int)) :
    ∃ r, Native_IM_Conv_SIMD_run a 0 b 0 L = some r
      ∧ r.reads = vectorReads 0 0 (L / 16).toNat 0
          ++ scalarReads 0 0 (L - L / 16 * 16).toNat (L / 16 * 16)
      ∧ (∀ rd ∈ r.reads, 0 ≤ rd.addr ∧ rd.addr < L)
      ∧ ((∀ rd ∈ vectorReads 0 0 (L / 16).toNat 0, 0 ≤ rd.addr ∧ rd.addr < L / 16 * 16)
          ∧ L / 16 * 16 ≤ L)
      ∧ (∀ rd ∈ scalarReads 0 0 (L - L / 16 * 16).toNat (L / 16 * 16),
          L / 16 * 16 ≤ rd.addr ∧ rd.addr < L)
      ∧ (∀ i : Int, 0 ≤ i → i < L →
          r.reads.count ⟨Operand.kernel, i⟩ = 1 ∧ r.reads.count ⟨Operand.conv, i⟩ = 1) := by
  obtain ⟨r, hr, _, _⟩ := kernel_run_spec a 0 b 0 L (fun _ => ⟨le_refl _, by omega⟩)
    (fun _ => ⟨le_refl _, by omega⟩)
  have hreads := kernel_reads a 0 b 0 L h0 r hr
  have hvec : ∀ rd ∈ vectorReads 0 0 (L / 16).toNat 0, 0 ≤ rd.addr ∧ rd.addr < L / 16 * 16 := by
    intro rd hrd
    have hc := List.count_pos_iff.2 hrd
    rw [count_vectorReads] at hc
    split_ifs at hc <;> omega
  have hsc : ∀ rd ∈ scalarReads 0 0 (L - L / 16 * 16).toNat (L / 16 * 16),
      L / 16 * 16 ≤ rd.addr ∧ rd.addr < L := by
    intro rd hrd
    have hc := List.count_pos_iff.2 hrd
    rw [count_scalarReads] at hc
    split_ifs at hc <;> omega
  refine ⟨r, hr, hreads, ?_, ⟨hvec, by omega⟩, hsc, ?_⟩
  · intro rd hrd
    rw [hreads] at hrd
    rcases List.mem_append.1 hrd with h | h
    · have := hvec rd h
      omega
    · have := hsc rd h
      omega
  · intro i hi0 hi1
    rw [hreads]
    simp only [List.count_append, count_vectorReads, count_scalarReads]
    constructor <;> simp <;> split_ifs <;> omega

/-- C12 on two buffers of 40 bytes with `L = 37`. -/
theorem kernel_reads_each_index_once_witness :
    ∃ r, Native_IM_Conv_SIMD_run (List.replicate 40 3) 0 (List.replicate 40 5) 0 37 = some r
      ∧ r.reads = vectorReads 0 0 ((37 : Int) / 16).toNat 0
          ++ scalarReads 0 0 ((37 : Int) - 37 / 16 * 16).toNat (37 / 16 * 16)
      ∧ (∀ rd ∈ r.reads, 0 ≤ rd.addr ∧ rd.addr < 37)
      ∧ ((∀ rd ∈ vectorReads 0 0 ((37 : Int) / 16).toNat 0,
            0 ≤ rd.addr ∧ rd.addr < (37 : Int) / 16 * 16)
          ∧ (37 : Int) / 16 * 16 ≤ 37)
      ∧ (∀ rd ∈ scalarReads 0 0 ((37 : Int) - 37 / 16 * 16).toNat (37 / 16 * 16),
          (37 : Int) / 16 * 16 ≤ rd.addr ∧ rd.addr < 37)
      ∧ (∀ i : Int, 0 ≤ i → i < 37 →
          r.reads.count ⟨Operand.kernel, i⟩ = 1 ∧ r.reads.count ⟨Operand.conv, i⟩ = 1) :=
  kernel_reads_each_index_once (List.replicate 40 3) (List.replicate 40 5) 37 (by decide)
    (by decide) (by decide)

/-! ## Locality of the kernel and of a result cell -/

theorem readByte_isSome_iff (m : List Byte) (i : Int) :
    (readByte m i).isSome = true ↔ 0 ≤ i ∧ i < (m.length : Int) := by
  unfold readByte
  by_cases hi : i < 0
  · rw [if_pos hi]
    simp
    omega
  · rw [if_neg hi]
    by_cases hl : i.toNat < m.length
    · rw [List.getElem?_eq_getElem hl]
      simp
      omega
    · rw [List.getElem?_eq_none (by omega)]
      simp
      omega

theorem byteVal_congr (m1 m2 : List Byte) (i : Int) (h : readByte m1 i = readByte m2 i) :
    byteVal m1 i = byteVal m2 i := by
  unfold byteVal
  rw [h]

/-- A load sees only the sixteen bytes it covers. -/
theorem loadu_congr (m1 m2 : List Byte) (p : Int)
    (h : ∀ i : Int, 0 ≤ i → i < 16 → readByte m1 (p + i) = readByte m2 (p + i)) :
    _mm_loadu_si128 m1 p = _mm_loadu_si128 m2 p := by
  have hcond : (0 ≤ p ∧ p + 16 ≤ (m1.length : Int)) ↔ (0 ≤ p ∧ p + 16 ≤ (m2.length : Int)) := by
    have a0 := h 0 (by omega) (by omega)
    have a15 := h 15 (by omega) (by omega)
    have b0 := readByte_isSome_iff m1 (p + 0)
    have b15 := readByte_isSome_iff m1 (p + 15)
    have c0 := readByte_isSome_iff m2 (p + 0)
    have c15 := readByte_isSome_iff m2 (p + 15)
    rw [a0] at b0
    rw [a15] at b15
    constructor
    · intro g
      have g0 := c0.1 (b0.2 (by omega))
      have g15 := c15.1 (b15.2 (by omega))
      omega
    · intro g
      have g0 := b0.1 (c0.2 (by omega))
      have g15 := b15.1 (c15.2 (by omega))
      omega
  unfold _mm_loadu_si128
  by_cases hc : 0 ≤ p ∧ p + 16 ≤ (m1.length : Int)
  · rw [if_pos hc, if_pos (hcond.1 hc)]
    congr 2
    funext i
    have e := byteVal_congr m1 m2 (p + (i.val : Int)) (h _ (by omega) (by omega))
    rw [byteVal_eq_getD m1 (by omega), byteVal_eq_getD m2 (by omega)] at e
    have e2 : (p + (i.val : Int)).toNat = p.toNat + i.val := by omega
    rw [e2] at e
    exact_mod_cast e
  · rw [if_neg hc, if_neg (fun g => hc (hcond.2 g))]

theorem vecLoop_congr (K1 K2 : List Byte) (pk : Int) (C1 C2 : List Byte) (pc : Int)
    (limit L : Int) (hlim : limit ≤ L)
    (hK : ∀ i : Int, 0 ≤ i → i < L → readByte K1 (pk + i) = readByte K2 (pk + i))
    (hC : ∀ i : Int, 0 ≤ i → i < L → readByte C1 (pc + i) = readByte C2 (pc + i)) :
    ∀ (fuel : Nat) (Y : Int) (st : VecState), 0 ≤ Y → (limit - Y) % 16 = 0 →
      vecLoop K1 pk C1 pc limit fuel Y st = vecLoop K2 pk C2 pc limit fuel Y st := by
  intro fuel
  induction fuel with
  | zero => intro Y st _ _; simp [vecLoop]
  | succ f ih =>
    intro Y st hY hmod
    by_cases hlt : Y < limit
    · have eA : _mm_loadu_si128 K1 (pk + Y) = _mm_loadu_si128 K2 (pk + Y) :=
        loadu_congr K1 K2 (pk + Y) (fun i h0 h1 => by
          have := hK (Y + i) (by omega) (by omega)
          rw [← add_assoc] at this
          exact this)
      have eB : _mm_loadu_si128 C1 (pc + Y) = _mm_loadu_si128 C2 (pc + Y) :=
        loadu_congr C1 C2 (pc + Y) (fun i h0 h1 => by
          have := hC (Y + i) (by omega) (by omega)
          rw [← add_assoc] at this
          exact this)
      have eb : vecBody K1 pk C1 pc Y st = vecBody K2 pk C2 pc Y st := by
        unfold vecBody
        rw [eA, eB]
      simp only [vecLoop, hlt, if_true, eb]
      cases vecBody K2 pk C2 pc Y st with
      | none => rfl
      | some st1 => exact ih (Y + 16) st1 (by omega) (by omega)
    · simp [vecLoop, hlt]

theorem scalarLoop_congr (K1 K2 : List Byte) (pk : Int) (C1 C2 : List Byte) (pc : Int)
    (L : Int)
    (hK : ∀ i : Int, 0 ≤ i → i < L → readByte K1 (pk + i) = readByte K2 (pk + i))
    (hC : ∀ i : Int, 0 ≤ i → i < L → readByte C1 (pc + i) = readByte C2 (pc + i)) :
    ∀ (fuel : Nat) (Y : Int) (st : KernelRun), 0 ≤ Y →
      scalarLoop K1 pk C1 pc L fuel Y st = scalarLoop K2 pk C2 pc L fuel Y st := by
  intro fuel
  induction fuel with
  | zero => intro Y st _; simp [scalarLoop]
  | succ f ih =>
    intro Y st hY
    by_cases hlt : Y < L
    · have eb : scalarBody K1 pk C1 pc Y st = scalarBody K2 pk C2 pc Y st := by
        unfold scalarBody
        rw [hK Y hY hlt, hC Y hY hlt]
      simp only [scalarLoop, hlt, if_true, eb]
      cases scalarBody K2 pk C2 pc Y st with
      | none => rfl
      | some st1 => exact ih (Y + 1) st1 (by omega)
    · simp [scalarLoop, hlt]

/-- A kernel run depends only on the `L` bytes behind each pointer. -/
theorem kernel_run_congr (K1 K2 : List Byte) (pk : Int) (C1 C2 : List Byte) (pc : Int)
    (L : Int)
    (hK : ∀ i : Int, 0 ≤ i → i < L → readByte K1 (pk + i) = readByte K2 (pk + i))
    (hC : ∀ i : Int, 0 ≤ i → i < L → readByte C1 (pc + i) = readByte C2 (pc + i)) :
    Native_IM_Conv_SIMD_run K1 pk C1 pc L = Native_IM_Conv_SIMD_run K2 pk C2 pc L := by
  rcases le_or_lt L 0 with h | h
  · rw [kernel_run_nonpos K1 pk C1 pc L h, kernel_run_nonpos K2 pk C2 pc L h]
  · have hb := tdiv_sixteen_of_nonneg (le_of_lt h)
    unfold Native_IM_Conv_SIMD_run
    simp only [hb]
    rw [vecLoop_congr K1 K2 pk C1 C2 pc (L / 16 * 16) L (by omega) hK hC _ 0 _ (le_refl _)
      (by omega)]
    cases vecLoop K2 pk C2 pc (L / 16 * 16) (L / 16 * 16).toNat 0
        { SumV := _mm_setzero_si128, wrapped := false, reads := [] } with
    | none => rfl
    | some v =>
      simp only
      exact scalarLoop_congr K1 K2 pk C1 C2 pc L hK hC _ _ _ (by omega)

theorem tplLoop_sum_indep (pSrc : List Byte) (Ss : Int) (pTpl : List Byte) (Wt Ht St : Int) :
    ∀ (fuel : Nat) (t_r rs rt : Int) (st st2 : CellRun), st.sum = st2.sum →
      (tplLoop pSrc Ss pTpl Wt Ht St fuel t_r rs rt st).map CellRun.sum
        = (tplLoop pSrc Ss pTpl Wt Ht St fuel t_r rs rt st2).map CellRun.sum := by
  intro fuel
  induction fuel with
  | zero =>
    intro t_r rs rt st st2 h
    by_cases ht : t_r < Ht <;> simp [tplLoop, ht, h]
  | succ f ih =>
    intro t_r rs rt st st2 h
    by_cases ht : t_r < Ht
    · simp only [tplLoop, ht, if_true]
      cases Native_IM_Conv_SIMD_run pTpl rt pSrc rs Wt with
      | none => rfl
      | some k => exact ih _ _ _ _ _ (by simp only [h])
    · simp [tplLoop, ht, h]

/-- The loop over the template rows depends only on the bytes of the rows it visits. -/
theorem tplLoop_congr (src1 src2 : List Byte) (Ss : Int) (tpl1 tpl2 : List Byte)
    (Wt Ht St : Int) :
    ∀ (fuel : Nat) (t_r rs rt : Int) (st : CellRun),
      (∀ (j : Nat) (i : Int), t_r + (j : Int) < Ht → 0 ≤ i → i < Wt →
        readByte tpl1 (rt + (j : Int) * St + i) = readByte tpl2 (rt + (j : Int) * St + i)
          ∧ readByte src1 (rs + (j : Int) * Ss + i) = readByte src2 (rs + (j : Int) * Ss + i)) →
      tplLoop src1 Ss tpl1 Wt Ht St fuel t_r rs rt st
        = tplLoop src2 Ss tpl2 Wt Ht St fuel t_r rs rt st := by
  intro fuel
  induction fuel with
  | zero => intro t_r rs rt st _; simp [tplLoop]
  | succ f ih =>
    intro t_r rs rt st h
    by_cases ht : t_r < Ht
    · have ek : Native_IM_Conv_SIMD_run tpl1 rt src1 rs Wt
          = Native_IM_Conv_SIMD_run tpl2 rt src2 rs Wt :=
        kernel_run_congr tpl1 tpl2 rt src1 src2 rs Wt
          (fun i h0 h1 => by
            have := (h 0 i (by simpa using ht) h0 h1).1
            simpa using this)
          (fun i h0 h1 => by
            have := (h 0 i (by simpa using ht) h0 h1).2
            simpa using this)
      simp only [tplLoop, ht, if_true, ek]
      cases Native_IM_Conv_SIMD_run tpl2 rt src2 rs Wt with
      | none => rfl
      | some k =>
        apply ih
        intro j i hj h0 h1
        have := h (j + 1) i (by push_cast; omega) h0 h1
        have e1 : rt + St + (j : Int) * St = rt + ((j + 1 : Nat) : Int) * St := by
          push_cast; ring
        have e2 : rs + Ss + (j : Int) * Ss = rs + ((j + 1 : Nat) : Int) * Ss := by
          push_cast; ring
        rw [e1, e2]
        exact this
    · simp [tplLoop, ht]

/-- The value computed for a cell depends only on the template bytes and on the source bytes of
the window of the cell. -/
theorem cellSum_congr (src1 src2 : List Byte) (Ss : Int) (tpl1 tpl2 : List Byte)
    (pt Wt Ht St rsrc : Int)
    (h : ∀ tr tc : Int, 0 ≤ tr → tr < Ht → 0 ≤ tc → tc < Wt →
      readByte tpl1 (pt + tr * St + tc) = readByte tpl2 (pt + tr * St + tc)
        ∧ readByte src1 (rsrc + tr * Ss + tc) = readByte src2 (rsrc + tr * Ss + tc)) :
    cellSum src1 Ss tpl1 pt Wt Ht St rsrc = cellSum src2 Ss tpl2 pt Wt Ht St rsrc := by
  unfold cellSum
  rw [tplLoop_congr src1 src2 Ss tpl1 tpl2 Wt Ht St Ht.toNat 0 rsrc pt _
    (fun j i hj h0 h1 => h (j : Int) i (by omega) (by omega) h0 h1)]

/-- What a successful cell body did: it stored the value of the cell at an offset inside the
result buffer. -/
theorem cellBody_inv (pSrc : List Byte) (Ss : Int) (pTpl : List Byte) (pt Wt Ht St : Int)
    (rm rsrc : Int) (st st1 : MatchRun)
    (h : cellBody pSrc Ss pTpl pt Wt Ht St rm rsrc st = some st1) :
    ∃ v, cellSum pSrc Ss pTpl pt Wt Ht St rsrc = some v
      ∧ 0 ≤ rm ∧ rm < (st.result.length : Int)
      ∧ st1.result = st.result.set rm.toNat v := by
  unfold cellBody at h
  simp only at h
  cases hc : tplLoop pSrc Ss pTpl Wt Ht St Ht.toNat 0 rsrc pt
      { sum := { val := 0 }, calls := st.calls, reads := st.reads } with
  | none => rw [hc] at h; cases h
  | some cell =>
    rw [hc] at h
    simp only at h
    have hs : cellSum pSrc Ss pTpl pt Wt Ht St rsrc = some cell.sum := by
      unfold cellSum
      rw [tplLoop_sum_indep pSrc Ss pTpl Wt Ht St Ht.toNat 0 rsrc pt
        { sum := { val := 0 }, calls := 0, reads := [] }
        { sum := { val := 0 }, calls := st.calls, reads := st.reads } rfl, hc]
      rfl
    unfold writeCell at h
    by_cases hb : 0 ≤ rm ∧ rm < (st.result.length : Int)
    · rw [if_pos hb] at h
      simp only [Option.some.injEq] at h
      subst h
      exact ⟨cell.sum, hs, hb.1, hb.2, rfl⟩
    · rw [if_neg hb] at h
      cases h

/-- What a successful loop over the columns did to the result buffer. -/
theorem colLoop_inv (pSrc : List Byte) (Ss : Int) (pTpl : List Byte) (pt Wt Ht St Wr : Int) :
    ∀ (fuel : Nat) (c rm rsrc : Int) (st out : MatchRun),
      colLoop pSrc Ss pTpl pt Wt Ht St Wr fuel c rm rsrc st = some out →
      out.result.length = st.result.length
        ∧ (∀ i, (∀ c1, c ≤ c1 → c1 < Wr → i ≠ rm + (c1 - c)) →
            readCell out.result i = readCell st.result i)
        ∧ (∀ c1, c ≤ c1 → c1 < Wr →
            (0 ≤ rm + (c1 - c) ∧ rm + (c1 - c) < (st.result.length : Int))
              ∧ ∃ v, cellSum pSrc Ss pTpl pt Wt Ht St (rsrc + (c1 - c)) = some v
                ∧ readCell out.result (rm + (c1 - c)) = some v) := by
  intro fuel
  induction fuel with
  | zero =>
    intro c rm rsrc st out h
    by_cases hc : c < Wr
    · simp [colLoop, hc] at h
    · simp only [colLoop, hc, if_false, Option.some.injEq] at h
      subst h
      exact ⟨rfl, fun _ _ => rfl, fun c1 h1 h2 => by omega⟩
  | succ f ih =>
    intro c rm rsrc st out h
    by_cases hc : c < Wr
    · cases hb : cellBody pSrc Ss pTpl pt Wt Ht St rm rsrc st with
      | none => simp [colLoop, hc, hb] at h
      | some st1 =>
        rw [colLoop_step pSrc Ss pTpl pt Wt Ht St Wr f c rm rsrc st st1 hc hb] at h
        obtain ⟨hlen, hframe, hwritten⟩ := ih (c + 1) (rm + 1) (rsrc + 1) st1 out h
        obtain ⟨v0, hv0, hb0, hb1, hres1⟩ := cellBody_inv pSrc Ss pTpl pt Wt Ht St rm rsrc st st1 hb
        have hlen1 : st1.result.length = st.result.length := by
          rw [hres1, List.length_set]
        have hget : ∀ j, readCell st1.result j
            = if j = rm then some v0 else readCell st.result j := by
          intro j
          rw [hres1]
          exact readCell_set st.result rm v0 hb0 hb1 j
        refine ⟨by rw [hlen, hlen1], ?_, ?_⟩
        · intro i hi
          rw [hframe i (fun c1 h1 h2 => by
            have := hi c1 (by omega) h2
            intro e
            apply this
            rw [e]
            ring), hget]
          have := hi c (le_refl _) hc
          rw [if_neg (by intro e; apply this; rw [e]; ring)]
        · intro c1 h1 h2
          rcases eq_or_lt_of_le h1 with e | hlt
          · subst e
            have e0 : rm + (c - c) = rm := by ring
            have e1 : rsrc + (c - c) = rsrc := by ring
            rw [e0, e1]
            refine ⟨⟨hb0, hb1⟩, v0, hv0, ?_⟩
            rw [hframe rm (fun c2 h3 _ => by omega), hget, if_pos rfl]
          · obtain ⟨hbnd, v, hv, hrd⟩ := hwritten c1 (by omega) h2
            have e0 : rm + 1 + (c1 - (c + 1)) = rm + (c1 - c) := by ring
            have e1 : rsrc + 1 + (c1 - (c + 1)) = rsrc + (c1 - c) := by ring
            rw [e0] at hbnd hrd
            rw [e1] at hv
            rw [hlen1] at hbnd
            exact ⟨hbnd, v, hv, hrd⟩
    · rw [colLoop_done pSrc Ss pTpl pt Wt Ht St Wr _ c rm rsrc st hc] at h
      simp only [Option.some.injEq] at h
      subst h
      exact ⟨rfl, fun _ _ => rfl, fun c1 h1 h2 => by omega⟩

/-- What a successful loop over the rows did to the result buffer: the cells outside the result
rectangle are as before, and every cell of the rectangle lies in the buffer and holds the value
computed for one of the positions stored at its offset. The offsets are the ones the code
computes. -/
theorem rowLoop_inv (pSrc : List Byte) (ps Ss : Int) (pTpl : List Byte)
    (pt Wt Ht St pr Wr Hr Sr : Int) :
    ∀ (fuel : Nat) (r : Int) (st out : MatchRun),
      rowLoop pSrc ps Ss pTpl pt Wt Ht St pr Wr Hr Sr fuel r st = some out →
      out.result.length = st.result.length
        ∧ (∀ i, (∀ r1 c1, r ≤ r1 → r1 < Hr → 0 ≤ c1 → c1 < Wr →
              i ≠ pr + wrap32 (r1 * Sr) + c1) →
            readCell out.result i = readCell st.result i)
        ∧ (∀ r1 c1, r ≤ r1 → r1 < Hr → 0 ≤ c1 → c1 < Wr →
            (0 ≤ pr + wrap32 (r1 * Sr) + c1
                ∧ pr + wrap32 (r1 * Sr) + c1 < (st.result.length : Int))
              ∧ (∃ v0, cellSum pSrc Ss pTpl pt Wt Ht St (ps + wrap32 (r1 * Ss) + c1) = some v0)
              ∧ ∃ r2 c2, r ≤ r2 ∧ r2 < Hr ∧ 0 ≤ c2 ∧ c2 < Wr
                ∧ pr + wrap32 (r1 * Sr) + c1 = pr + wrap32 (r2 * Sr) + c2
                ∧ ∃ v, cellSum pSrc Ss pTpl pt Wt Ht St (ps + wrap32 (r2 * Ss) + c2) = some v
                  ∧ readCell out.result (pr + wrap32 (r1 * Sr) + c1) = some v) := by
  intro fuel
  induction fuel with
  | zero =>
    intro r st out h
    by_cases hr : r < Hr
    · simp [rowLoop, hr] at h
    · simp only [rowLoop, hr, if_false, Option.some.injEq] at h
      subst h
      exact ⟨rfl, fun _ _ => rfl, fun r1 c1 h1 h2 => by omega⟩
  | succ f ih =>
    intro r st out h
    by_cases hr : r < Hr
    · cases hb : colLoop pSrc Ss pTpl pt Wt Ht St Wr Wr.toNat 0 (pr + wrap32 (r * Sr))
          (ps + wrap32 (r * Ss)) st with
      | none => simp [rowLoop, hr, hb] at h
      | some st1 =>
        rw [rowLoop_step pSrc ps Ss pTpl pt Wt Ht St pr Wr Hr Sr f r st st1 hr hb] at h
        obtain ⟨hlen, hframe, hwritten⟩ := ih (r + 1) st1 out h
        obtain ⟨hlen1, hframe1, hwritten1⟩ :=
          colLoop_inv pSrc Ss pTpl pt Wt Ht St Wr Wr.toNat 0 (pr + wrap32 (r * Sr))
            (ps + wrap32 (r * Ss)) st st1 hb
        simp only [sub_zero] at hframe1 hwritten1
        refine ⟨by rw [hlen, hlen1], ?_, ?_⟩
        · intro i hi
          rw [hframe i (fun r1 c1 h1 h2 h3 h4 => hi r1 c1 (by omega) h2 h3 h4),
            hframe1 i (fun c1 h1 h2 => hi r c1 (le_refl _) hr h1 h2)]
        · intro r1 c1 h1 h2 h3 h4
          have hbnd : (0 ≤ pr + wrap32 (r1 * Sr) + c1
                ∧ pr + wrap32 (r1 * Sr) + c1 < (st.result.length : Int))
              ∧ ∃ v0, cellSum pSrc Ss pTpl pt Wt Ht St (ps + wrap32 (r1 * Ss) + c1)
                  = some v0 := by
            rcases eq_or_lt_of_le h1 with e | hlt
            · subst e
              obtain ⟨q1, v, q2, _⟩ := hwritten1 c1 h3 h4
              exact ⟨q1, v, q2⟩
            · obtain ⟨q1, q2, _⟩ := hwritten r1 c1 (by omega) h2 h3 h4
              rw [hlen1] at q1
              exact ⟨q1, q2⟩
          refine ⟨hbnd.1, hbnd.2, ?_⟩
          by_cases hlater : ∃ r2 c2, r + 1 ≤ r2 ∧ r2 < Hr ∧ 0 ≤ c2 ∧ c2 < Wr
              ∧ pr + wrap32 (r1 * Sr) + c1 = pr + wrap32 (r2 * Sr) + c2
          · obtain ⟨r2, c2, g1, g2, g3, g4, g5⟩ := hlater
            obtain ⟨_, _, r3, c3, q1, q2, q3, q4, q5, v, q6, q7⟩ := hwritten r2 c2 g1 g2 g3 g4
            exact ⟨r3, c3, by omega, q2, q3, q4, by rw [g5, q5], v, q6, by rw [g5]; exact q7⟩
          · have hr1 : r1 = r := by
              by_contra hne
              exact hlater ⟨r1, c1, by omega, h2, h3, h4, rfl⟩
            subst hr1
            obtain ⟨_, v, hv, hrd⟩ := hwritten1 c1 h3 h4
            refine ⟨r1, c1, le_refl _, h2, h3, h4, rfl, v, hv, ?_⟩
            rw [hframe (pr + wrap32 (r1 * Sr) + c1) (fun r2 c2 g1 g2 g3 g4 g5 =>
              hlater ⟨r2, c2, g1, g2, g3, g4, g5⟩)]
            exact hrd
    · rw [rowLoop_done pSrc ps Ss pTpl pt Wt Ht St pr Wr Hr Sr _ r st hr] at h
      simp only [Option.some.injEq] at h
      subst h
      exact ⟨rfl, fun _ _ => rfl, fun r1 c1 h1 h2 => by omega⟩

/-! ### The instrumentation of the engine -/

theorem tplLoop_preserves (pSrc : List Byte) (Ss : Int) (pTpl : List Byte) (Wt Ht St : Int)
    (Q : Nat → List Read → Prop)
    (hQ : 0 < Ht → ∀ (rt rs : Int) (k : KernelRun) (calls : Nat) (reads : List Read),
      Native_IM_Conv_SIMD_run pTpl rt pSrc rs Wt = some k → Q calls reads →
      Q (calls + 1) (reads ++ k.reads)) :
    ∀ (fuel : Nat) (t_r rs rt : Int) (st st1 : CellRun), 0 ≤ t_r →
      tplLoop pSrc Ss pTpl Wt Ht St fuel t_r rs rt st = some st1 →
      Q st.calls st.reads → Q st1.calls st1.reads := by
  intro fuel
  induction fuel with
  | zero =>
    intro t_r rs rt st st1 _ h hq
    by_cases ht : t_r < Ht
    · simp [tplLoop, ht] at h
    · simp only [tplLoop, ht, if_false, Option.some.injEq] at h
      subst h
      exact hq
  | succ f ih =>
    intro t_r rs rt st st1 h0 h hq
    by_cases ht : t_r < Ht
    · cases hk : Native_IM_Conv_SIMD_run pTpl rt pSrc rs Wt with
      | none => simp [tplLoop, ht, hk] at h
      | some k =>
        rw [tplLoop_step pSrc Ss pTpl Wt Ht St f t_r rs rt st k ht hk] at h
        exact ih (t_r + 1) _ _ _ st1 (by omega) h (hQ (by omega) rt rs k _ _ hk hq)
    · rw [tplLoop_done pSrc Ss pTpl Wt Ht St _ t_r rs rt st ht] at h
      simp only [Option.some.injEq] at h
      subst h
      exact hq

theorem cellBody_preserves (pSrc : List Byte) (Ss : Int) (pTpl : List Byte) (pt Wt Ht St : Int)
    (Q : Nat → List Read → Prop)
    (hQ : 0 < Ht → ∀ (rt rs : Int) (k : KernelRun) (calls : Nat) (reads : List Read),
      Native_IM_Conv_SIMD_run pTpl rt pSrc rs Wt = some k → Q calls reads →
      Q (calls + 1) (reads ++ k.reads))
    (rm rsrc : Int) (st st1 : MatchRun)
    (h : cellBody pSrc Ss pTpl pt Wt Ht St rm rsrc st = some st1) (hq : Q st.calls st.reads) :
    Q st1.calls st1.reads := by
  unfold cellBody at h
  simp only at h
  cases hc : tplLoop pSrc Ss pTpl Wt Ht St Ht.toNat 0 rsrc pt
      { sum := { val := 0 }, calls := st.calls, reads := st.reads } with
  | none => rw [hc] at h; cases h
  | some cell =>
    rw [hc] at h
    simp only at h
    have hcell := tplLoop_preserves pSrc Ss pTpl Wt Ht St Q hQ _ 0 rsrc pt _ cell (le_refl _) hc hq
    cases hw : writeCell st.result rm cell.sum with
    | none => rw [hw] at h; cases h
    | some res =>
      rw [hw] at h
      simp only [Option.some.injEq] at h
      subst h
      exact hcell

theorem colLoop_preserves (pSrc : List Byte) (Ss : Int) (pTpl : List Byte) (pt Wt Ht St Wr : Int)
    (Q : Nat → List Read → Prop)
    (hQ : 0 < Ht → ∀ (rt rs : Int) (k : KernelRun) (calls : Nat) (reads : List Read),
      Native_IM_Conv_SIMD_run pTpl rt pSrc rs Wt = some k → Q calls reads →
      Q (calls + 1) (reads ++ k.reads)) :
    ∀ (fuel : Nat) (c rm rsrc : Int) (st out : MatchRun),
      colLoop pSrc Ss pTpl pt Wt Ht St Wr fuel c rm rsrc st = some out →
      Q st.calls st.reads → Q out.calls out.reads := by
  intro fuel
  induction fuel with
  | zero =>
    intro c rm rsrc st out h hq
    by_cases hc : c < Wr
    · simp [colLoop, hc] at h
    · simp only [colLoop, hc, if_false, Option.some.injEq] at h
      subst h
      exact hq
  | succ f ih =>
    intro c rm rsrc st out h hq
    by_cases hc : c < Wr
    · cases hb : cellBody pSrc Ss pTpl pt Wt Ht St rm rsrc st with
      | none => simp [colLoop, hc, hb] at h
      | some st1 =>
        rw [colLoop_step pSrc Ss pTpl pt Wt Ht St Wr f c rm rsrc st st1 hc hb] at h
        exact ih _ _ _ st1 out h (cellBody_preserves pSrc Ss pTpl pt Wt Ht St Q hQ rm rsrc st st1 hb hq)
    · rw [colLoop_done pSrc Ss pTpl pt Wt Ht St Wr _ c rm rsrc st hc] at h
      simp only [Option.some.injEq] at h
      subst h
      exact hq

theorem rowLoop_preserves (pSrc : List Byte) (ps Ss : Int) (pTpl : List Byte)
    (pt Wt Ht St pr Wr Hr Sr : Int) (Q : Nat → List Read → Prop)
    (hQ : 0 < Ht → ∀ (rt rs : Int) (k : KernelRun) (calls : Nat) (reads : List Read),
      Native_IM_Conv_SIMD_run pTpl rt pSrc rs Wt = some k → Q calls reads →
      Q (calls + 1) (reads ++ k.reads)) :
    ∀ (fuel : Nat) (r : Int) (st out : MatchRun),
      rowLoop pSrc ps Ss pTpl pt Wt Ht St pr Wr Hr Sr fuel r st = some out →
      Q st.calls st.reads → Q out.calls out.reads := by
  intro fuel
  induction fuel with
  | zero =>
    intro r st out h hq
    by_cases hr : r < Hr
    · simp [rowLoop, hr] at h
    · simp only [rowLoop, hr, if_false, Option.some.injEq] at h
      subst h
      exact hq
  | succ f ih =>
    intro r st out h hq
    by_cases hr : r < Hr
    · cases hb : colLoop pSrc Ss pTpl pt Wt Ht St Wr Wr.toNat 0 (pr + wrap32 (r * Sr))
          (ps + wrap32 (r * Ss)) st with
      | none => simp [rowLoop, hr, hb] at h
      | some st1 =>
        rw [rowLoop_step pSrc ps Ss pTpl pt Wt Ht St pr Wr Hr Sr f r st st1 hr hb] at h
        exact ih _ st1 out h (colLoop_preserves pSrc Ss pTpl pt Wt Ht St Wr Q hQ _ _ _ _ st st1 hb hq)
    · rw [rowLoop_done pSrc ps Ss pTpl pt Wt Ht St pr Wr Hr Sr _ r st hr] at h
      simp only [Option.some.injEq] at h
      subst h
      exact hq

/-! ### Every logged read lies in its buffer -/

theorem vecLoop_inBounds (K : List Byte) (pk : Int) (C : List Byte) (pc : Int) (limit : Int) :
    ∀ (fuel : Nat) (Y : Int) (st st1 : VecState),
      vecLoop K pk C pc limit fuel Y st = some st1 →
      (∀ rd ∈ st.reads, Read.inBounds K C rd) → ∀ rd ∈ st1.reads, Read.inBounds K C rd := by
  intro fuel
  induction fuel with
  | zero =>
    intro Y st st1 h hq
    by_cases hY : Y < limit
    · simp [vecLoop, hY] at h
    · simp only [vecLoop, hY, if_false, Option.some.injEq] at h
      subst h
      exact hq
  | succ f ih =>
    intro Y st st1 h hq
    by_cases hY : Y < limit
    · cases hb : vecBody K pk C pc Y st with
      | none => simp [vecLoop, hY, hb] at h
      | some st2 =>
        rw [vecLoop_step K pk C pc limit f Y st st2 hY hb] at h
        obtain ⟨e, hK, hC⟩ := vecBody_reads K pk C pc Y st st2 hb
        refine ih (Y + 16) st2 st1 h ?_
        intro rd hrd
        rw [e] at hrd
        rcases List.mem_append.1 hrd with hrd | hrd
        · rcases List.mem_append.1 hrd with hrd | hrd
          · exact hq rd hrd
          · obtain ⟨o, g1, g2⟩ := (mem_loadReads _ _ rd).1 hrd
            unfold Read.inBounds
            rw [if_pos o]
            omega
        · obtain ⟨o, g1, g2⟩ := (mem_loadReads _ _ rd).1 hrd
          unfold Read.inBounds
          rw [if_neg (by rw [o]; decide)]
          omega
    · rw [vecLoop_done K pk C pc limit _ Y st hY] at h
      simp only [Option.some.injEq] at h
      subst h
      exact hq

theorem scalarLoop_inBounds (K : List Byte) (pk : Int) (C : List Byte) (pc : Int) (L : Int) :
    ∀ (fuel : Nat) (Y : Int) (st st1 : KernelRun),
      scalarLoop K pk C pc L fuel Y st = some st1 →
      (∀ rd ∈ st.reads, Read.inBounds K C rd) → ∀ rd ∈ st1.reads, Read.inBounds K C rd := by
  intro fuel
  induction fuel with
  | zero =>
    intro Y st st1 h hq
    by_cases hY : Y < L
    · simp [scalarLoop, hY] at h
    · simp only [scalarLoop, hY, if_false, Option.some.injEq] at h
      subst h
      exact hq
  | succ f ih =>
    intro Y st st1 h hq
    by_cases hY : Y < L
    · cases hb : scalarBody K pk C pc Y st with
      | none => simp [scalarLoop, hY, hb] at h
      | some st2 =>
        rw [scalarLoop_step K pk C pc L f Y st st2 hY hb] at h
        obtain ⟨e, hK, hC⟩ := scalarBody_reads K pk C pc Y st st2 hb
        refine ih (Y + 1) st2 st1 h ?_
        intro rd hrd
        rw [e] at hrd
        rcases List.mem_append.1 hrd with hrd | hrd
        · exact hq rd hrd
        · simp only [List.mem_cons, List.mem_singleton, List.not_mem_nil, or_false] at hrd
          rcases hrd with rfl | rfl
          · unfold Read.inBounds
            simp only [if_true]
            omega
          · unfold Read.inBounds
            rw [if_neg (by simp)]
            simp only
            omega
    · rw [scalarLoop_done K pk C pc L _ Y st hY] at h
      simp only [Option.some.injEq] at h
      subst h
      exact hq

/-- Every read logged by a kernel run that returns lies inside the buffer it was made
through. -/
theorem kernel_trace_inBounds (K : List Byte) (pk : Int) (C : List Byte) (pc : Int) (L : Int)
    (r : KernelRun) (h : Native_IM_Conv_SIMD_run K pk C pc L = some r) :
    ∀ rd ∈ r.reads, Read.inBounds K C rd := by
  unfold Native_IM_Conv_SIMD_run at h
  simp only at h
  cases hv : vecLoop K pk C pc (Int.tdiv L 16 * 16) (Int.tdiv L 16 * 16).toNat 0
      { SumV := _mm_setzero_si128, wrapped := false, reads := [] } with
  | none => rw [hv] at h; cases h
  | some v =>
    rw [hv] at h
    simp only at h
    have h1 := vecLoop_inBounds K pk C pc _ _ 0 _ v hv (fun rd hrd => by cases hrd)
    exact scalarLoop_inBounds K pk C pc L _ _ _ r h h1

/-- Every read logged by an engine run that returns lies inside the template (reads through the
first kernel pointer) or the source (reads through the second). -/
theorem engine_trace_inBounds (pSrc : List Byte) (ps sw sh Ss : Int) (pTpl : List Byte)
    (pt Wt Ht St : Int) (pResult : List F32) (pr Wr Hr Sr : Int) (out : MatchRun)
    (h : MatchTemplate_SIMD pSrc ps sw sh Ss pTpl pt Wt Ht St pResult pr Wr Hr Sr = some out) :
    ∀ rd ∈ out.reads, Read.inBounds pTpl pSrc rd :=
  rowLoop_preserves pSrc ps Ss pTpl pt Wt Ht St pr Wr Hr Sr
    (fun _ reads => ∀ rd ∈ reads, Read.inBounds pTpl pSrc rd)
    (fun _ rt rs k _ reads hk hq rd hrd => by
      rcases List.mem_append.1 hrd with g | g
      · exact hq rd g
      · exact kernel_trace_inBounds pTpl rt pSrc rs Wt k hk rd g)
    _ 0 _ out h (fun rd hrd => by cases hrd)

/-- A run with an empty template reads no byte. -/
theorem engine_empty_template_reads (pSrc : List Byte) (ps sw sh Ss : Int) (pTpl : List Byte)
    (pt Wt Ht St : Int) (pResult : List F32) (pr Wr Hr Sr : Int) (out : MatchRun)
    (hempty : Ht ≤ 0 ∨ Wt ≤ 0)
    (h : MatchTemplate_SIMD pSrc ps sw sh Ss pTpl pt Wt Ht St pResult pr Wr Hr Sr = some out) :
    out.reads = [] :=
  rowLoop_preserves pSrc ps Ss pTpl pt Wt Ht St pr Wr Hr Sr (fun _ reads => reads = [])
    (fun hpos rt rs k _ reads hk hq => by
      have hw : Wt ≤ 0 := by
        rcases hempty with h | h
        · omega
        · exact h
      rw [kernel_run_nonpos pTpl rt pSrc rs Wt hw] at hk
      cases hk
      simp only [hq, List.append_nil])
    _ 0 _ out h rfl

/-! ### The engine returns when its accesses are in bounds -/

theorem tplLoop_total (pSrc : List Byte) (Ss : Int) (pTpl : List Byte) (Wt Ht St : Int) :
    ∀ (n fuel : Nat) (t_r rs rt : Int) (st : CellRun), n = (Ht - t_r).toNat → n ≤ fuel →
      (∀ k : Nat, k < n → 0 < Wt →
        (0 ≤ rt + (k : Int) * St ∧ rt + (k : Int) * St + Wt ≤ (pTpl.length : Int))
          ∧ (0 ≤ rs + (k : Int) * Ss ∧ rs + (k : Int) * Ss + Wt ≤ (pSrc.length : Int))) →
      ∃ st1, tplLoop pSrc Ss pTpl Wt Ht St fuel t_r rs rt st = some st1 := by
  intro n
  induction n with
  | zero =>
    intro fuel t_r rs rt st hn _ _
    exact ⟨st, tplLoop_done pSrc Ss pTpl Wt Ht St fuel t_r rs rt st (by omega)⟩
  | succ n ih =>
    intro fuel t_r rs rt st hn hf hin
    obtain ⟨f, rfl⟩ : ∃ f, fuel = f + 1 := ⟨fuel - 1, by omega⟩
    have h0 := hin 0 (by omega)
    simp only [Nat.cast_zero, zero_mul, add_zero] at h0
    obtain ⟨kr, hkr, _, _⟩ := kernel_run_spec pTpl rt pSrc rs Wt (fun h => (h0 h).1)
      (fun h => (h0 h).2)
    obtain ⟨st2, hrun⟩ := ih f (t_r + 1) (rs + Ss) (rt + St)
      { sum := F32.add st.sum (F32.ofInt32 kr.ret)
        calls := st.calls + 1
        reads := st.reads ++ kr.reads }
      (by omega) (by omega)
      (fun k hk hw => by
        have := hin (k + 1) (by omega) hw
        have e1 : rt + St + (k : Int) * St = rt + ((k + 1 : Nat) : Int) * St := by push_cast; ring
        have e2 : rs + Ss + (k : Int) * Ss = rs + ((k + 1 : Nat) : Int) * Ss := by push_cast; ring
        rw [e1, e2]
        exact this)
    exact ⟨st2, by rw [tplLoop_step pSrc Ss pTpl Wt Ht St f t_r rs rt st kr (by omega) hkr, hrun]⟩

theorem cellBody_total (pSrc : List Byte) (Ss : Int) (pTpl : List Byte) (pt Wt Ht St : Int)
    (rm rsrc : Int) (st : MatchRun)
    (hres : 0 ≤ rm ∧ rm < (st.result.length : Int))
    (hin : ∀ k : Nat, k < Ht.toNat → 0 < Wt →
        (0 ≤ pt + (k : Int) * St ∧ pt + (k : Int) * St + Wt ≤ (pTpl.length : Int))
          ∧ (0 ≤ rsrc + (k : Int) * Ss ∧ rsrc + (k : Int) * Ss + Wt ≤ (pSrc.length : Int))) :
    ∃ st1, cellBody pSrc Ss pTpl pt Wt Ht St rm rsrc st = some st1 := by
  obtain ⟨c, hc⟩ := tplLoop_total pSrc Ss pTpl Wt Ht St Ht.toNat Ht.toNat 0 rsrc pt
    { sum := { val := 0 }, calls := st.calls, reads := st.reads } (by simp) (le_refl _)
    (fun k hk hw => hin k hk hw)
  exact ⟨_, by simp only [cellBody, hc, writeCell_spec st.result rm _ hres.1 hres.2]; rfl⟩

theorem colLoop_total (pSrc : List Byte) (Ss : Int) (pTpl : List Byte) (pt Wt Ht St Wr : Int)
    (R S : Int) :
    ∀ (n fuel : Nat) (c : Int) (st : MatchRun), n = (Wr - c).toNat → n ≤ fuel →
      (∀ c1, c ≤ c1 → c1 < Wr → 0 ≤ R + c1 ∧ R + c1 < (st.result.length : Int)) →
      (∀ c1, c ≤ c1 → c1 < Wr → ∀ k : Nat, k < Ht.toNat → 0 < Wt →
        (0 ≤ pt + (k : Int) * St ∧ pt + (k : Int) * St + Wt ≤ (pTpl.length : Int))
          ∧ (0 ≤ S + c1 + (k : Int) * Ss ∧ S + c1 + (k : Int) * Ss + Wt ≤ (pSrc.length : Int))) →
      ∃ out, colLoop pSrc Ss pTpl pt Wt Ht St Wr fuel c (R + c) (S + c) st = some out := by
  intro n
  induction n with
  | zero =>
    intro fuel c st hn _ _ _
    exact ⟨st, colLoop_done pSrc Ss pTpl pt Wt Ht St Wr fuel c _ _ st (by omega)⟩
  | succ n ih =>
    intro fuel c st hn hf hres hin
    obtain ⟨f, rfl⟩ : ∃ f, fuel = f + 1 := ⟨fuel - 1, by omega⟩
    have hc : c < Wr := by omega
    obtain ⟨st1, hb⟩ := cellBody_total pSrc Ss pTpl pt Wt Ht St (R + c) (S + c) st
      (hres c (le_refl _) hc) (hin c (le_refl _) hc)
    obtain ⟨_, _, _, _, hres1⟩ := cellBody_inv pSrc Ss pTpl pt Wt Ht St (R + c) (S + c) st st1 hb
    have hlen1 : st1.result.length = st.result.length := by rw [hres1, List.length_set]
    obtain ⟨out, hrun⟩ := ih f (c + 1) st1 (by omega) (by omega)
      (fun c1 h1 h2 => by rw [hlen1]; exact hres c1 (by omega) h2)
      (fun c1 h1 h2 => hin c1 (by omega) h2)
    refine ⟨out, ?_⟩
    rw [colLoop_step pSrc Ss pTpl pt Wt Ht St Wr f c _ _ st st1 hc hb]
    have e1 : R + c + 1 = R + (c + 1) := by ring
    have e2 : S + c + 1 = S + (c + 1) := by ring
    rw [e1, e2, hrun]

theorem rowLoop_total (pSrc : List Byte) (ps Ss : Int) (pTpl : List Byte)
    (pt Wt Ht St pr Wr Hr Sr : Int) :
    ∀ (n fuel : Nat) (r : Int) (st : MatchRun), n = (Hr - r).toNat → n ≤ fuel →
      (∀ r1 c1, r ≤ r1 → r1 < Hr → 0 ≤ c1 → c1 < Wr →
        0 ≤ pr + wrap32 (r1 * Sr) + c1
          ∧ pr + wrap32 (r1 * Sr) + c1 < (st.result.length : Int)) →
      (∀ r1 c1, r ≤ r1 → r1 < Hr → 0 ≤ c1 → c1 < Wr → ∀ k : Nat, k < Ht.toNat → 0 < Wt →
        (0 ≤ pt + (k : Int) * St ∧ pt + (k : Int) * St + Wt ≤ (pTpl.length : Int))
          ∧ (0 ≤ ps + wrap32 (r1 * Ss) + c1 + (k : Int) * Ss
            ∧ ps + wrap32 (r1 * Ss) + c1 + (k : Int) * Ss + Wt ≤ (pSrc.length : Int))) →
      ∃ out, rowLoop pSrc ps Ss pTpl pt Wt Ht St pr Wr Hr Sr fuel r st = some out := by
  intro n
  induction n with
  | zero =>
    intro fuel r st hn _ _ _
    exact ⟨st, rowLoop_done pSrc ps Ss pTpl pt Wt Ht St pr Wr Hr Sr fuel r st (by omega)⟩
  | succ n ih =>
    intro fuel r st hn hf hres hin
    obtain ⟨f, rfl⟩ : ∃ f, fuel = f + 1 := ⟨fuel - 1, by omega⟩
    have hr : r < Hr := by omega
    obtain ⟨st1, hb⟩ := colLoop_total pSrc Ss pTpl pt Wt Ht St Wr (pr + wrap32 (r * Sr))
      (ps + wrap32 (r * Ss)) Wr.toNat Wr.toNat 0 st (by omega) (le_refl _)
      (fun c1 h1 h2 => hres r c1 (le_refl _) hr h1 h2)
      (fun c1 h1 h2 => hin r c1 (le_refl _) hr h1 h2)
    simp only [add_zero] at hb
    obtain ⟨hlen1, _, _⟩ := colLoop_inv pSrc Ss pTpl pt Wt Ht St Wr _ _ _ _ st st1 hb
    obtain ⟨out, hrun⟩ := ih f (r + 1) st1 (by omega) (by omega)
      (fun r1 c1 h1 h2 h3 h4 => by rw [hlen1]; exact hres r1 c1 (by omega) h2 h3 h4)
      (fun r1 c1 h1 h2 h3 h4 => hin r1 c1 (by omega) h2 h3 h4)
    exact ⟨out, by
      rw [rowLoop_step pSrc ps Ss pTpl pt Wt Ht St pr Wr Hr Sr f r st st1 hr hb, hrun]⟩

end SIMDConv

namespace SIMDConv

/-! ## Reading large buffers -/

theorem readByte_replicate (n : Nat) (x : Byte) (i : Int) (h0 : 0 ≤ i) (h1 : i < (n : Int)) :
    readByte (List.replicate n x) i = some x := by
  unfold readByte
  rw [if_neg (by omega), List.getElem?_replicate, if_pos (by omega)]

theorem readByte_neg (m : List Byte) (i : Int) (h : i < 0) : readByte m i = none := by
  unfold readByte
  rw [if_pos h]

theorem readCell_replicate (n : Nat) (x : F32) (i : Int) (h0 : 0 ≤ i) (h1 : i < (n : Int)) :
    readCell (List.replicate n x) i = some x := by
  unfold readCell
  rw [if_neg (by omega), List.getElem?_replicate, if_pos (by omega)]

/-- A kernel call of length 1 whose second operand lies outside its buffer does not return. -/
theorem kernel_one_none (K : List Byte) (pk : Int) (C : List Byte) (pc : Int)
    (h : readByte C pc = none) : Native_IM_Conv_SIMD_run K pk C pc 1 = none := by
  have e : Int.tdiv 1 16 = 0 := by decide
  unfold Native_IM_Conv_SIMD_run
  simp only [e, zero_mul, Int.toNat_zero, vecLoop, lt_irrefl, if_false, sub_zero]
  have e1 : (1 : Int).toNat = 0 + 1 := rfl
  rw [e1]
  simp only [scalarLoop, zero_lt_one, if_true, scalarBody, add_zero, h]
  cases readByte K pk <;> rfl

theorem cellSum_one_none (pSrc : List Byte) (Ss : Int) (pTpl : List Byte) (pt St rs : Int)
    (h : readByte pSrc rs = none) : cellSum pSrc Ss pTpl pt 1 1 St rs = none := by
  unfold cellSum
  have e1 : (1 : Int).toNat = 0 + 1 := rfl
  rw [e1]
  simp only [tplLoop, zero_lt_one, if_true, kernel_one_none pTpl pt pSrc rs h]
  rfl

/-! ## The engine at the offsets the code computes -/

/-- The smaller overflow example: the source buffer starts at the source pointer and holds
`2^31 + 1` bytes, the source stride is `2^30`, the template is one byte and the result has 3
rows of 1 cell. For `r = 2` the `int` product `r * srcStride` is `-2^31`: the call reads the
source at offset `-2^31` and does not return. -/
theorem narrow_source_run (t : Byte) :
    MatchTemplate_SIMD (List.replicate 2147483649 0) 0 1 3 1073741824 [t] 0 1 1 1
      (List.replicate 3 { val := 7 }) 0 1 3 1 = none := by
  cases h : MatchTemplate_SIMD (List.replicate 2147483649 0) 0 1 3 1073741824 [t] 0 1 1 1
      (List.replicate 3 { val := 7 }) 0 1 3 1 with
  | none => rfl
  | some out =>
    exfalso
    obtain ⟨_, _, hw⟩ := rowLoop_inv (List.replicate 2147483649 0) 0 1073741824 [t] 0 1 1 1 0
      1 3 1 _ 0 _ out h
    obtain ⟨_, ⟨v0, hv0⟩, _⟩ := hw 2 0 (by decide) (by decide) (by decide) (by decide)
    have w2 : wrap32 (2 * 1073741824) = -2147483648 := by decide
    rw [w2, cellSum_one_none _ _ _ _ _ _ (readByte_neg _ _ (by decide))] at hv0
    cases hv0

/-- The engine with an empty template: every result cell it addresses receives 0, the other
cells keep their values, no byte is read, and for `tplHeight ≤ 0` the kernel is not invoked. -/
theorem engine_empty_template (pSrc : List Byte) (ps sw sh Ss : Int) (pTpl : List Byte)
    (pt Wt Ht St : Int) (pResult : List F32) (pr Wr Hr Sr : Int)
    (hempty : Ht ≤ 0 ∨ Wt ≤ 0)
    (hres : ∀ r c : Int, 0 ≤ r → r < Hr → 0 ≤ c → c < Wr →
      0 ≤ pr + (wrap32 (r * Sr) + c) ∧ pr + (wrap32 (r * Sr) + c) < (pResult.length : Int)) :
    ∃ out, MatchTemplate_SIMD pSrc ps sw sh Ss pTpl pt Wt Ht St pResult pr Wr Hr Sr = some out
      ∧ (∀ r c : Int, 0 ≤ r → r < Hr → 0 ≤ c → c < Wr →
          readCell out.result (pr + (wrap32 (r * Sr) + c)) = some { val := 0 })
      ∧ (∀ i : Int, (∀ r c : Int, 0 ≤ r → r < Hr → 0 ≤ c → c < Wr →
            i ≠ pr + (wrap32 (r * Sr) + c)) →
          readCell out.result i = readCell pResult i)
      ∧ out.reads = []
      ∧ (Ht ≤ 0 → out.calls = 0) := by
  have harea : Ht.toNat * Wt.toNat = 0 := by
    rcases hempty with h | h
    · have : Ht.toNat = 0 := by omega
      rw [this, Nat.zero_mul]
    · have : Wt.toNat = 0 := by omega
      rw [this, Nat.mul_zero]
  obtain ⟨out, h1, _, h3, h4, h5⟩ := engine_spec pSrc ps sw sh Ss pTpl pt Wt Ht St pResult
    pr Wr Hr Sr (by rw [harea]; decide)
    (fun r c g1 g2 g3 g4 => by
      have := hres r c g1 g2 g3 g4
      omega)
    (fun r c _ _ _ _ k hk hw => by
      exfalso
      rcases hempty with h | h <;> omega)
  refine ⟨out, h1, ?_, ?_, ?_, ?_⟩
  · intro r c g1 g2 g3 g4
    obtain ⟨r2, c2, _, _, _, _, _, q6⟩ := h4 r c g1 g2 g3 g4
    have hz : rowsExact pSrc Ss pTpl Wt St (ps + wrap32 (r2 * Ss) + c2) pt Ht.toNat = 0 := by
      have hr := rowsExact_range pSrc Ss pTpl Wt St Ht.toNat (ps + wrap32 (r2 * Ss) + c2) pt
      rw [harea] at hr
      simp only [Nat.cast_zero, mul_zero] at hr
      omega
    have e : pr + (wrap32 (r * Sr) + c) = pr + wrap32 (r * Sr) + c := by ring
    rw [e, q6, hz]
  · intro i hi
    exact h3 i (fun r c g1 g2 g3 g4 => by
      have := hi r c g1 g2 g3 g4
      omega)
  · exact engine_empty_template_reads pSrc ps sw sh Ss pTpl pt Wt Ht St pResult pr Wr Hr Sr out
      hempty h1
  · intro hH
    have : Ht.toNat = 0 := by omega
    rw [h5, this]
    simp

/-! ## The value of a cell does not depend on where the bytes lie -/

/-- C9 fails as stated: with `tplWidth = 0`, a 1 x 1 result and a template of one row, the call
invokes the kernel once and overwrites the result cell, which held 7, with 0. -/
theorem degenerate_template_counterexample :
    MatchTemplate_SIMD [5] 0 1 1 1 [3] 0 0 1 1 [{ val := 7 }] 0 1 1 1
        = some { result := [{ val := 0 }], calls := 1, reads := [] }
      ∧ (MatchTemplate_SIMD [5] 0 1 1 1 [3] 0 0 1 1 [{ val := 7 }] 0 1 1 1).map MatchRun.result
        ≠ some [{ val := 7 }] := by
  decide

/-- C9 as amended: with `resultHeight ≤ 0` or `resultWidth ≤ 0` the call does no work and leaves
the result buffer as it was. With `tplWidth ≤ 0` or `tplHeight ≤ 0` and the result cells it
addresses inside the result buffer, the call returns without reading a byte and, for
`tplHeight ≤ 0`, without invoking the kernel; but it stores 0 in every result cell `(r, c)`, at
the offset `r * Sr + c` with the product taken in `int` arithmetic, and leaves every other cell
as it was. -/
theorem degenerate_dimensions (pSrc : List Byte) (ps srcWidth srcHeight Ss : Int)
    (pTpl : List Byte) (pt Wt Ht St : Int) (pResult : List F32) (pr Wr Hr Sr : Int) :
    ((Hr ≤ 0 ∨ Wr ≤ 0) →
      MatchTemplate_SIMD pSrc ps srcWidth srcHeight Ss pTpl pt Wt Ht St pResult pr Wr Hr Sr
        = some { result := pResult, calls := 0, reads := [] })
    ∧ ((Wt ≤ 0 ∨ Ht ≤ 0) →
        (∀ r c : Int, 0 ≤ r → r < Hr → 0 ≤ c → c < Wr →
          0 ≤ pr + (wrap32 (r * Sr) + c)
            ∧ pr + (wrap32 (r * Sr) + c) < (pResult.length : Int)) →
        ∃ out, MatchTemplate_SIMD pSrc ps srcWidth srcHeight Ss pTpl pt Wt Ht St pResult pr
            Wr Hr Sr = some out
          ∧ (∀ r c : Int, 0 ≤ r → r < Hr → 0 ≤ c → c < Wr →
              readCell out.result (pr + (wrap32 (r * Sr) + c)) = some { val := 0 })
          ∧ (∀ i : Int, (∀ r c : Int, 0 ≤ r → r < Hr → 0 ≤ c → c < Wr →
                i ≠ pr + (wrap32 (r * Sr) + c)) →
              readCell out.result i = readCell pResult i)
          ∧ out.reads = []
          ∧ (Ht ≤ 0 → out.calls = 0)) :=
  ⟨engine_empty_result pSrc ps srcWidth srcHeight Ss pTpl pt Wt Ht St pResult pr Wr Hr Sr,
    fun hdeg hres => engine_empty_template pSrc ps srcWidth srcHeight Ss pTpl pt Wt Ht St pResult
      pr Wr Hr Sr (by rcases hdeg with h | h; exact Or.inr h; exact Or.inl h) hres⟩

/-- C9 as amended, on a result of width 0 (nothing happens) and on a 1 x 2 result with an empty
template (`tplHeight = 0`): both result cells receive 0, the third cell of the buffer keeps its
value, nothing is read and the kernel is not invoked. -/
theorem degenerate_dimensions_witness :
    MatchTemplate_SIMD [5] 0 1 1 1 [3] 0 1 0 1 [{ val := 7 }, { val := 8 }, { val := 9 }]
        0 0 1 2
        = some { result := [{ val := 7 }, { val := 8 }, { val := 9 }], calls := 0, reads := [] }
      ∧ (∃ out, MatchTemplate_SIMD [5] 0 1 1 1 [3] 0 1 0 1
            [{ val := 7 }, { val := 8 }, { val := 9 }] 0 2 1 2 = some out
        ∧ (∀ r c : Int, 0 ≤ r → r < 1 → 0 ≤ c → c < 2 →
            readCell out.result (0 + (wrap32 (r * 2) + c)) = some { val := 0 })
        ∧ (∀ i : Int, (∀ r c : Int, 0 ≤ r → r < 1 → 0 ≤ c → c < 2 →
              i ≠ 0 + (wrap32 (r * 2) + c)) →
            readCell out.result i = readCell [{ val := 7 }, { val := 8 }, { val := 9 }] i)
        ∧ out.reads = []
        ∧ ((0 : Int) ≤ 0 → out.calls = 0))
      ∧ MatchTemplate_SIMD [5] 0 1 1 1 [3] 0 1 0 1 [{ val := 7 }, { val := 8 }, { val := 9 }]
          0 2 1 2
        = some { result := [{ val := 0 }, { val := 0 }, { val := 9 }], calls := 0, reads := [] } :=
  ⟨(degenerate_dimensions [5] 0 1 1 1 [3] 0 1 0 1 [{ val := 7 }, { val := 8 }, { val := 9 }]
      0 0 1 2).1 (Or.inr (by decide)),
    (degenerate_dimensions [5] 0 1 1 1 [3] 0 1 0 1 [{ val := 7 }, { val := 8 }, { val := 9 }]
      0 2 1 2).2 (Or.inr (by decide))
      (by
        intro r c h1 h2 h3 h4
        have e : r = 0 := by omega
        subst e
        have w : wrap32 (0 * 2) = 0 := by decide
        rw [w]
        simp only [List.length_cons, List.length_nil]
        omega),
    by decide⟩

/-- C17 fails as stated. A source of width 1 and height 3 with stride `2^30` in a buffer of
`2^31 + 1` bytes, a 1 x 1 template and a result of width 1 and height 3 satisfy the typical
sizing (`Wr = Ws - Wt + 1`, `Hr = Hs - Ht + 1`, `1 ≤ Wt ≤ Ws`, `1 ≤ Ht ≤ Hs`), the stride
conditions and the three buffer sizes; but for `r = 2` the `int` product `r * srcStride` is
`-2^31`, and the call reads the source at offset `-2^31`, outside the buffer: it does not
return. -/
theorem typical_sizing_counterexample :
    ((1 : Int) = 1 - 1 + 1 ∧ (3 : Int) = 3 - 1 + 1 ∧ (1 : Int) ≤ 1 ∧ (1 : Int) ≤ 3
      ∧ (1 : Int) ≤ 1073741824 ∧ (1 : Int) ≤ 1 ∧ (1 : Int) ≤ 1
      ∧ (0 : Int) + ((3 - 1) * 1073741824 + 1)
          ≤ ((List.replicate 2147483649 (0 : Byte)).length : Int)
      ∧ (0 : Int) + ((1 - 1) * 1 + 1) ≤ (([1] : List Byte).length : Int)
      ∧ (0 : Int) + ((3 - 1) * 1 + 1) ≤ ((List.replicate 3 ({ val := 7 } : F32)).length : Int))
    ∧ MatchTemplate_SIMD (List.replicate 2147483649 0) 0 1 3 1073741824 [1] 0 1 1 1
        (List.replicate 3 { val := 7 }) 0 1 3 1 = none
    ∧ wrap32 (2 * 1073741824) = -2147483648 := by
  refine ⟨⟨by decide, by decide, by decide, by decide, by decide, by decide, by decide, ?_,
    by decide, ?_⟩, ?_, by decide⟩
  · rw [List.length_replicate]; decide
  · rw [List.length_replicate]; decide
  · exact narrow_source_run 1

/-- C17 as amended: under the typical sizing `Wr = Ws - Wt + 1`, `Hr = Hs - Ht + 1` with
`1 ≤ Wt ≤ Ws`, `1 ≤ Ht` (for `Ht > Hs` there is no result row), strides at least the widths,
buffers holding from the pointers on at least `(Hs - 1) * Ss + Ws` source bytes,
`(Ht - 1) * St + Wt` template bytes and `(Hr - 1) * Sr + Wr` result cells, and row offsets
`(Hr - 1) * Ss` and `(Hr - 1) * Sr` of at most `2^31 - 1`, the call returns: no access, the
16-byte loads of the kernel included, leaves its buffer. Every read logged lies inside the
template or the source, and every result cell lies inside the result buffer. -/
theorem match_template_typical_sizing (pSrc : List Byte) (ps Ws Hs Ss : Int) (pTpl : List Byte)
    (pt Wt Ht St : Int) (pResult : List F32) (pr Wr Hr Sr : Int)
    (hWr : Wr = Ws - Wt + 1) (hHr : Hr = Hs - Ht + 1) (hWt1 : 1 ≤ Wt) (hWt2 : Wt ≤ Ws)
    (hHt1 : 1 ≤ Ht) (hSs : Ws ≤ Ss) (hSt : Wt ≤ St) (hSr : Wr ≤ Sr)
    (hps : 0 ≤ ps) (hpt : 0 ≤ pt) (hpr : 0 ≤ pr)
    (hsrc : ps + ((Hs - 1) * Ss + Ws) ≤ (pSrc.length : Int))
    (htpl : pt + ((Ht - 1) * St + Wt) ≤ (pTpl.length : Int))
    (hres : pr + ((Hr - 1) * Sr + Wr) ≤ (pResult.length : Int))
    (hfitS : (Hr - 1) * Ss ≤ 2147483647) (hfitR : (Hr - 1) * Sr ≤ 2147483647) :
    ∃ out, MatchTemplate_SIMD pSrc ps Ws Hs Ss pTpl pt Wt Ht St pResult pr Wr Hr Sr = some out
      ∧ (∀ rd ∈ out.reads, Read.inBounds pTpl pSrc rd)
      ∧ (∀ r c : Int, 0 ≤ r → r < Hr → 0 ≤ c → c < Wr →
          0 ≤ pr + (r * Sr + c) ∧ pr + (r * Sr + c) < (pResult.length : Int)) := by
  have fS : RowOffsetsFit Hr Ss := by
    intro r h0 h1
    have a1 : 0 ≤ r * Ss := mul_nonneg h0 (by omega)
    have a2 : r * Ss ≤ (Hr - 1) * Ss := mul_le_mul_of_nonneg_right (by omega) (by omega)
    omega
  have fR : RowOffsetsFit Hr Sr := by
    intro r h0 h1
    have a1 : 0 ≤ r * Sr := mul_nonneg h0 (by omega)
    have a2 : r * Sr ≤ (Hr - 1) * Sr := mul_le_mul_of_nonneg_right (by omega) (by omega)
    omega
  have hcells : ∀ r c : Int, 0 ≤ r → r < Hr → 0 ≤ c → c < Wr →
      0 ≤ pr + (r * Sr + c) ∧ pr + (r * Sr + c) < (pResult.length : Int) := by
    intro r c h1 h2 h3 h4
    have a1 : 0 ≤ r * Sr := mul_nonneg h1 (by omega)
    have a2 : r * Sr ≤ (Hr - 1) * Sr := mul_le_mul_of_nonneg_right (by omega) (by omega)
    omega
  have hbytes : ∀ r c : Int, 0 ≤ r → r < Hr → 0 ≤ c → c < Wr → ∀ k : Nat, k < Ht.toNat →
      0 < Wt →
      (0 ≤ pt + (k : Int) * St ∧ pt + (k : Int) * St + Wt ≤ (pTpl.length : Int))
        ∧ (0 ≤ ps + wrap32 (r * Ss) + c + (k : Int) * Ss
          ∧ ps + wrap32 (r * Ss) + c + (k : Int) * Ss + Wt ≤ (pSrc.length : Int)) := by
    intro r c h1 h2 h3 h4 k hk _
    rw [wrap32_row fS h1 h2]
    have a1 : 0 ≤ (k : Int) * St := mul_nonneg (by omega) (by omega)
    have a2 : (k : Int) * St ≤ (Ht - 1) * St := mul_le_mul_of_nonneg_right (by omega) (by omega)
    have a3 : 0 ≤ (r + (k : Int)) * Ss := mul_nonneg (by omega) (by omega)
    have a4 : (r + (k : Int)) * Ss ≤ (Hs - 1) * Ss :=
      mul_le_mul_of_nonneg_right (by omega) (by omega)
    have e : (r + (k : Int)) * Ss = r * Ss + (k : Int) * Ss := by ring
    rw [e] at a3 a4
    omega
  obtain ⟨out, hout⟩ := rowLoop_total pSrc ps Ss pTpl pt Wt Ht St pr Wr Hr Sr Hr.toNat Hr.toNat 0
    { result := pResult, calls := 0, reads := [] } (by simp) (le_refl _)
    (fun r c h1 h2 h3 h4 => by
      rw [wrap32_row fR h1 h2]
      have := hcells r c h1 h2 h3 h4
      show 0 ≤ pr + r * Sr + c ∧ pr + r * Sr + c < (pResult.length : Int)
      omega)
    hbytes
  exact ⟨out, hout,
    engine_trace_inBounds pSrc ps Ws Hs Ss pTpl pt Wt Ht St pResult pr Wr Hr Sr out hout, hcells⟩

/-- C17 on a 4 x 4 source of stride 5, a 2 x 2 template of stride 2 and a 3 x 3 result of
stride 3. -/
theorem match_template_typical_sizing_witness :
    ∃ out, MatchTemplate_SIMD (List.replicate 19 1) 0 4 4 5 (List.replicate 4 1) 0 2 2 2
        (List.replicate 9 { val := 7 }) 0 3 3 3 = some out
      ∧ (∀ rd ∈ out.reads, Read.inBounds (List.replicate 4 1) (List.replicate 19 1) rd)
      ∧ (∀ r c : Int, 0 ≤ r → r < 3 → 0 ≤ c → c < 3 →
          0 ≤ 0 + (r * 3 + c)
            ∧ 0 + (r * 3 + c) < ((List.replicate 9 ({ val := 7 } : F32)).length : Int)) :=
  match_template_typical_sizing (List.replicate 19 1) 0 4 4 5 (List.replicate 4 1) 0 2 2 2
    (List.replicate 9 { val := 7 }) 0 3 3 3 (by decide) (by decide) (by decide) (by decide)
    (by decide) (by decide) (by decide) (by decide) (by decide) (by decide) (by decide)
    (by decide) (by decide) (by decide) (by decide) (by decide)

/-- C18 fails as stated. The result pointer is cell `2^31` of a buffer of `2^32 + 1` cells that
all hold 7; `resultStride = 2^30`, the result has 3 rows of 1 cell and the template is empty
(`tplHeight = 0`). Every cell `r * Sr + c` lies inside the buffer; but for `r = 2` the `int`
product `r * resultStride` is `-2^31`: the call returns, cell `2 * Sr + 0` still holds 7, and
the 0 was stored in the first cell of the buffer. -/
theorem zero_fill_counterexample :
    (∀ r c : Int, 0 ≤ r → r < 3 → 0 ≤ c → c < 1 →
      0 ≤ 2147483648 + (r * 1073741824 + c)
        ∧ 2147483648 + (r * 1073741824 + c)
          < ((List.replicate 4294967297 ({ val := 7 } : F32)).length : Int))
    ∧ ∃ out, MatchTemplate_SIMD [5] 0 1 1 1 [3] 0 1 0 1
          (List.replicate 4294967297 { val := 7 }) 2147483648 1 3 1073741824 = some out
        ∧ readCell out.result (2147483648 + (2 * 1073741824 + 0)) = some { val := 7 }
        ∧ readCell out.result (2147483648 + (wrap32 (2 * 1073741824) + 0)) = some { val := 0 }
        ∧ wrap32 (2 * 1073741824) = -2147483648 := by
  have w0 : wrap32 (0 * 1073741824) = 0 := by decide
  have w1 : wrap32 (1 * 1073741824) = 1073741824 := by decide
  have w2 : wrap32 (2 * 1073741824) = -2147483648 := by decide
  refine ⟨fun r c h1 h2 h3 h4 => by rw [List.length_replicate]; omega, ?_⟩
  obtain ⟨out, hrun, hz, hframe, _, _⟩ := engine_empty_template [5] 0 1 1 1 [3] 0 1 0 1
    (List.replicate 4294967297 { val := 7 }) 2147483648 1 3 1073741824 (Or.inl (by decide))
    (fun r c g1 g2 g3 g4 => by
      rw [List.length_replicate]
      interval_cases r
      · rw [w0]; omega
      · rw [w1]; omega
      · rw [w2]; omega)
  refine ⟨out, hrun, ?_, hz 2 0 (by decide) (by decide) (by decide) (by decide), w2⟩
  rw [hframe _ (fun r c g1 g2 g3 g4 => by
    interval_cases r
    · rw [w0]; omega
    · rw [w1]; omega
    · rw [w2]; omega)]
  exact readCell_replicate 4294967297 _ _ (by decide) (by decide)

/-- C18 as amended: with an empty template (`tplHeight ≤ 0` or `tplWidth ≤ 0`), no row offset
`r * Sr` with `r` in `[0, Hr)` overflowing an `int`, and the result cells inside the result
buffer, the call returns and every result cell `r * Sr + c`, `r` in `[0, Hr)`, `c` in
`[0, Wr)`, holds 0 afterwards, whatever it held before; no source or template byte is read,
and with `tplHeight ≤ 0` the kernel is not invoked. -/
theorem empty_template_zero_fill (pSrc : List Byte) (ps srcWidth srcHeight Ss : Int)
    (pTpl : List Byte) (pt Wt Ht St : Int) (pResult : List F32) (pr Wr Hr Sr : Int)
    (hempty : Ht ≤ 0 ∨ Wt ≤ 0) (hfitR : RowOffsetsFit Hr Sr)
    (hres : ∀ r c : Int, 0 ≤ r → r < Hr → 0 ≤ c → c < Wr →
      0 ≤ pr + (r * Sr + c) ∧ pr + (r * Sr + c) < (pResult.length : Int)) :
    ∃ out, MatchTemplate_SIMD pSrc ps srcWidth srcHeight Ss pTpl pt Wt Ht St pResult pr Wr Hr Sr
        = some out
      ∧ (∀ r c : Int, 0 ≤ r → r < Hr → 0 ≤ c → c < Wr →
          readCell out.result (pr + (r * Sr + c)) = some { val := 0 })
      ∧ out.reads = []
      ∧ (Ht ≤ 0 → out.calls = 0) := by
  obtain ⟨out, h1, h2, _, h4, h5⟩ := engine_empty_template pSrc ps srcWidth srcHeight Ss pTpl pt
    Wt Ht St pResult pr Wr Hr Sr hempty
    (fun r c g1 g2 g3 g4 => by rw [wrap32_row hfitR g1 g2]; exact hres r c g1 g2 g3 g4)
  refine ⟨out, h1, ?_, h4, h5⟩
  intro r c g1 g2 g3 g4
  have := h2 r c g1 g2 g3 g4
  rw [wrap32_row hfitR g1 g2] at this
  exact this

/-- C18 on a 2 x 2 result with `tplHeight = 0`: the four cells, which held 7, hold 0, the
kernel was not invoked and nothing was read. -/
theorem empty_template_zero_fill_witness :
    MatchTemplate_SIMD [5] 0 1 1 1 [3] 0 1 0 1 (List.replicate 4 { val := 7 }) 0 2 2 2
        = some { result := List.replicate 4 { val := 0 }, calls := 0, reads := [] }
      ∧ ∃ out, MatchTemplate_SIMD [5] 0 1 1 1 [3] 0 1 0 1 (List.replicate 4 { val := 7 })
          0 2 2 2 = some out
        ∧ (∀ r c : Int, 0 ≤ r → r < 2 → 0 ≤ c → c < 2 →
            readCell out.result (0 + (r * 2 + c)) = some { val := 0 })
        ∧ out.reads = []
        ∧ ((0 : Int) ≤ 0 → out.calls = 0) :=
  ⟨by decide,
    empty_template_zero_fill [5] 0 1 1 1 [3] 0 1 0 1 (List.replicate 4 { val := 7 }) 0 2 2 2
      (Or.inl (by decide)) (fun r h0 h1 => by omega)
      (by intro r c _ _ _ _; simp only [List.length_replicate]; omega)⟩

/-! ## The engine on one memory -/

theorem readByte_set (m : List Byte) (n : Nat) (b : Byte) (j : Int) (h : j ≠ (n : Int)) :
    readByte (m.set n b) j = readByte m j := by
  unfold readByte
  by_cases hj : j < 0
  · rw [if_pos hj, if_pos hj]
  · rw [if_neg hj, if_neg hj, List.getElem?_set_ne (by omega)]

theorem readByte_set_self (m : List Byte) (n : Nat) (b : Byte) (h : n < m.length) :
    readByte (m.set n b) (n : Int) = some b := by
  unfold readByte
  rw [if_neg (by omega)]
  simp [List.getElem?_set, h]

/-- A store of a `float` keeps the size of the memory and changes only its four bytes. -/
theorem storeFloat_inv (m m1 : List Byte) (a : Int) (v : F32)
    (h : storeFloat m a v = some m1) :
    (0 ≤ a ∧ a + 4 ≤ (m.length : Int)) ∧ m1.length = m.length
      ∧ (∀ j : Int, j < a ∨ a + 4 ≤ j → readByte m1 j = readByte m j)
      ∧ readByte m1 a = some (v.byte 0) := by
  unfold storeFloat at h
  by_cases hb : 0 ≤ a ∧ a + 4 ≤ (m.length : Int)
  · rw [if_pos hb] at h
    simp only [Option.some.injEq] at h
    subst h
    refine ⟨hb, by simp only [List.length_set], ?_, ?_⟩
    · intro j hj
      rw [readByte_set _ _ _ _ (by push_cast; omega), readByte_set _ _ _ _ (by push_cast; omega),
        readByte_set _ _ _ _ (by push_cast; omega), readByte_set _ _ _ _ (by omega)]
    · rw [readByte_set _ _ _ _ (by push_cast; omega), readByte_set _ _ _ _ (by push_cast; omega),
        readByte_set _ _ _ _ (by push_cast; omega)]
      have e : a = ((a.toNat : Nat) : Int) := by omega
      rw [e]
      simp only [Int.toNat_ofNat]
      exact readByte_set_self m a.toNat _ (by omega)
  · rw [if_neg hb] at h
    cases h

theorem storeFloat_spec (m : List Byte) (a : Int) (v : F32)
    (h : 0 ≤ a ∧ a + 4 ≤ (m.length : Int)) : ∃ m1, storeFloat m a v = some m1 := by
  unfold storeFloat
  rw [if_pos h]
  exact ⟨_, rfl⟩

theorem colLoopMem_done (Ss pt Wt Ht St Wr : Int) (fuel : Nat) (c rm rsrc : Int) (st : MemRun)
    (h : ¬ c < Wr) : colLoopMem Ss pt Wt Ht St Wr fuel c rm rsrc st = some st := by
  cases fuel <;> simp [colLoopMem, h]

theorem colLoopMem_step (Ss pt Wt Ht St Wr : Int) (fuel : Nat) (c rm rsrc : Int)
    (st st1 : MemRun) (h : c < Wr)
    (hb : cellBodyMem Ss pt Wt Ht St rm rsrc st = some st1) :
    colLoopMem Ss pt Wt Ht St Wr (fuel + 1) c rm rsrc st
      = colLoopMem Ss pt Wt Ht St Wr fuel (c + 1) (rm + 4) (rsrc + 1) st1 := by
  simp [colLoopMem, h, hb]

theorem rowLoopMem_done (ps Ss pt Wt Ht St pr Wr Hr Sr : Int) (fuel : Nat) (r : Int)
    (st : MemRun) (h : ¬ r < Hr) :
    rowLoopMem ps Ss pt Wt Ht St pr Wr Hr Sr fuel r st = some st := by
  cases fuel <;> simp [rowLoopMem, h]

theorem rowLoopMem_step (ps Ss pt Wt Ht St pr Wr Hr Sr : Int) (fuel : Nat) (r : Int)
    (st st1 : MemRun) (h : r < Hr)
    (hb : colLoopMem Ss pt Wt Ht St Wr Wr.toNat 0 (pr + 4 * wrap32 (r * Sr))
      (ps + wrap32 (r * Ss)) st = some st1) :
    rowLoopMem ps Ss pt Wt Ht St pr Wr Hr Sr (fuel + 1) r st
      = rowLoopMem ps Ss pt Wt Ht St pr Wr Hr Sr fuel (r + 1) st1 := by
  simp [rowLoopMem, h, hb]

/-- What a successful cell body did to the memory: one store of a `float`. -/
theorem cellBodyMem_inv (Ss pt Wt Ht St rm rsrc : Int) (st st1 : MemRun)
    (h : cellBodyMem Ss pt Wt Ht St rm rsrc st = some st1) :
    ∃ v, cellSum st.mem Ss st.mem pt Wt Ht St rsrc = some v
      ∧ storeFloat st.mem rm v = some st1.mem := by
  unfold cellBodyMem at h
  simp only at h
  cases hc : tplLoop st.mem Ss st.mem Wt Ht St Ht.toNat 0 rsrc pt
      { sum := { val := 0 }, calls := st.calls, reads := st.reads } with
  | none => rw [hc] at h; cases h
  | some cell =>
    rw [hc] at h
    simp only at h
    have hs : cellSum st.mem Ss st.mem pt Wt Ht St rsrc = some cell.sum := by
      unfold cellSum
      rw [tplLoop_sum_indep st.mem Ss st.mem Wt Ht St Ht.toNat 0 rsrc pt
        { sum := { val := 0 }, calls := 0, reads := [] }
        { sum := { val := 0 }, calls := st.calls, reads := st.reads } rfl, hc]
      rfl
    cases hw : storeFloat st.mem rm cell.sum with
    | none => rw [hw] at h; cases h
    | some m1 =>
      rw [hw] at h
      simp only [Option.some.injEq] at h
      subst h
      exact ⟨cell.sum, hs, hw⟩

/-- What a successful loop over the columns did to the memory: only bytes of the cells of the
row, which start at the address `rm`, changed. -/
theorem colLoopMem_inv (Ss pt Wt Ht St Wr : Int) :
    ∀ (fuel : Nat) (c rm rsrc : Int) (st out : MemRun),
      colLoopMem Ss pt Wt Ht St Wr fuel c rm rsrc st = some out →
      out.mem.length = st.mem.length
        ∧ (∀ a : Int, (∀ c1, c ≤ c1 → c1 < Wr →
              a < rm + 4 * (c1 - c) ∨ rm + 4 * (c1 - c) + 4 ≤ a) →
            readByte out.mem a = readByte st.mem a)
        ∧ (∀ c1, c ≤ c1 → c1 < Wr →
            0 ≤ rm + 4 * (c1 - c) ∧ rm + 4 * (c1 - c) + 4 ≤ (st.mem.length : Int)) := by
  intro fuel
  induction fuel with
  | zero =>
    intro c rm rsrc st out h
    by_cases hc : c < Wr
    · simp [colLoopMem, hc] at h
    · simp only [colLoopMem, hc, if_false, Option.some.injEq] at h
      subst h
      exact ⟨rfl, fun _ _ => rfl, fun c1 h1 h2 => by omega⟩
  | succ f ih =>
    intro c rm rsrc st out h
    by_cases hc : c < Wr
    · cases hb : cellBodyMem Ss pt Wt Ht St rm rsrc st with
      | none => simp [colLoopMem, hc, hb] at h
      | some st1 =>
        rw [colLoopMem_step Ss pt Wt Ht St Wr f c rm rsrc st st1 hc hb] at h
        obtain ⟨hlen, hframe, hbnd⟩ := ih (c + 1) (rm + 4) (rsrc + 1) st1 out h
        obtain ⟨v, _, hst⟩ := cellBodyMem_inv Ss pt Wt Ht St rm rsrc st st1 hb
        obtain ⟨hb0, hlen1, hfr1, _⟩ := storeFloat_inv st.mem st1.mem rm v hst
        refine ⟨by rw [hlen, hlen1], ?_, ?_⟩
        · intro a ha
          rw [hframe a (fun c1 h1 h2 => by
            have := ha c1 (by omega) h2
            omega)]
          exact hfr1 a (by
            have := ha c (le_refl _) hc
            omega)
        · intro c1 h1 h2
          rcases eq_or_lt_of_le h1 with e | hlt
          · subst e
            omega
          · have := hbnd c1 (by omega) h2
            rw [hlen1] at this
            omega
    · rw [colLoopMem_done Ss pt Wt Ht St Wr _ c rm rsrc st hc] at h
      simp only [Option.some.injEq] at h
      subst h
      exact ⟨rfl, fun _ _ => rfl, fun c1 h1 h2 => by omega⟩

/-- What a successful loop over the rows did to the memory: only bytes of the result cells, at
the addresses the code computes, changed, and these cells lie in the memory. -/
theorem rowLoopMem_inv (ps Ss pt Wt Ht St pr Wr Hr Sr : Int) :
    ∀ (fuel : Nat) (r : Int) (st out : MemRun),
      rowLoopMem ps Ss pt Wt Ht St pr Wr Hr Sr fuel r st = some out →
      out.mem.length = st.mem.length
        ∧ (∀ a : Int, (∀ r1 c1, r ≤ r1 → r1 < Hr → 0 ≤ c1 → c1 < Wr →
              a < pr + 4 * (wrap32 (r1 * Sr) + c1) ∨ pr + 4 * (wrap32 (r1 * Sr) + c1) + 4 ≤ a) →
            readByte out.mem a = readByte st.mem a)
        ∧ (∀ r1 c1, r ≤ r1 → r1 < Hr → 0 ≤ c1 → c1 < Wr →
            0 ≤ pr + 4 * (wrap32 (r1 * Sr) + c1)
              ∧ pr + 4 * (wrap32 (r1 * Sr) + c1) + 4 ≤ (st.mem.length : Int)) := by
  intro fuel
  induction fuel with
  | zero =>
    intro r st out h
    by_cases hr : r < Hr
    · simp [rowLoopMem, hr] at h
    · simp only [rowLoopMem, hr, if_false, Option.some.injEq] at h
      subst h
      exact ⟨rfl, fun _ _ => rfl, fun r1 c1 h1 h2 => by omega⟩
  | succ f ih =>
    intro r st out h
    by_cases hr : r < Hr
    · cases hb : colLoopMem Ss pt Wt Ht St Wr Wr.toNat 0 (pr + 4 * wrap32 (r * Sr))
          (ps + wrap32 (r * Ss)) st with
      | none => simp [rowLoopMem, hr, hb] at h
      | some st1 =>
        rw [rowLoopMem_step ps Ss pt Wt Ht St pr Wr Hr Sr f r st st1 hr hb] at h
        obtain ⟨hlen, hframe, hbnd⟩ := ih (r + 1) st1 out h
        obtain ⟨hlen1, hframe1, hbnd1⟩ :=
          colLoopMem_inv Ss pt Wt Ht St Wr Wr.toNat 0 (pr + 4 * wrap32 (r * Sr))
            (ps + wrap32 (r * Ss)) st st1 hb
        refine ⟨by rw [hlen, hlen1], ?_, ?_⟩
        · intro a ha
          rw [hframe a (fun r1 c1 h1 h2 h3 h4 => ha r1 c1 (by omega) h2 h3 h4)]
          exact hframe1 a (fun c1 h1 h2 => by
            have := ha r c1 (le_refl _) hr h1 h2
            omega)
        · intro r1 c1 h1 h2 h3 h4
          rcases eq_or_lt_of_le h1 with e | hlt
          · subst e
            have := hbnd1 c1 h3 h4
            omega
          · have := hbnd r1 c1 (by omega) h2 h3 h4
            rw [hlen1] at this
            exact this
    · rw [rowLoopMem_done ps Ss pt Wt Ht St pr Wr Hr Sr _ r st hr] at h
      simp only [Option.some.injEq] at h
      subst h
      exact ⟨rfl, fun _ _ => rfl, fun r1 c1 h1 h2 => by omega⟩

theorem cellBodyMem_total (Ss pt Wt Ht St rm rsrc : Int) (st : MemRun)
    (hres : 0 ≤ rm ∧ rm + 4 ≤ (st.mem.length : Int))
    (hin : ∀ k : Nat, k < Ht.toNat → 0 < Wt →
        (0 ≤ pt + (k : Int) * St ∧ pt + (k : Int) * St + Wt ≤ (st.mem.length : Int))
          ∧ (0 ≤ rsrc + (k : Int) * Ss ∧ rsrc + (k : Int) * Ss + Wt ≤ (st.mem.length : Int))) :
    ∃ st1, cellBodyMem Ss pt Wt Ht St rm rsrc st = some st1 := by
  obtain ⟨c, hc⟩ := tplLoop_total st.mem Ss st.mem Wt Ht St Ht.toNat Ht.toNat 0 rsrc pt
    { sum := { val := 0 }, calls := st.calls, reads := st.reads } (by simp) (le_refl _)
    (fun k hk hw => hin k hk hw)
  obtain ⟨m1, hm1⟩ := storeFloat_spec st.mem rm c.sum hres
  exact ⟨_, by simp only [cellBodyMem, hc, hm1]; rfl⟩

theorem colLoopMem_total (Ss pt Wt Ht St Wr : Int) (R S : Int) (len : Nat) :
    ∀ (n fuel : Nat) (c : Int) (st : MemRun), n = (Wr - c).toNat → n ≤ fuel →
      st.mem.length = len →
      (∀ c1, c ≤ c1 → c1 < Wr → 0 ≤ R + 4 * c1 ∧ R + 4 * c1 + 4 ≤ (len : Int)) →
      (∀ c1, c ≤ c1 → c1 < Wr → ∀ k : Nat, k < Ht.toNat → 0 < Wt →
        (0 ≤ pt + (k : Int) * St ∧ pt + (k : Int) * St + Wt ≤ (len : Int))
          ∧ (0 ≤ S + c1 + (k : Int) * Ss ∧ S + c1 + (k : Int) * Ss + Wt ≤ (len : Int))) →
      ∃ out, colLoopMem Ss pt Wt Ht St Wr fuel c (R + 4 * c) (S + c) st = some out := by
  intro n
  induction n with
  | zero =>
    intro fuel c st hn _ _ _ _
    exact ⟨st, colLoopMem_done Ss pt Wt Ht St Wr fuel c _ _ st (by omega)⟩
  | succ n ih =>
    intro fuel c st hn hf hl hres hin
    obtain ⟨f, rfl⟩ : ∃ f, fuel = f + 1 := ⟨fuel - 1, by omega⟩
    have hc : c < Wr := by omega
    obtain ⟨st1, hb⟩ := cellBodyMem_total Ss pt Wt Ht St (R + 4 * c) (S + c) st
      (by rw [hl]; exact hres c (le_refl _) hc) (by rw [hl]; exact hin c (le_refl _) hc)
    obtain ⟨v, _, hst⟩ := cellBodyMem_inv Ss pt Wt Ht St _ _ st st1 hb
    obtain ⟨_, hlen1, _, _⟩ := storeFloat_inv st.mem st1.mem _ v hst
    obtain ⟨out, hrun⟩ := ih f (c + 1) st1 (by omega) (by omega) (by rw [hlen1, hl])
      (fun c1 h1 h2 => hres c1 (by omega) h2)
      (fun c1 h1 h2 => hin c1 (by omega) h2)
    refine ⟨out, ?_⟩
    rw [colLoopMem_step Ss pt Wt Ht St Wr f c _ _ st st1 hc hb]
    have e1 : R + 4 * c + 4 = R + 4 * (c + 1) := by ring
    have e2 : S + c + 1 = S + (c + 1) := by ring
    rw [e1, e2, hrun]

theorem rowLoopMem_total (ps Ss pt Wt Ht St pr Wr Hr Sr : Int) (len : Nat) :
    ∀ (n fuel : Nat) (r : Int) (st : MemRun), n = (Hr - r).toNat → n ≤ fuel →
      st.mem.length = len →
      (∀ r1 c1, r ≤ r1 → r1 < Hr → 0 ≤ c1 → c1 < Wr →
        0 ≤ pr + 4 * (wrap32 (r1 * Sr) + c1)
          ∧ pr + 4 * (wrap32 (r1 * Sr) + c1) + 4 ≤ (len : Int)) →
      (∀ r1 c1, r ≤ r1 → r1 < Hr → 0 ≤ c1 → c1 < Wr → ∀ k : Nat, k < Ht.toNat → 0 < Wt →
        (0 ≤ pt + (k : Int) * St ∧ pt + (k : Int) * St + Wt ≤ (len : Int))
          ∧ (0 ≤ ps + wrap32 (r1 * Ss) + c1 + (k : Int) * Ss
            ∧ ps + wrap32 (r1 * Ss) + c1 + (k : Int) * Ss + Wt ≤ (len : Int))) →
      ∃ out, rowLoopMem ps Ss pt Wt Ht St pr Wr Hr Sr fuel r st = some out := by
  intro n
  induction n with
  | zero =>
    intro fuel r st hn _ _ _ _
    exact ⟨st, rowLoopMem_done ps Ss pt Wt Ht St pr Wr Hr Sr fuel r st (by omega)⟩
  | succ n ih =>
    intro fuel r st hn hf hl hres hin
    obtain ⟨f, rfl⟩ : ∃ f, fuel = f + 1 := ⟨fuel - 1, by omega⟩
    have hr : r < Hr := by omega
    obtain ⟨st1, hb⟩ := colLoopMem_total Ss pt Wt Ht St Wr (pr + 4 * wrap32 (r * Sr))
      (ps + wrap32 (r * Ss)) len Wr.toNat Wr.toNat 0 st (by omega) (le_refl _) hl
      (fun c1 h1 h2 => by
        have := hres r c1 (le_refl _) hr h1 h2
        omega)
      (fun c1 h1 h2 => hin r c1 (le_refl _) hr h1 h2)
    simp only [mul_zero, add_zero] at hb
    obtain ⟨hlen1, _, _⟩ := colLoopMem_inv Ss pt Wt Ht St Wr _ _ _ _ st st1 hb
    obtain ⟨out, hrun⟩ := ih f (r + 1) st1 (by omega) (by omega) (by rw [hlen1, hl])
      (fun r1 c1 h1 h2 h3 h4 => hres r1 c1 (by omega) h2 h3 h4)
      (fun r1 c1 h1 h2 h3 h4 => hin r1 c1 (by omega) h2 h3 h4)
    exact ⟨out, by rw [rowLoopMem_step ps Ss pt Wt Ht St pr Wr Hr Sr f r st st1 hr hb, hrun]⟩

/-- The last cell a successful loop over the columns stored. -/
theorem colLoopMem_last (Ss pt Wt Ht St Wr : Int) :
    ∀ (fuel : Nat) (c rm rsrc : Int) (st out : MemRun), c < Wr →
      colLoopMem Ss pt Wt Ht St Wr fuel c rm rsrc st = some out →
      ∃ m v, cellSum m Ss m pt Wt Ht St (rsrc + (Wr - 1 - c)) = some v
        ∧ storeFloat m (rm + 4 * (Wr - 1 - c)) v = some out.mem := by
  intro fuel
  induction fuel with
  | zero =>
    intro c rm rsrc st out hc h
    simp [colLoopMem, hc] at h
  | succ f ih =>
    intro c rm rsrc st out hc h
    cases hb : cellBodyMem Ss pt Wt Ht St rm rsrc st with
    | none => simp [colLoopMem, hc, hb] at h
    | some st1 =>
      rw [colLoopMem_step Ss pt Wt Ht St Wr f c rm rsrc st st1 hc hb] at h
      by_cases hn : c + 1 < Wr
      · obtain ⟨m, v, h1, h2⟩ := ih (c + 1) (rm + 4) (rsrc + 1) st1 out hn h
        have e1 : rsrc + 1 + (Wr - 1 - (c + 1)) = rsrc + (Wr - 1 - c) := by ring
        have e2 : rm + 4 + 4 * (Wr - 1 - (c + 1)) = rm + 4 * (Wr - 1 - c) := by ring
        rw [e1] at h1
        rw [e2] at h2
        exact ⟨m, v, h1, h2⟩
      · rw [colLoopMem_done Ss pt Wt Ht St Wr f (c + 1) _ _ st1 hn] at h
        simp only [Option.some.injEq] at h
        subst h
        obtain ⟨v, h1, h2⟩ := cellBodyMem_inv Ss pt Wt Ht St rm rsrc st st1 hb
        have e : Wr - 1 - c = 0 := by omega
        rw [e, mul_zero, add_zero, add_zero]
        exact ⟨st.mem, v, h1, h2⟩

/-- The last cell a successful run stored: cell `(Hr - 1, Wr - 1)`, at the address the code
computes for it. -/
theorem rowLoopMem_last (ps Ss pt Wt Ht St pr Wr Hr Sr : Int) (hW : 0 < Wr) :
    ∀ (fuel : Nat) (r : Int) (st out : MemRun), r < Hr →
      rowLoopMem ps Ss pt Wt Ht St pr Wr Hr Sr fuel r st = some out →
      ∃ m v, cellSum m Ss m pt Wt Ht St (ps + wrap32 ((Hr - 1) * Ss) + (Wr - 1)) = some v
        ∧ storeFloat m (pr + 4 * wrap32 ((Hr - 1) * Sr) + 4 * (Wr - 1)) v = some out.mem := by
  intro fuel
  induction fuel with
  | zero =>
    intro r st out hr h
    simp [rowLoopMem, hr] at h
  | succ f ih =>
    intro r st out hr h
    cases hb : colLoopMem Ss pt Wt Ht St Wr Wr.toNat 0 (pr + 4 * wrap32 (r * Sr))
        (ps + wrap32 (r * Ss)) st with
    | none => simp [rowLoopMem, hr, hb] at h
    | some st1 =>
      rw [rowLoopMem_step ps Ss pt Wt Ht St pr Wr Hr Sr f r st st1 hr hb] at h
      by_cases hn : r + 1 < Hr
      · exact ih (r + 1) st1 out hn h
      · rw [rowLoopMem_done ps Ss pt Wt Ht St pr Wr Hr Sr f (r + 1) st1 hn] at h
        simp only [Option.some.injEq] at h
        subst h
        obtain ⟨m, v, h1, h2⟩ := colLoopMem_last Ss pt Wt Ht St Wr _ 0 _ _ st st1 hW hb
        have e : r = Hr - 1 := by omega
        subst e
        simp only [sub_zero] at h1 h2
        exact ⟨m, v, h1, h2⟩

theorem cellSum_no_rows (pSrc : List Byte) (Ss : Int) (pTpl : List Byte) (pt Wt St rs : Int) :
    cellSum pSrc Ss pTpl pt Wt 0 St rs = some { val := 0 } := by
  simp [cellSum, tplLoop]

/-- C16: run in one memory without overflow of the row offsets `r * Sr`, a call that returns
has changed only bytes of the result cells `r * Sr + c` with `r` in `[0, Hr)` and `c` in
`[0, Wr)`, `Sr` counting `float` cells of four bytes. The memory keeps its size and every other
byte holds the value it held before: so do the bytes of the padding cells `r * Sr + c` with
`Wr ≤ c < Sr`, and so do the source bytes and the template bytes when no result cell overlaps
them. The call returns when the cells and the bytes it reads lie in the memory. -/
theorem match_template_frame (mem : List Byte) (pSrc srcWidth srcHeight Ss pTpl Wt Ht St
    pResult Wr Hr Sr : Int) (hfitR : RowOffsetsFit Hr Sr) :
    (∀ out : MemRun,
        MatchTemplate_SIMD_mem mem pSrc srcWidth srcHeight Ss pTpl Wt Ht St pResult Wr Hr Sr
          = some out →
        out.mem.length = mem.length
          ∧ (∀ a : Int, ¬ CellByte pResult Wr Hr Sr a → readByte out.mem a = readByte mem a)
          ∧ (∀ r c j : Int, 0 ≤ r → r < Hr → Wr ≤ c → c < Sr → 0 ≤ j → j < 4 →
              readByte out.mem (pResult + 4 * (r * Sr + c) + j)
                = readByte mem (pResult + 4 * (r * Sr + c) + j))
          ∧ ((∀ y x : Int, 0 ≤ y → y < srcHeight → 0 ≤ x → x < srcWidth →
                ¬ CellByte pResult Wr Hr Sr (pSrc + (y * Ss + x))) →
              ∀ y x : Int, 0 ≤ y → y < srcHeight → 0 ≤ x → x < srcWidth →
                readByte out.mem (pSrc + (y * Ss + x)) = readByte mem (pSrc + (y * Ss + x)))
          ∧ ((∀ y x : Int, 0 ≤ y → y < Ht → 0 ≤ x → x < Wt →
                ¬ CellByte pResult Wr Hr Sr (pTpl + (y * St + x))) →
              ∀ y x : Int, 0 ≤ y → y < Ht → 0 ≤ x → x < Wt →
                readByte out.mem (pTpl + (y * St + x)) = readByte mem (pTpl + (y * St + x))))
      ∧ ((∀ r c : Int, 0 ≤ r → r < Hr → 0 ≤ c → c < Wr →
            0 ≤ pResult + 4 * (r * Sr + c)
              ∧ pResult + 4 * (r * Sr + c) + 4 ≤ (mem.length : Int)) →
          (∀ r c tr tc : Int, 0 ≤ r → r < Hr → 0 ≤ c → c < Wr → 0 ≤ tr → tr < Ht →
            0 ≤ tc → tc < Wt →
            (0 ≤ pSrc + (wrap32 (r * Ss) + tr * Ss + c + tc)
                ∧ pSrc + (wrap32 (r * Ss) + tr * Ss + c + tc) < (mem.length : Int))
              ∧ (0 ≤ pTpl + (tr * St + tc) ∧ pTpl + (tr * St + tc) < (mem.length : Int))) →
          ∃ out, MatchTemplate_SIMD_mem mem pSrc srcWidth srcHeight Ss pTpl Wt Ht St pResult
            Wr Hr Sr = some out) := by
  constructor
  · intro out h
    obtain ⟨hlen, hframe, _⟩ := rowLoopMem_inv pSrc Ss pTpl Wt Ht St pResult Wr Hr Sr _ 0 _ out h
    have hfr : ∀ a : Int, ¬ CellByte pResult Wr Hr Sr a → readByte out.mem a = readByte mem a := by
      intro a ha
      apply hframe a
      intro r1 c1 h1 h2 h3 h4
      rw [wrap32_row hfitR h1 h2]
      by_contra hcon
      exact ha ⟨r1, c1, h1, h2, h3, h4, by omega, by omega⟩
    refine ⟨hlen, hfr, ?_, fun hd y x h1 h2 h3 h4 => hfr _ (hd y x h1 h2 h3 h4),
      fun hd y x h1 h2 h3 h4 => hfr _ (hd y x h1 h2 h3 h4)⟩
    intro r c j h1 h2 h3 h4 h5 h6
    apply hfr
    rintro ⟨r2, c2, g1, g2, g3, g4, g5, g6⟩
    have e : r * Sr + c = r2 * Sr + c2 := by omega
    rcases lt_trichotomy r r2 with hlt | heq | hgt
    · have : 1 * Sr ≤ (r2 - r) * Sr := mul_le_mul_of_nonneg_right (by omega) (by omega)
      have e2 : (r2 - r) * Sr = r2 * Sr - r * Sr := by ring
      omega
    · subst heq
      omega
    · have : 1 * Sr ≤ (r - r2) * Sr := mul_le_mul_of_nonneg_right (by omega) (by omega)
      have e2 : (r - r2) * Sr = r * Sr - r2 * Sr := by ring
      omega
  · intro hres hin
    exact rowLoopMem_total pSrc Ss pTpl Wt Ht St pResult Wr Hr Sr mem.length Hr.toNat Hr.toNat 0
      { mem := mem, calls := 0, reads := [] } (by simp) (le_refl _) rfl
      (fun r c g1 g2 g3 g4 => by rw [wrap32_row hfitR g1 g2]; exact hres r c g1 g2 g3 g4)
      (fun r c g1 g2 g3 g4 k hk hw => by
        have a := hin r c (k : Int) 0 g1 g2 g3 g4 (by omega) (by omega) (le_refl _) (by omega)
        have b := hin r c (k : Int) (Wt - 1) g1 g2 g3 g4 (by omega) (by omega) (by omega)
          (by omega)
        omega)

/-- C16 on a memory of 20 bytes: a 1 x 2 source at address 0, a 1 x 1 template at address 2 and
a 1 x 2 result of stride 3 at address 4. The cells receive 15.0 and 27.0; the padding cell at
address 12 and the source and template bytes keep their values. The run on three separate
buffers writes the same two values, whose bytes are the ones stored here. -/
theorem match_template_frame_witness :
    MatchTemplate_SIMD_mem [5, 9, 3, 0, 1, 1, 1, 1, 2, 2, 2, 2, 7, 7, 7, 7, 8, 8, 8, 8]
        0 2 1 2 2 1 1 1 4 2 1 3
        = some { mem := [5, 9, 3, 0, 0, 0, 112, 65, 0, 0, 216, 65, 7, 7, 7, 7, 8, 8, 8, 8],
                 calls := 2,
                 reads := [⟨Operand.kernel, 2⟩, ⟨Operand.conv, 0⟩, ⟨Operand.kernel, 2⟩,
                   ⟨Operand.conv, 1⟩] }
      ∧ (∀ r c j : Int, 0 ≤ r → r < 1 → 2 ≤ c → c < 3 → 0 ≤ j → j < 4 →
          readByte [5, 9, 3, 0, 0, 0, 112, 65, 0, 0, 216, 65, 7, 7, 7, 7, 8, 8, 8, 8]
              (4 + 4 * (r * 3 + c) + j)
            = readByte [5, 9, 3, 0, 1, 1, 1, 1, 2, 2, 2, 2, 7, 7, 7, 7, 8, 8, 8, 8]
              (4 + 4 * (r * 3 + c) + j))
      ∧ (MatchTemplate_SIMD [5, 9] 0 2 1 2 [3] 0 1 1 1
            [{ val := 1 }, { val := 2 }, { val := 7 }] 0 2 1 3).map MatchRun.result
          = some [{ val := 15 }, { val := 27 }, { val := 7 }]
      ∧ (List.range 4).map (F32.byte { val := 15 }) = [0, 0, 112, 65]
      ∧ (List.range 4).map (F32.byte { val := 27 }) = [0, 0, 216, 65] :=
  ⟨by decide,
    ((match_template_frame [5, 9, 3, 0, 1, 1, 1, 1, 2, 2, 2, 2, 7, 7, 7, 7, 8, 8, 8, 8]
      0 2 1 2 2 1 1 1 4 2 1 3 (fun r h0 h1 => by omega)).1
      { mem := [5, 9, 3, 0, 0, 0, 112, 65, 0, 0, 216, 65, 7, 7, 7, 7, 8, 8, 8, 8],
        calls := 2,
        reads := [⟨Operand.kernel, 2⟩, ⟨Operand.conv, 0⟩, ⟨Operand.kernel, 2⟩,
          ⟨Operand.conv, 1⟩] }
      (by decide)).2.2.1,
    by decide, by decide, by decide⟩

/-- C16 fails as stated, in two ways. When the result cell overlaps the source (all three
pointers into one memory of 8 bytes, `pResult = pSrc`), the call replaces the source byte 3 and
the template byte 1 by bytes of the score 3.0. And with `resultStride = 2^30` and three rows the
`int` product `2 * resultStride` overflows to `-2^31`: in a memory of `2^34 + 4` bytes with
`pResult` at address `2^33`, the call stores the last cell at address 0, which is not a byte of
any cell `r * Sr + c`. -/
theorem frame_counterexample :
    (MatchTemplate_SIMD_mem [3, 1, 9, 9, 9, 9, 9, 9] 0 1 1 1 1 1 1 1 0 1 1 1
        = some { mem := [0, 0, 64, 64, 9, 9, 9, 9], calls := 1,
                 reads := [⟨Operand.kernel, 1⟩, ⟨Operand.conv, 0⟩] }
      ∧ readByte [0, 0, 64, 64, 9, 9, 9, 9] 0 ≠ readByte [3, 1, 9, 9, 9, 9, 9, 9] 0)
    ∧ (¬ CellByte 8589934592 1 3 1073741824 0
      ∧ ∃ out, MatchTemplate_SIMD_mem (List.replicate 17179869188 255) 0 0 0 0 0 0 0 0
            8589934592 1 3 1073741824 = some out
          ∧ readByte out.mem 0 = some 0
          ∧ readByte (List.replicate 17179869188 255) 0 = some 255) := by
  have w0 : wrap32 (0 * 1073741824) = 0 := by decide
  have w1 : wrap32 (1 * 1073741824) = 1073741824 := by decide
  have w2 : wrap32 (2 * 1073741824) = -2147483648 := by decide
  refine ⟨⟨by decide, by decide⟩, ?_, ?_⟩
  · rintro ⟨r, c, h1, h2, h3, h4, h5, h6⟩
    omega
  · obtain ⟨out, hrun⟩ := rowLoopMem_total 0 0 0 0 0 0 8589934592 1 3 1073741824 17179869188
      3 3 0 { mem := List.replicate 17179869188 255, calls := 0, reads := [] } (by decide)
      (le_refl _) (by rw [List.length_replicate])
      (fun r c g1 g2 g3 g4 => by
        interval_cases r
        · rw [w0]; omega
        · rw [w1]; omega
        · rw [w2]; omega)
      (fun r c g1 g2 g3 g4 k hk hw => by omega)
    have hrun2 : MatchTemplate_SIMD_mem (List.replicate 17179869188 255) 0 0 0 0 0 0 0 0
        8589934592 1 3 1073741824 = some out := hrun
    refine ⟨out, hrun2, ?_, readByte_replicate _ _ _ (by decide) (by decide)⟩
    obtain ⟨m, v, hv, hst⟩ := rowLoopMem_last 0 0 0 0 0 0 8589934592 1 3 1073741824 (by decide)
      _ 0 _ out (by decide) hrun
    rw [cellSum_no_rows] at hv
    cases hv
    have e : (8589934592 : Int) + 4 * wrap32 ((3 - 1) * 1073741824) + 4 * (1 - 1) = 0 := by
      decide
    rw [e] at hst
    exact (storeFloat_inv m out.mem 0 _ hst).2.2.2

end SIMDConv
